import Mathlib

/-!
# Verification of the Go engine (`go.cpp`)

A shallow embedding of `class Board` of `go.cpp` (grid, capture flood fill, placement,
move generation, random playout, scoring) and of `class MCTS` (selection by UCT, expansion,
simulation, backpropagation, choice of the move) together with theorems about them.

Modelling conventions.

* `int` coordinates are `Int`; no arithmetic in `Board` can overflow (values stay within
  `-1 .. 9`, counters within `-81 .. 81`).
* `array<array<Color, SIZE>, SIZE>` is a vector of `SIZE` vectors of `SIZE` colours, so a
  `Board` always has exactly `SIZE * SIZE` cells.
* `grid[r][c]` with an index outside the array does not fail in C++: it reads whatever lies
  at that address.  Such a read is modelled by an oracle `oob : Pt → Color` which is a
  parameter of every function that can perform it; theorems hold for every oracle.
* `std::stack` is a list whose head is the top; `std::unordered_set` is a list without
  duplicates (its iteration order is irrelevant: the only iteration writes the same value
  to every element).
* `rand()` is an oracle `rnd : Nat → Nat` giving the value of the `i`-th call.
* `while` loops are structurally recursive on a fuel argument; for the flood fill the fuel
  `SIZE * SIZE` is proved to be sufficient.
-/

namespace GoEngine

/-- Board side length: `#define SIZE 9`. -/
abbrev SIZE : Nat := 9

/-- A coordinate: `struct Pt { int row, col; }` with its component-wise `operator==`. -/
structure Pt where
  row : Int
  col : Int
deriving DecidableEq, Repr

/-- Cell state: `enum class Color { Black, White, Empty }`. -/
inductive Color where
  | Black
  | White
  | Empty
deriving DecidableEq, Repr

/-- The data members of `class Board`: `grid` and `turnColor`. -/
structure Board where
  grid : Mathlib.Vector (Mathlib.Vector Color SIZE) SIZE
  turnColor : Color
deriving DecidableEq

/-- The four orthogonal neighbours in the order of `Board::adjacent`. -/
def adjacent (pt : Pt) : List Pt :=
  [⟨pt.row + 1, pt.col⟩, ⟨pt.row - 1, pt.col⟩, ⟨pt.row, pt.col + 1⟩, ⟨pt.row, pt.col - 1⟩]

/-- The test of `Board::outOfBounds`. -/
def outOfBounds (pt : Pt) : Bool :=
  decide (pt.row < 0) || decide (pt.row ≥ (SIZE : Int)) ||
  decide (pt.col < 0) || decide (pt.col ≥ (SIZE : Int))

/-- A coordinate inside `[0, SIZE) × [0, SIZE)`. -/
def InRange (pt : Pt) : Prop :=
  0 ≤ pt.row ∧ pt.row < (SIZE : Int) ∧ 0 ≤ pt.col ∧ pt.col < (SIZE : Int)

instance (pt : Pt) : Decidable (InRange pt) := by
  unfold InRange; infer_instance

/-- The read `grid[pt.row][pt.col]` of `Board::getColor`; outside the array the oracle
`oob` supplies the value found there. -/
def getColor (oob : Pt → Color) (b : Board) (pt : Pt) : Color :=
  if h : InRange pt then
    (b.grid.get ⟨pt.row.toNat, by unfold InRange at h; omega⟩).get
      ⟨pt.col.toNat, by unfold InRange at h; omega⟩
  else oob pt

/-- The write `grid[pt.row][pt.col] = c`.  The program performs it only at coordinates
that passed the bounds test; elsewhere the model leaves the board alone. -/
def setColor (b : Board) (pt : Pt) (c : Color) : Board :=
  if h : InRange pt then
    { b with
      grid := b.grid.set ⟨pt.row.toNat, by unfold InRange at h; omega⟩
        ((b.grid.get ⟨pt.row.toNat, by unfold InRange at h; omega⟩).set
          ⟨pt.col.toNat, by unfold InRange at h; omega⟩ c) }
  else b

/-- The local state of the flood fill in `Board::attemptCapture`. -/
structure Flood where
  visited : List Pt
  toVisit : List Pt
  noLiberties : Bool
deriving DecidableEq, Repr

/-- One pass of the body of `for (const auto adj : adjacent(curr))`. -/
def visitAdj (oob : Pt → Color) (b : Board) (curr : Pt) (st : Flood) (adj : Pt) : Flood :=
  if outOfBounds adj then st
  else if getColor oob b adj = getColor oob b curr ∧ adj ∉ st.visited then
    { st with toVisit := adj :: st.toVisit, visited := adj :: st.visited }
  else if getColor oob b adj = Color.Empty then
    { st with noLiberties := false }
  else st

/-- The loop `while (!toVisit.empty())` of `Board::attemptCapture`, at most `fuel` turns. -/
def floodLoop (oob : Pt → Color) (b : Board) : Nat → Flood → Flood
  | 0, st => st
  | fuel + 1, st =>
    match st.toVisit with
    | [] => st
    | curr :: rest =>
      floodLoop oob b fuel
        ((adjacent curr).foldl (visitAdj oob b curr) { st with toVisit := rest })

/-- The loop `for (const auto& remove : visited) grid[remove.row][remove.col] = Empty`. -/
def removeAll (b : Board) (visited : List Pt) : Board :=
  visited.foldl (fun g remove => setColor g remove Color.Empty) b

/-- Embedding of `Board::attemptCapture`: the returned flag and the board afterwards. -/
def attemptCapture (oob : Pt → Color) (b : Board) (pt : Pt) : Bool × Board :=
  if getColor oob b pt = Color.Empty ∨ outOfBounds pt = true then (false, b)
  else
    let st := floodLoop oob b (SIZE * SIZE) ⟨[pt], [pt], true⟩
    if st.noLiberties then (true, removeAll b st.visited) else (false, b)

/-- Embedding of `Board::switchTurn`. -/
def switchTurn (b : Board) : Board :=
  if b.turnColor = Color.Black then { b with turnColor := Color.White }
  else { b with turnColor := Color.Black }

/-- Embedding of `Board::isEmpty`. -/
def isEmpty (oob : Pt → Color) (b : Board) (pt : Pt) : Bool :=
  decide (getColor oob b pt = Color.Empty)

/-- One pass of `for (const auto adj : adjacent(pt)) if (attemptCapture(adj)) noCapture = false;`
on the pair (`noCapture`, board). -/
def captureStep (oob : Pt → Color) (acc : Bool × Board) (adj : Pt) : Bool × Board :=
  let r := attemptCapture oob acc.2 adj
  if r.1 then (false, r.2) else (acc.1, r.2)

/-- Embedding of `Board::place`: the returned flag and the board afterwards. -/
def place (oob : Pt → Color) (b : Board) (pt : Pt) : Bool × Board :=
  if (!isEmpty oob b pt) = true ∨ outOfBounds pt = true then (false, b)
  else
    let b1 := switchTurn (setColor b pt b.turnColor)
    let r := (adjacent pt).foldl (captureStep oob) (true, b1)
    if r.1 then (true, (attemptCapture oob r.2 pt).2) else (true, r.2)

/-- The board built by the constructor `Board::Board()`. -/
def Board.init : Board :=
  ⟨Mathlib.Vector.replicate SIZE (Mathlib.Vector.replicate SIZE Color.Empty), Color.Black⟩

/-- Embedding of `Board::validMoves`: rows `i = 0 .. SIZE-1`, inside each row columns
`j = 0 .. SIZE-1`, keeping `Pt{i, j}` when `isEmpty` holds. -/
def validMoves (oob : Pt → Color) (b : Board) : List Pt :=
  (List.range SIZE).flatMap fun (i : Nat) =>
    ((List.range SIZE).map fun (j : Nat) => Pt.mk (i : Int) (j : Int)).filter
      fun pt => isEmpty oob b pt

/-- The `switch (p)` of `Board::blackWins`: `blackAdv++` for Black, `blackAdv--` for White. -/
def advStep (blackAdv : Int) (p : Color) : Int :=
  match p with
  | Color.Black => blackAdv + 1
  | Color.White => blackAdv - 1
  | Color.Empty => blackAdv

/-- The counter `blackAdv` of `Board::blackWins` after the two nested loops
`for (auto row : grid) for (auto p : row)`. -/
def blackAdv (b : Board) : Int :=
  b.grid.toList.foldl (fun adv row => row.toList.foldl advStep adv) 0

/-- Embedding of `Board::blackWins`: `blackAdv > 0`. -/
def blackWins (b : Board) : Bool :=
  decide (blackAdv b > 0)

/-- The loop `while (true)` of `Board::playout`, at most `fuel` turns; `i` counts the calls
of `rand()` made so far.  `none` means the fuel ran out before the loop reached `break`. -/
def playoutLoop (oob : Pt → Color) (rnd : Nat → Nat) : Nat → Nat → Board → Option Board
  | 0, _, _ => none
  | fuel + 1, i, b =>
    if h : (validMoves oob b).length ≤ 1 then some b
    else
      let move := (validMoves oob b).get
        ⟨rnd i % (validMoves oob b).length, Nat.mod_lt _ (by omega)⟩
      playoutLoop oob rnd fuel (i + 1) (place oob b move).2

/-- Embedding of `Board::playout`: the returned value together with the board the loop
stopped on. -/
def playout (oob : Pt → Color) (rnd : Nat → Nat) (fuel : Nat) (b : Board) :
    Option (Int × Board) :=
  (playoutLoop oob rnd fuel 0 b).map fun final => (if blackWins final then 1 else -1, final)

/-! ### The search tree (`class MCTS`)

Modelling conventions.

* The nodes live on the heap; a `Node*` (and the target of a `unique_ptr<Node>`) is the
  position of the node in the list `heap` of all nodes allocated so far, in the order of
  allocation.  The root, allocated by the constructor, is address `0`.  Reading an address
  at which nothing was allocated finds a blank node; addresses produced by the program are
  those of allocated nodes.
* `int visits` is only ever incremented from `0`, at most once per iteration, so it is a
  `Nat`.  `double wins` only ever receives `+1` or `-1`, which doubles add exactly, so it is
  an `Int`.  The member `Node::playForBlack` is never written or read and is left out.
* A `double` used in a comparison is a `Score`: `-inf`, `+inf`, NaN, or a finite double,
  which is a rational number.  The finite double that the expression
  `wins / totalVisits + 1.1 * sqrt(log(totalVisits) / visits)` rounds to is given by a
  parameter `uct` (the library functions `log` and `sqrt` are not part of the program);
  for `totalVisits = 0` and `visits != 0` the expression is NaN.
* In iteration `i` of `runMCTS` the values of `rand()` are `rnds i 0` for the choice of the
  child and `rnds i (k + 1)` for the `k`-th call made by `playout`.
* A run that evaluates `rand() % 0`, dereferences a null `bestNode`, or does not leave a
  loop within its fuel ends in a `Fault`.  The progress bar written to `cout` is left out. -/

/-- The ways in which a run of the search can fail to return. -/
inductive Fault where
  | divisionByZero
  | nullPointer
  | outOfFuel
deriving DecidableEq, Repr

deriving instance DecidableEq for Except

/-- The data members of `MCTS::Node`; `children` holds the addresses of the owned nodes. -/
structure Node where
  board : Board
  move : Pt
  children : List Nat
  visits : Nat
  wins : Int
deriving DecidableEq

/-- The object built by `Node(const Board& b, Pt m)`: no child, `visits = 0`, `wins = 0.0`. -/
def Node.create (b : Board) (m : Pt) : Node :=
  ⟨b, m, [], 0, 0⟩

/-- The node at an address of the heap. -/
def nodeAt (heap : List Node) (addr : Nat) : Node :=
  heap.getD addr (Node.create Board.init ⟨-1, -1⟩)

/-- The value of a `double` as comparisons see it. -/
inductive Score where
  | negInf
  | finite (q : ℚ)
  | posInf
  | nan
deriving DecidableEq

/-- The comparison `a < b` of two doubles (false as soon as one of them is NaN). -/
def Score.lt : Score → Score → Bool
  | Score.negInf, Score.finite _ => true
  | Score.negInf, Score.posInf => true
  | Score.finite a, Score.finite b => decide (a < b)
  | Score.finite _, Score.posInf => true
  | _, _ => false

/-- Embedding of `Node::UCT`. -/
def UCT (uct : Int → Nat → Nat → ℚ) (n : Node) (totalVisits : Nat) : Score :=
  if n.visits = 0 then Score.posInf
  else if totalVisits = 0 then Score.nan
  else Score.finite (uct n.wins totalVisits n.visits)

/-- One pass of `for (auto& child : node->children)` in `MCTS::select`, on the pair
(`bestValue`, `bestNode`); `none` is `nullptr`. -/
def selectStep (uct : Int → Nat → Nat → ℚ) (heap : List Node) (totalVisits : Nat)
    (best : Score × Option Nat) (child : Nat) : Score × Option Nat :=
  if Score.lt best.1 (UCT uct (nodeAt heap child) totalVisits) then
    (UCT uct (nodeAt heap child) totalVisits, some child)
  else best

/-- The pointer `bestNode` after the `for` loop of `MCTS::select` at `node`: every child is
scored with `child->UCT(node->visits + 1)`. -/
def bestNode (uct : Int → Nat → Nat → ℚ) (heap : List Node) (node : Nat) : Option Nat :=
  ((nodeAt heap node).children.foldl
    (selectStep uct heap ((nodeAt heap node).visits + 1)) (Score.negInf, none)).2

/-- The loop `while (!node->children.empty())` of `MCTS::select`, at most `fuel` turns, on
the pair (`node`, `path`). -/
def selectLoop (uct : Int → Nat → Nat → ℚ) (heap : List Node) :
    Nat → Nat → List Nat → Except Fault (Nat × List Nat)
  | 0, _, _ => Except.error Fault.outOfFuel
  | fuel + 1, node, path =>
    if (nodeAt heap node).children = [] then Except.ok (node, path)
    else
      match bestNode uct heap node with
      | none => Except.error Fault.nullPointer
      | some best => selectLoop uct heap fuel best (path ++ [best])

/-- Embedding of `MCTS::select`: `path.clear()`, then the loop; returns the node reached and
the path recorded.  The fuel is the number of allocated nodes. -/
def select (uct : Int → Nat → Nat → ℚ) (heap : List Node) (node : Nat) :
    Except Fault (Nat × List Nat) :=
  selectLoop uct heap heap.length node []

/-- One pass of the loop of `Node::expand` for the node at address `node`: the new node is
allocated at the end of the heap and its address pushed onto `children`. -/
def expandStep (oob : Pt → Color) (node : Nat) (heap : List Node) (move : Pt) : List Node :=
  (heap ++ [Node.create (place oob (nodeAt heap node).board move).2 move]).set node
    { nodeAt heap node with children := (nodeAt heap node).children ++ [heap.length] }

/-- Embedding of `Node::expand` for the node at address `node`. -/
def expand (oob : Pt → Color) (heap : List Node) (node : Nat) : List Node :=
  (validMoves oob (nodeAt heap node).board).foldl (expandStep oob node) heap

/-- One pass of the loop of `MCTS::backpropagate`. -/
def backpropagateStep (result playForBlack : Int) (heap : List Node) (node : Nat) : List Node :=
  heap.set node
    { nodeAt heap node with
      visits := (nodeAt heap node).visits + 1
      wins := (nodeAt heap node).wins + result * playForBlack }

/-- Embedding of `MCTS::backpropagate`. -/
def backpropagate (result playForBlack : Int) (path : List Nat) (heap : List Node) :
    List Node :=
  path.foldl (backpropagateStep result playForBlack) heap

/-- The data members of `class MCTS`: the heap that holds the tree (with `root` at address
`0`), `path` and `playForBlack`. -/
structure MCTS where
  heap : List Node
  path : List Nat
  playForBlack : Int
deriving DecidableEq

/-- The constructor `MCTS(Board b)`. -/
def MCTS.create (b : Board) : MCTS :=
  ⟨[Node.create b ⟨-1, -1⟩], [], if b.turnColor = Color.Black then 1 else -1⟩

/-- One turn of the `for` loop of `MCTS::runMCTS`, with the values `rnd` of `rand()` and
`fuel` turns for the loop of `playout`.  `playout` runs on the board stored in the node and
leaves its final position there. -/
def iteration (oob : Pt → Color) (uct : Int → Nat → Nat → ℚ) (rnd : Nat → Nat) (fuel : Nat)
    (s : MCTS) : Except Fault MCTS :=
  match select uct s.heap 0 with
  | Except.error f => Except.error f
  | Except.ok (leaf, path) =>
    let heap1 := if (nodeAt s.heap leaf).children = [] then expand oob s.heap leaf else s.heap
    if (nodeAt s.heap leaf).children = [] ∧ (nodeAt heap1 leaf).children.length = 0 then
      Except.error Fault.divisionByZero
    else
      let node :=
        if (nodeAt s.heap leaf).children = [] then
          (nodeAt heap1 leaf).children.getD (rnd 0 % (nodeAt heap1 leaf).children.length) 0
        else leaf
      match playout oob (fun k => rnd (k + 1)) fuel (nodeAt heap1 node).board with
      | none => Except.error Fault.outOfFuel
      | some (result, final) =>
        Except.ok
          { s with
            heap := backpropagate result s.playForBlack path
              (heap1.set node { nodeAt heap1 node with board := final })
            path := path }

/-- The `for` loop of `MCTS::runMCTS`: `n` more turns, `i` turns done. -/
def runLoop (oob : Pt → Color) (uct : Int → Nat → Nat → ℚ) (rnds : Nat → Nat → Nat)
    (fuel : Nat) : Nat → Nat → MCTS → Except Fault MCTS
  | 0, _, s => Except.ok s
  | n + 1, i, s =>
    match iteration oob uct (rnds i) fuel s with
    | Except.error f => Except.error f
    | Except.ok s' => runLoop oob uct rnds fuel n (i + 1) s'

/-- One pass of the loop over `root->children` at the end of `MCTS::runMCTS`. -/
def bestChildStep (heap : List Node) (bestChild child : Nat) : Nat :=
  if (nodeAt heap child).visits > (nodeAt heap bestChild).visits then child else bestChild

/-- The end of `MCTS::runMCTS`: the move returned for the tree in `heap`. -/
def bestMove (heap : List Node) : Pt :=
  match (nodeAt heap 0).children with
  | [] => ⟨-1, -1⟩
  | first :: rest => (nodeAt heap ((first :: rest).foldl (bestChildStep heap) first)).move

/-- Embedding of `MCTS::runMCTS`. -/
def runMCTS (oob : Pt → Color) (uct : Int → Nat → Nat → ℚ) (rnds : Nat → Nat → Nat)
    (fuel : Nat) (s : MCTS) (iterations : Nat) : Except Fault Pt :=
  match runLoop oob uct rnds fuel iterations 0 s with
  | Except.error f => Except.error f
  | Except.ok s' => Except.ok (bestMove s'.heap)

/-! ### Grid accesses

The coordinates at which the code indexes `grid`, in program order, following the same
control flow as the functions above. -/

/-- Grid indices used by one pass of the body of the neighbour loop of the flood fill. -/
def visitAdjAccesses (oob : Pt → Color) (b : Board) (curr : Pt) (st : Flood) (adj : Pt) :
    List Pt :=
  if outOfBounds adj then []
  else if getColor oob b adj = getColor oob b curr ∧ adj ∉ st.visited then [adj, curr]
  else [adj, curr, adj]

/-- Grid indices used by the four passes over `adjacent(curr)`. -/
def visitAllAccesses (oob : Pt → Color) (b : Board) (curr : Pt) : Flood → List Pt → List Pt
  | _, [] => []
  | st, adj :: adjs =>
    visitAdjAccesses oob b curr st adj ++
      visitAllAccesses oob b curr (visitAdj oob b curr st adj) adjs

/-- Grid indices used by the flood-fill loop. -/
def floodAccesses (oob : Pt → Color) (b : Board) : Nat → Flood → List Pt
  | 0, _ => []
  | fuel + 1, st =>
    match st.toVisit with
    | [] => []
    | curr :: rest =>
      visitAllAccesses oob b curr { st with toVisit := rest } (adjacent curr) ++
        floodAccesses oob b fuel
          ((adjacent curr).foldl (visitAdj oob b curr) { st with toVisit := rest })

/-- Grid indices used by `Board::attemptCapture`: `getColor(pt)` comes first, before
`outOfBounds(pt)` is evaluated. -/
def attemptCaptureAccesses (oob : Pt → Color) (b : Board) (pt : Pt) : List Pt :=
  pt ::
    (if getColor oob b pt = Color.Empty ∨ outOfBounds pt = true then []
     else
      let st := floodLoop oob b (SIZE * SIZE) ⟨[pt], [pt], true⟩
      floodAccesses oob b (SIZE * SIZE) ⟨[pt], [pt], true⟩ ++
        (if st.noLiberties then st.visited else []))

/-- Grid indices used by the neighbour loop of `Board::place`. -/
def captureAccesses (oob : Pt → Color) : Bool × Board → List Pt → List Pt
  | _, [] => []
  | acc, adj :: adjs =>
    attemptCaptureAccesses oob acc.2 adj ++ captureAccesses oob (captureStep oob acc adj) adjs

/-- Grid indices used by `Board::place`: `isEmpty(pt)` indexes the grid first, before
`outOfBounds(pt)` is evaluated. -/
def placeAccesses (oob : Pt → Color) (b : Board) (pt : Pt) : List Pt :=
  pt ::
    (if (!isEmpty oob b pt) = true ∨ outOfBounds pt = true then []
     else
      let b1 := switchTurn (setColor b pt b.turnColor)
      let r := (adjacent pt).foldl (captureStep oob) (true, b1)
      pt :: (captureAccesses oob (true, b1) (adjacent pt) ++
        (if r.1 then attemptCaptureAccesses oob r.2 pt else [])))

/-! ### Vocabulary of the specification -/

/-- The other player: Black for White and White for Black. -/
def opposite : Color → Color
  | Color.Black => Color.White
  | Color.White => Color.Black
  | Color.Empty => Color.Empty

/-- All coordinates of the board in row-major order. -/
def allPts : List Pt :=
  (List.range SIZE).flatMap fun (i : Nat) =>
    (List.range SIZE).map fun (j : Nat) => Pt.mk (i : Int) (j : Int)

/-- Number of cells of the board holding colour `c`. -/
def countColor (oob : Pt → Color) (b : Board) (c : Color) : Nat :=
  (allPts.filter fun pt => decide (getColor oob b pt = c)).length

/-- Strict row-major order on coordinates: ascending row, then ascending column. -/
def rowMajorLt (p q : Pt) : Prop :=
  p.row < q.row ∨ (p.row = q.row ∧ p.col < q.col)

/-- The board after a run of `place` calls (as the driver does: `board.place(move)` again
and again). -/
def playMoves (oob : Pt → Color) (b : Board) (pts : List Pt) : Board :=
  pts.foldl (fun bd pt => (place oob bd pt).2) b

/-- The oracle under which every read outside the grid finds the value of `Color::Empty`. -/
def oobEmpty : Pt → Color := fun _ => Color.Empty

/-- Number of stones a placement at `pt` takes off the board: the cells that hold a stone
once the new stone is written to `pt` and are Empty when `place` returns (the new stone
counts if it is itself removed). -/
def capturedBy (oob : Pt → Color) (b : Board) (pt : Pt) : Nat :=
  (allPts.filter fun q =>
    decide (getColor oob (setColor b pt b.turnColor) q ≠ Color.Empty ∧
      getColor oob (place oob b pt).2 q = Color.Empty)).length

/-- A position reached after four moves of a game: White on (0,1) and (1,0), Black on (7,8)
and (8,7), Black to move.  A Black stone on the corner (0,0) and a White stone on the
corner (8,8) have no liberty. -/
def cornersBoard : Board :=
  playMoves oobEmpty Board.init [⟨8, 7⟩, ⟨0, 1⟩, ⟨7, 8⟩, ⟨1, 0⟩]

/-- The first `n` turns of the loop of `playout` (from board `b`, with `i` calls of `rand()`
made before) never raise or keep the number of Empty cells: every placement made lowers
it. -/
def lowersEmpty (oob : Pt → Color) (rnd : Nat → Nat) : Nat → Nat → Board → Bool
  | 0, _, _ => true
  | n + 1, i, b =>
    if h : (validMoves oob b).length ≤ 1 then true
    else
      let move := (validMoves oob b).get
        ⟨rnd i % (validMoves oob b).length, Nat.mod_lt _ (by omega)⟩
      decide (countColor oob (place oob b move).2 Color.Empty < countColor oob b Color.Empty) &&
        lowersEmpty oob rnd n (i + 1) (place oob b move).2

/-- The position `cornersBoard` with White to move (Black has just played the corner (0,0)
and lost the stone). -/
def cornersBoardWhite : Board :=
  (place oobEmpty cornersBoard ⟨0, 0⟩).2

/-- Values of `rand()` that pick the first legal move on even calls and the 77th on odd
calls. -/
def rndCorners : Nat → Nat := fun i => if i % 2 = 0 then 0 else 76

/-- A row of nine cells of one colour. -/
def fullRow (c : Color) : Mathlib.Vector Color SIZE :=
  Mathlib.Vector.replicate SIZE c

/-- A board with three Empty cells, (0,0), (0,1) and (0,2): even rows Black, odd rows
White, White to move. -/
def stripedBoard : Board :=
  setColor (setColor (setColor
    ⟨⟨[fullRow Color.Black, fullRow Color.White, fullRow Color.Black, fullRow Color.White,
        fullRow Color.Black, fullRow Color.White, fullRow Color.Black, fullRow Color.White,
        fullRow Color.Black], rfl⟩, Color.White⟩
    ⟨0, 0⟩ Color.Empty) ⟨0, 1⟩ Color.Empty) ⟨0, 2⟩ Color.Empty

/-- A position reached after eight moves of a game, Black to move:
Black on (0,2), (1,0), (1,1), (8,8); White on (0,1), (1,2), (2,0), (2,1).  The White stone
on (0,1) has the corner (0,0) as its only liberty; so has the Black pair (1,0), (1,1). -/
def captureRaceBoard : Board :=
  playMoves oobEmpty Board.init
    [⟨1, 0⟩, ⟨0, 1⟩, ⟨1, 1⟩, ⟨2, 0⟩, ⟨0, 2⟩, ⟨2, 1⟩, ⟨8, 8⟩, ⟨1, 2⟩]

/-- A stand-in for the finite part of `Node::UCT` that rounds every expression to `0`. -/
def uctZero : Int → Nat → Nat → ℚ := fun _ _ _ => 0

/-- Values of `rand()` that are `1` for the first call of the first iteration and `0`
otherwise. -/
def rndStriped : Nat → Nat → Nat := fun i k => if i = 0 ∧ k = 0 then 1 else 0

/-- The state of the search after `n` turns of the loop of `runMCTS` (the state it started
from when the loop does not complete). -/
def stateAfter (oob : Pt → Color) (uct : Int → Nat → Nat → ℚ) (rnds : Nat → Nat → Nat)
    (fuel : Nat) (s : MCTS) (n : Nat) : MCTS :=
  match runLoop oob uct rnds fuel n 0 s with
  | Except.ok s' => s'
  | Except.error _ => s

/-- The heap holds a tree laid out in the order of allocation: the root exists, and every
child pointer of an allocated node points to a node allocated later. -/
structure HeapWF (heap : List Node) : Prop where
  root : 0 < heap.length
  children_lt : ∀ a, a < heap.length → ∀ c ∈ (nodeAt heap a).children, a < c ∧ c < heap.length

/-- The list `path` is a descent from `node`: its first element is a child of `node` and
every further element is a child of the one before it. -/
def IsDescent (heap : List Node) : Nat → List Nat → Prop
  | _, [] => True
  | node, c :: rest => c ∈ (nodeAt heap node).children ∧ IsDescent heap c rest

/-- The calls `child->UCT(node->visits + 1)` made by the loop of `MCTS::select` started at
`node`: for every turn of the `while` loop the node whose children are scored and the visit
total passed to `UCT`. -/
def selectTotals (uct : Int → Nat → Nat → ℚ) (heap : List Node) : Nat → Nat → List (Nat × Nat)
  | 0, _ => []
  | fuel + 1, node =>
    if (nodeAt heap node).children = [] then []
    else
      (node, (nodeAt heap node).visits + 1) ::
        (match bestNode uct heap node with
         | none => []
         | some best => selectTotals uct heap fuel best)

/-- The cell `v` is an in-range orthogonal neighbour of `u` holding the same colour. -/
def SameColorAdj (oob : Pt → Color) (b : Board) (u v : Pt) : Prop :=
  v ∈ adjacent u ∧ InRange v ∧ getColor oob b v = getColor oob b u

/-- The cell `v` lies in the group of `u`: it is reached from `u` by orthogonal steps through
in-range cells of the colour of `u`. -/
def Connected (oob : Pt → Color) (b : Board) : Pt → Pt → Prop :=
  Relation.ReflTransGen (SameColorAdj oob b)

/-- The cell `v` has an in-range orthogonal neighbour that is Empty. -/
def HasLiberty (oob : Pt → Color) (b : Board) (v : Pt) : Prop :=
  ∃ a ∈ adjacent v, InRange a ∧ getColor oob b a = Color.Empty

/-- Every stone on the board belongs to a group with a liberty: from every in-range cell
holding a stone some cell of its group has an Empty orthogonal neighbour. -/
def AllGroupsHaveLiberty (oob : Pt → Color) (b : Board) : Prop :=
  ∀ v, InRange v → getColor oob b v ≠ Color.Empty →
    ∃ g, Connected oob b v g ∧ HasLiberty oob b g

/-- What the passes of the neighbour loop over `adjs` (around a cell of colour `c`) have done
to the flood state: pushed the cells `new` onto both containers, possibly cleared
`noLiberties`, and dealt with every cell of `adjs`. -/
structure FloodStep (oob : Pt → Color) (b : Board) (c : Color) (adjs : List Pt)
    (st st' : Flood) : Prop where
  pushed : ∃ new : List Pt, st'.visited = new ++ st.visited ∧ st'.toVisit = new ++ st.toVisit ∧
    new.Nodup ∧ ∀ x ∈ new, x ∈ adjs ∧ InRange x ∧ getColor oob b x = c ∧ x ∉ st.visited
  lib_mono : st'.noLiberties = true → st.noLiberties = true
  lib_witness : st'.noLiberties = false →
    st.noLiberties = false ∨ ∃ a ∈ adjs, InRange a ∧ getColor oob b a = Color.Empty
  handled : ∀ a ∈ adjs, InRange a →
    (getColor oob b a = c → a ∈ st'.visited) ∧
    (st'.noLiberties = true → getColor oob b a ≠ Color.Empty)

/-- Invariant of the flood-fill loop started at `pt`. -/
structure FloodInv (oob : Pt → Color) (b : Board) (pt : Pt) (st : Flood) : Prop where
  start_mem : pt ∈ st.visited
  visited_ok : ∀ v ∈ st.visited, InRange v ∧ getColor oob b v = getColor oob b pt
  nodup : st.visited.Nodup
  stack_sub : ∀ v ∈ st.toVisit, v ∈ st.visited
  closed : ∀ v ∈ st.visited, v ∉ st.toVisit → ∀ a ∈ adjacent v, InRange a →
    (getColor oob b a = getColor oob b pt → a ∈ st.visited) ∧
    (st.noLiberties = true → getColor oob b a ≠ Color.Empty)
  connected : ∀ v ∈ st.visited, Connected oob b pt v
  lib_witness : st.noLiberties = false → ∃ v ∈ st.visited, HasLiberty oob b v

/-- A run of `place` calls: for every call the flag it returned and side-to-move after it. -/
def placeTrace (oob : Pt → Color) : Board → List Pt → List (Bool × Color)
  | _, [] => []
  | b, pt :: pts =>
    ((place oob b pt).1, (place oob b pt).2.turnColor) :: placeTrace oob (place oob b pt).2 pts

/-- The record of a run flips side-to-move exactly on the calls that returned `true`. -/
def Alternates : Color → List (Bool × Color) → Prop
  | _, [] => True
  | t, (flag, t') :: rest => (t' = if flag then opposite t else t) ∧ Alternates t' rest


/-! ### Basic facts about coordinates and the grid -/

theorem outOfBounds_eq_false_iff (pt : Pt) : outOfBounds pt = false ↔ InRange pt := by
  unfold outOfBounds InRange
  simp only [Bool.or_eq_false_iff, decide_eq_false_iff_not]
  omega

theorem outOfBounds_eq_true_iff (pt : Pt) : outOfBounds pt = true ↔ ¬ InRange pt := by
  rw [← outOfBounds_eq_false_iff]; simp

theorem getColor_of_inRange (oob oob' : Pt → Color) (b : Board) {pt : Pt} (h : InRange pt) :
    getColor oob b pt = getColor oob' b pt := by
  simp [getColor, h]

theorem getColor_of_not_inRange (oob : Pt → Color) (b : Board) {pt : Pt} (h : ¬ InRange pt) :
    getColor oob b pt = oob pt := by
  simp [getColor, h]

theorem setColor_turnColor (b : Board) (pt : Pt) (c : Color) :
    (setColor b pt c).turnColor = b.turnColor := by
  unfold setColor; split <;> rfl

theorem getColor_setColor (oob : Pt → Color) (b : Board) {p : Pt} (hp : InRange p) (c : Color)
    (q : Pt) : getColor oob (setColor b p c) q = if q = p then c else getColor oob b q := by
  by_cases hq : InRange q
  · have hp' := hp
    have hq' := hq
    unfold InRange at hp' hq'
    simp only [getColor, setColor, hp, hq, dif_pos]
    by_cases hrow : q.row = p.row
    · by_cases hcol : q.col = p.col
      · have : q = p := by cases q; cases p; simp_all
        subst this
        simp [Mathlib.Vector.get_set_same]
      · have hne : q ≠ p := fun h => hcol (by rw [h])
        simp only [hne, if_false]
        have hr : (⟨q.row.toNat, by omega⟩ : Fin SIZE) = ⟨p.row.toNat, by omega⟩ := by
          simp [hrow]
        rw [hr, Mathlib.Vector.get_set_same, Mathlib.Vector.get_set_of_ne]
        intro h
        apply hcol
        have := congrArg Fin.val h
        simp at this
        omega
    · have hne : q ≠ p := fun h => hrow (by rw [h])
      simp only [hne, if_false]
      rw [Mathlib.Vector.get_set_of_ne]
      intro h
      apply hrow
      have := congrArg Fin.val h
      simp at this
      omega
  · have hne : q ≠ p := fun h => hq (h ▸ hp)
    simp [getColor, hq, hne]

theorem getColor_setColor_same (oob : Pt → Color) (b : Board) {p : Pt} (hp : InRange p)
    (c : Color) : getColor oob (setColor b p c) p = c := by
  rw [getColor_setColor oob b hp]; simp

theorem getColor_setColor_ne (oob : Pt → Color) (b : Board) (p : Pt) (c : Color) {q : Pt}
    (h : q ≠ p) : getColor oob (setColor b p c) q = getColor oob b q := by
  by_cases hp : InRange p
  · rw [getColor_setColor oob b hp]; simp [h]
  · simp [setColor, hp]

/-- Two boards with the same side-to-move and the same colour in every cell are equal. -/
theorem board_ext_getColor (oob : Pt → Color) {b b' : Board}
    (hturn : b.turnColor = b'.turnColor)
    (hcell : ∀ q, InRange q → getColor oob b q = getColor oob b' q) : b = b' := by
  cases b with
  | mk g t =>
    cases b' with
    | mk g' t' =>
      simp only at hturn
      subst hturn
      congr
      apply Mathlib.Vector.ext
      intro i
      apply Mathlib.Vector.ext
      intro j
      have hin : InRange ⟨(i.val : Int), (j.val : Int)⟩ := by
        unfold InRange; simp only; have := i.isLt; have := j.isLt; omega
      have := hcell ⟨(i.val : Int), (j.val : Int)⟩ hin
      simpa [getColor, hin] using this

theorem switchTurn_grid (b : Board) : (switchTurn b).grid = b.grid := by
  unfold switchTurn; split <;> rfl

theorem getColor_switchTurn (oob : Pt → Color) (b : Board) (q : Pt) :
    getColor oob (switchTurn b) q = getColor oob b q := by
  unfold getColor; rw [switchTurn_grid]

theorem switchTurn_turnColor (b : Board) (h : b.turnColor ≠ Color.Empty) :
    (switchTurn b).turnColor = opposite b.turnColor := by
  unfold switchTurn
  cases hb : b.turnColor <;> simp_all [opposite]


/-! ### The flood fill of `attemptCapture` -/

theorem floodStep_nil (oob : Pt → Color) (b : Board) (c : Color) (st : Flood) :
    FloodStep oob b c [] st st where
  pushed := ⟨[], by simp⟩
  lib_mono := id
  lib_witness := fun h => Or.inl h
  handled := by simp

/-- One pass of the neighbour loop, for a current cell of stone colour `c`. -/
theorem visitAdj_step (oob : Pt → Color) (b : Board) (curr : Pt) (st : Flood) (adj : Pt)
    (hc : getColor oob b curr ≠ Color.Empty) :
    FloodStep oob b (getColor oob b curr) [adj] st (visitAdj oob b curr st adj) := by
  unfold visitAdj
  by_cases hout : outOfBounds adj = true
  · have hnot : ¬ InRange adj := (outOfBounds_eq_true_iff adj).1 hout
    simp only [hout, if_true]
    exact ⟨⟨[], by simp⟩, id, fun h => Or.inl h, by
      intro a ha hin; simp at ha; subst ha; exact absurd hin hnot⟩
  · have hin : InRange adj := by
      rw [← outOfBounds_eq_false_iff]; simpa using hout
    simp only [hout]
    by_cases hsame : getColor oob b adj = getColor oob b curr ∧ adj ∉ st.visited
    · simp only [hsame, not_false_eq_true, and_self, if_true, Bool.false_eq_true, if_false]
      refine ⟨⟨[adj], by simp, by simp, by simp, ?_⟩, id, fun h => Or.inl h, ?_⟩
      · intro x hx
        simp at hx
        subst hx
        exact ⟨by simp, hin, hsame.1, hsame.2⟩
      · intro a ha _
        simp at ha
        subst ha
        refine ⟨fun _ => by simp, fun _ he => hc ?_⟩
        rw [← hsame.1, he]
    · simp only [Bool.false_eq_true, if_false, hsame]
      by_cases hemp : getColor oob b adj = Color.Empty
      · simp only [hemp, if_true]
        refine ⟨⟨[], by simp⟩, by simp, fun _ => Or.inr ⟨adj, by simp, hin, hemp⟩, ?_⟩
        intro a ha _
        simp at ha
        subst ha
        refine ⟨fun h => absurd (h.symm.trans hemp) hc, by simp⟩
      · simp only [hemp, if_false]
        refine ⟨⟨[], by simp⟩, id, fun h => Or.inl h, ?_⟩
        intro a ha _
        simp at ha
        subst ha
        refine ⟨fun h => ?_, fun _ => hemp⟩
        by_contra hmem
        exact hsame ⟨h, hmem⟩

/-- Passes compose: first `a`, then the cells of `adjs`. -/
theorem floodStep_cons (oob : Pt → Color) (b : Board) (c : Color) (a : Pt) (adjs : List Pt)
    (st st1 st2 : Flood) (h1 : FloodStep oob b c [a] st st1)
    (h2 : FloodStep oob b c adjs st1 st2) : FloodStep oob b c (a :: adjs) st st2 := by
  obtain ⟨n1, hv1, ht1, hnd1, hn1⟩ := h1.pushed
  obtain ⟨n2, hv2, ht2, hnd2, hn2⟩ := h2.pushed
  refine ⟨⟨n2 ++ n1, by rw [hv2, hv1, List.append_assoc], by rw [ht2, ht1, List.append_assoc],
    ?_, ?_⟩, fun h => h1.lib_mono (h2.lib_mono h), ?_, ?_⟩
  · rw [List.nodup_append]
    refine ⟨hnd2, hnd1, ?_⟩
    intro x hx2 hx1
    exact (hn2 x hx2).2.2.2 (by rw [hv1]; exact List.mem_append_left _ hx1)
  · intro x hx
    rcases List.mem_append.1 hx with hx | hx
    · obtain ⟨hm, hr, hcol, hnv⟩ := hn2 x hx
      exact ⟨List.mem_cons_of_mem _ hm, hr, hcol, fun h =>
        hnv (by rw [hv1]; exact List.mem_append_right _ h)⟩
    · obtain ⟨hm, hr, hcol, hnv⟩ := hn1 x hx
      simp at hm
      exact ⟨by simp [hm], hr, hcol, hnv⟩
  · intro h
    rcases h2.lib_witness h with h | ⟨x, hx, hr, he⟩
    · rcases h1.lib_witness h with h | ⟨x, hx, hr, he⟩
      · exact Or.inl h
      · simp at hx
        subst hx
        exact Or.inr ⟨x, by simp, hr, he⟩
    · exact Or.inr ⟨x, List.mem_cons_of_mem _ hx, hr, he⟩
  · intro x hx hr
    rcases List.mem_cons.1 hx with hx | hx
    · subst hx
      obtain ⟨hA, hB⟩ := h1.handled x (by simp) hr
      exact ⟨fun h => by rw [hv2]; exact List.mem_append_right _ (hA h),
        fun h => hB (h2.lib_mono h)⟩
    · exact h2.handled x hx hr

/-- The whole neighbour loop around `curr`. -/
theorem foldl_visitAdj_step (oob : Pt → Color) (b : Board) (curr : Pt)
    (hc : getColor oob b curr ≠ Color.Empty) (adjs : List Pt) (st : Flood) :
    FloodStep oob b (getColor oob b curr) adjs st (adjs.foldl (visitAdj oob b curr) st) := by
  induction adjs generalizing st with
  | nil => exact floodStep_nil oob b _ st
  | cons a adjs ih =>
    rw [List.foldl_cons]
    exact floodStep_cons oob b _ a adjs st _ _ (visitAdj_step oob b curr st a hc) (ih _)


theorem floodInv_init (oob : Pt → Color) (b : Board) {pt : Pt} (hin : InRange pt) :
    FloodInv oob b pt ⟨[pt], [pt], true⟩ where
  start_mem := by simp
  visited_ok := by intro v hv; simp at hv; subst hv; exact ⟨hin, rfl⟩
  nodup := by simp
  stack_sub := by intro v hv; simpa using hv
  closed := by intro v hv hnv; simp at hv hnv; exact absurd hv hnv
  connected := by intro v hv; simp at hv; subst hv; exact Relation.ReflTransGen.refl
  lib_witness := by simp

/-- One turn of the `while` loop keeps the invariant. -/
theorem floodInv_iter (oob : Pt → Color) (b : Board) (pt : Pt)
    (hc : getColor oob b pt ≠ Color.Empty) (st : Flood) (curr : Pt) (rest : List Pt)
    (hst : st.toVisit = curr :: rest) (inv : FloodInv oob b pt st) :
    FloodInv oob b pt
      ((adjacent curr).foldl (visitAdj oob b curr) { st with toVisit := rest }) := by
  have hcurr_mem : curr ∈ st.visited := inv.stack_sub curr (by rw [hst]; simp)
  have hcurr := inv.visited_ok curr hcurr_mem
  have hcc : getColor oob b curr ≠ Color.Empty := by rw [hcurr.2]; exact hc
  have step := foldl_visitAdj_step oob b curr hcc (adjacent curr) { st with toVisit := rest }
  rw [hcurr.2] at step
  obtain ⟨new, hv, ht, hnd, hnew⟩ := step.pushed
  simp only at hv ht
  refine ⟨?_, ?_, ?_, ?_, ?_, ?_, ?_⟩
  · rw [hv]; exact List.mem_append_right _ inv.start_mem
  · intro v hvm
    rw [hv] at hvm
    rcases List.mem_append.1 hvm with h | h
    · exact ⟨(hnew v h).2.1, (hnew v h).2.2.1⟩
    · exact inv.visited_ok v h
  · rw [hv, List.nodup_append]
    exact ⟨hnd, inv.nodup, fun x hx hx' => (hnew x hx).2.2.2 hx'⟩
  · intro v hvm
    rw [ht] at hvm
    rw [hv]
    rcases List.mem_append.1 hvm with h | h
    · exact List.mem_append_left _ h
    · exact List.mem_append_right _ (inv.stack_sub v (by rw [hst]; exact List.mem_cons_of_mem _ h))
  · intro v hvm hnt a ha hr
    rw [hv] at hvm
    rw [ht] at hnt
    have hnt1 : v ∉ new := fun h => hnt (List.mem_append_left _ h)
    have hnt2 : v ∉ rest := fun h => hnt (List.mem_append_right _ h)
    rcases List.mem_append.1 hvm with h | h
    · exact absurd h hnt1
    · by_cases hvc : v = curr
      · subst hvc
        exact step.handled a ha hr
      · have hold : v ∉ st.toVisit := by
          rw [hst]; simp [hvc, hnt2]
        obtain ⟨hA, hB⟩ := inv.closed v h hold a ha hr
        exact ⟨fun hcol => by rw [hv]; exact List.mem_append_right _ (hA hcol),
          fun hl => hB (step.lib_mono hl)⟩
  · intro v hvm
    rw [hv] at hvm
    rcases List.mem_append.1 hvm with h | h
    · obtain ⟨hadj, hr, hcol, _⟩ := hnew v h
      exact Relation.ReflTransGen.tail (inv.connected curr hcurr_mem)
        ⟨hadj, hr, by rw [hcol, hcurr.2]⟩
    · exact inv.connected v h
  · intro hl
    rcases step.lib_witness hl with h | ⟨a, ha, hr, he⟩
    · obtain ⟨v, hvm, hlib⟩ := inv.lib_witness h
      exact ⟨v, by rw [hv]; exact List.mem_append_right _ hvm, hlib⟩
    · exact ⟨curr, by rw [hv]; exact List.mem_append_right _ hcurr_mem, a, ha, hr, he⟩

theorem floodLoop_inv (oob : Pt → Color) (b : Board) (pt : Pt)
    (hc : getColor oob b pt ≠ Color.Empty) (fuel : Nat) (st : Flood)
    (inv : FloodInv oob b pt st) : FloodInv oob b pt (floodLoop oob b fuel st) := by
  induction fuel generalizing st with
  | zero => exact inv
  | succ fuel ih =>
    unfold floodLoop
    split
    · exact inv
    · next curr rest hst => exact ih _ (floodInv_iter oob b pt hc st curr rest hst inv)

theorem inRange_iff (pt : Pt) :
    InRange pt ↔ 0 ≤ pt.row ∧ pt.row < 9 ∧ 0 ≤ pt.col ∧ pt.col < 9 := Iff.rfl

theorem mem_allPts {pt : Pt} (h : InRange pt) : pt ∈ allPts := by
  rw [inRange_iff] at h
  simp only [allPts, SIZE, List.mem_flatMap, List.mem_map, List.mem_range]
  refine ⟨pt.row.toNat, by omega, pt.col.toNat, by omega, ?_⟩
  cases pt with
  | mk r c =>
    simp only at h ⊢
    congr <;> omega

theorem length_allPts : allPts.length = SIZE * SIZE := by decide

/-- A duplicate-free list of in-range coordinates has at most `SIZE * SIZE` elements. -/
theorem length_le_of_nodup_inRange (l : List Pt) (hnd : l.Nodup) (hin : ∀ v ∈ l, InRange v) :
    l.length ≤ SIZE * SIZE := by
  have hsub : l ⊆ allPts := fun v hv => mem_allPts (hin v hv)
  have := (List.Nodup.subperm hnd hsub).length_le
  rw [length_allPts] at this
  exact this

/-- The fuel suffices: the loop stops because the stack is empty. -/
theorem floodLoop_done (oob : Pt → Color) (b : Board) (pt : Pt)
    (hc : getColor oob b pt ≠ Color.Empty) (fuel : Nat) (st : Flood)
    (inv : FloodInv oob b pt st)
    (hfuel : st.toVisit.length + SIZE * SIZE ≤ fuel + st.visited.length) :
    (floodLoop oob b fuel st).toVisit = [] := by
  induction fuel generalizing st with
  | zero =>
    have hb := length_le_of_nodup_inRange st.visited inv.nodup (fun v hv => (inv.visited_ok v hv).1)
    unfold floodLoop
    apply List.eq_nil_of_length_eq_zero
    omega
  | succ fuel ih =>
    unfold floodLoop
    split
    · next h => exact h
    · next curr rest hst =>
      have inv' := floodInv_iter oob b pt hc st curr rest hst inv
      apply ih _ inv'
      have hcurr := inv.visited_ok curr (inv.stack_sub curr (by rw [hst]; simp))
      have hcc : getColor oob b curr ≠ Color.Empty := by rw [hcurr.2]; exact hc
      obtain ⟨new, hv, ht, _, _⟩ :=
        (foldl_visitAdj_step oob b curr hcc (adjacent curr) { st with toVisit := rest }).pushed
      rw [hv, ht]
      simp only [List.length_append]
      rw [hst] at hfuel
      simp only [List.length_cons] at hfuel
      omega

/-- The flood fill started at an in-range stone runs to completion within its fuel and
ends in a state satisfying the invariant with an empty stack. -/
theorem floodLoop_spec (oob : Pt → Color) (b : Board) {pt : Pt} (hin : InRange pt)
    (hc : getColor oob b pt ≠ Color.Empty) :
    FloodInv oob b pt (floodLoop oob b (SIZE * SIZE) ⟨[pt], [pt], true⟩) ∧
    (floodLoop oob b (SIZE * SIZE) ⟨[pt], [pt], true⟩).toVisit = [] :=
  ⟨floodLoop_inv oob b pt hc _ _ (floodInv_init oob b hin),
   floodLoop_done oob b pt hc _ _ (floodInv_init oob b hin) (Nat.le_of_eq (Nat.add_comm _ _))⟩


/-! ### `attemptCapture` -/

theorem removeAll_turnColor (b : Board) (vis : List Pt) :
    (removeAll b vis).turnColor = b.turnColor := by
  unfold removeAll
  induction vis generalizing b with
  | nil => rfl
  | cons v vs ih => rw [List.foldl_cons, ih, setColor_turnColor]

theorem getColor_removeAll (oob : Pt → Color) (b : Board) (vis : List Pt)
    (hin : ∀ v ∈ vis, InRange v) (q : Pt) :
    getColor oob (removeAll b vis) q = if q ∈ vis then Color.Empty else getColor oob b q := by
  unfold removeAll
  induction vis generalizing b with
  | nil => simp
  | cons v vs ih =>
    rw [List.foldl_cons, ih _ (fun x hx => hin x (List.mem_cons_of_mem _ hx)),
      getColor_setColor oob b (hin v (by simp))]
    by_cases h1 : q ∈ vs
    · simp [h1]
    · by_cases h2 : q = v
      · simp [h2]
      · simp [h1, h2]

theorem attemptCapture_false (oob : Pt → Color) (b : Board) (p : Pt)
    (h : (attemptCapture oob b p).1 = false) : (attemptCapture oob b p).2 = b := by
  unfold attemptCapture at h ⊢
  by_cases hrej : getColor oob b p = Color.Empty ∨ outOfBounds p = true
  · simp only [hrej, if_true]
  · simp only [hrej, if_false] at h ⊢
    split
    · next hl => simp [hl] at h
    · rfl

theorem attemptCapture_turnColor (oob : Pt → Color) (b : Board) (p : Pt) :
    (attemptCapture oob b p).2.turnColor = b.turnColor := by
  unfold attemptCapture
  by_cases hrej : getColor oob b p = Color.Empty ∨ outOfBounds p = true
  · simp only [hrej, if_true]
  · simp only [hrej, if_false]
    split
    · exact removeAll_turnColor _ _
    · rfl

theorem attemptCapture_of_not_inRange (oob : Pt → Color) (b : Board) {p : Pt}
    (h : ¬ InRange p) : attemptCapture oob b p = (false, b) := by
  unfold attemptCapture
  simp [(outOfBounds_eq_true_iff p).2 h]

theorem attemptCapture_of_empty (oob : Pt → Color) (b : Board) {p : Pt}
    (h : getColor oob b p = Color.Empty) : attemptCapture oob b p = (false, b) := by
  unfold attemptCapture
  simp [h]

/-- Inside the group found by a completed flood fill: membership is connectedness. -/
theorem floodInv_mem_iff (oob : Pt → Color) (b : Board) (pt : Pt) (st : Flood)
    (inv : FloodInv oob b pt st) (hdone : st.toVisit = []) (v : Pt) :
    v ∈ st.visited ↔ Connected oob b pt v := by
  constructor
  · exact inv.connected v
  · intro hconn
    induction hconn with
    | refl => exact inv.start_mem
    | @tail u w _ hstep ih =>
      obtain ⟨hadj, hr, hcol⟩ := hstep
      refine (inv.closed u ih (by rw [hdone]; simp) w hadj hr).1 ?_
      rw [hcol]
      exact (inv.visited_ok u ih).2

/-- A successful capture: the start is an in-range stone, the cells emptied are exactly the
group of the start, none of them had a liberty, and nothing else changed. -/
theorem attemptCapture_true (oob : Pt → Color) (b : Board) (p : Pt)
    (h : (attemptCapture oob b p).1 = true) :
    InRange p ∧ getColor oob b p ≠ Color.Empty ∧
    (∀ v, Connected oob b p v → ¬ HasLiberty oob b v) ∧
    (∀ q, Connected oob b p q → getColor oob (attemptCapture oob b p).2 q = Color.Empty) ∧
    (∀ q, ¬ Connected oob b p q →
      getColor oob (attemptCapture oob b p).2 q = getColor oob b q) := by
  unfold attemptCapture at h ⊢
  by_cases hrej : getColor oob b p = Color.Empty ∨ outOfBounds p = true
  · simp [hrej] at h
  · simp only [hrej, if_false] at h ⊢
    have hc : getColor oob b p ≠ Color.Empty := fun hh => hrej (Or.inl hh)
    have hin : InRange p := by
      rw [← outOfBounds_eq_false_iff]
      cases hb : outOfBounds p
      · rfl
      · exact absurd (Or.inr hb) hrej
    obtain ⟨inv, hdone⟩ := floodLoop_spec oob b hin hc
    by_cases hl : (floodLoop oob b (SIZE * SIZE) ⟨[p], [p], true⟩).noLiberties = true
    · simp only [hl, if_true]
      refine ⟨hin, hc, ?_, ?_, ?_⟩
      · intro v hv ⟨a, ha, hr, he⟩
        have hmem := (floodInv_mem_iff oob b p _ inv hdone v).2 hv
        exact (inv.closed v hmem (by rw [hdone]; simp) a ha hr).2 hl he
      · intro q hq
        rw [getColor_removeAll oob b _ (fun v hv => (inv.visited_ok v hv).1)]
        simp [(floodInv_mem_iff oob b p _ inv hdone q).2 hq]
      · intro q hq
        rw [getColor_removeAll oob b _ (fun v hv => (inv.visited_ok v hv).1)]
        have : q ∉ (floodLoop oob b (SIZE * SIZE) ⟨[p], [p], true⟩).visited :=
          fun hm => hq ((floodInv_mem_iff oob b p _ inv hdone q).1 hm)
        simp [this]
    · simp [hl] at h

/-- The decision of `attemptCapture`: it succeeds exactly on an in-range stone whose group
has no liberty. -/
theorem attemptCapture_eq_true_iff (oob : Pt → Color) (b : Board) (p : Pt) :
    (attemptCapture oob b p).1 = true ↔
      InRange p ∧ getColor oob b p ≠ Color.Empty ∧
        ∀ v, Connected oob b p v → ¬ HasLiberty oob b v := by
  constructor
  · intro h
    obtain ⟨h1, h2, h3, _, _⟩ := attemptCapture_true oob b p h
    exact ⟨h1, h2, h3⟩
  · rintro ⟨hin, hc, hno⟩
    obtain ⟨inv, _⟩ := floodLoop_spec oob b hin hc
    have hout : outOfBounds p = false := (outOfBounds_eq_false_iff p).2 hin
    unfold attemptCapture
    simp only [hc, hout, Bool.false_eq_true, or_self, if_false]
    by_cases hl : (floodLoop oob b (SIZE * SIZE) ⟨[p], [p], true⟩).noLiberties = true
    · simp [hl]
    · exfalso
      obtain ⟨v, hv, hlib⟩ := inv.lib_witness (by simpa using hl)
      exact hno v (inv.connected v hv) hlib


/-! ### Independence of the oracle

The value found by a read outside the grid never influences a result: the only such reads
are the first operand of the guards of `attemptCapture` and `place`, whose second operand
rejects the coordinate anyway. -/

theorem visitAdj_congr (oob oob' : Pt → Color) (b : Board) {curr : Pt} (hcurr : InRange curr)
    (st : Flood) (adj : Pt) : visitAdj oob b curr st adj = visitAdj oob' b curr st adj := by
  unfold visitAdj
  by_cases hout : outOfBounds adj = true
  · simp [hout]
  · have hin : InRange adj := by
      rw [← outOfBounds_eq_false_iff]; simpa using hout
    rw [getColor_of_inRange oob oob' b hin, getColor_of_inRange oob oob' b hcurr]

theorem visitAdj_toVisit_inRange (oob : Pt → Color) (b : Board) (curr : Pt) (st : Flood)
    (adj : Pt) (h : ∀ v ∈ st.toVisit, InRange v) :
    ∀ v ∈ (visitAdj oob b curr st adj).toVisit, InRange v := by
  unfold visitAdj
  by_cases hout : outOfBounds adj = true
  · simpa [hout] using h
  · have hin : InRange adj := by
      rw [← outOfBounds_eq_false_iff]; simpa using hout
    simp only [hout, Bool.false_eq_true, if_false]
    split
    · intro v hv
      simp only [List.mem_cons] at hv
      rcases hv with hv | hv
      · rw [hv]; exact hin
      · exact h v hv
    · split
      · exact h
      · exact h

theorem foldl_visitAdj_congr (oob oob' : Pt → Color) (b : Board) {curr : Pt}
    (hcurr : InRange curr) (adjs : List Pt) (st : Flood) :
    adjs.foldl (visitAdj oob b curr) st = adjs.foldl (visitAdj oob' b curr) st := by
  induction adjs generalizing st with
  | nil => rfl
  | cons a adjs ih => rw [List.foldl_cons, List.foldl_cons, visitAdj_congr oob oob' b hcurr, ih]

theorem foldl_visitAdj_toVisit_inRange (oob : Pt → Color) (b : Board) (curr : Pt)
    (adjs : List Pt) (st : Flood) (h : ∀ v ∈ st.toVisit, InRange v) :
    ∀ v ∈ (adjs.foldl (visitAdj oob b curr) st).toVisit, InRange v := by
  induction adjs generalizing st with
  | nil => exact h
  | cons a adjs ih =>
    rw [List.foldl_cons]
    exact ih _ (visitAdj_toVisit_inRange oob b curr st a h)

theorem floodLoop_congr (oob oob' : Pt → Color) (b : Board) (fuel : Nat) (st : Flood)
    (h : ∀ v ∈ st.toVisit, InRange v) : floodLoop oob b fuel st = floodLoop oob' b fuel st := by
  induction fuel generalizing st with
  | zero => rfl
  | succ fuel ih =>
    unfold floodLoop
    split
    · rfl
    · next curr rest hst =>
      have hcurr : InRange curr := h curr (by rw [hst]; simp)
      rw [foldl_visitAdj_congr oob oob' b hcurr]
      apply ih
      apply foldl_visitAdj_toVisit_inRange
      intro v hv
      exact h v (by rw [hst]; exact List.mem_cons_of_mem _ hv)

theorem attemptCapture_congr (oob oob' : Pt → Color) (b : Board) (p : Pt) :
    attemptCapture oob b p = attemptCapture oob' b p := by
  by_cases hin : InRange p
  · unfold attemptCapture
    rw [getColor_of_inRange oob oob' b hin,
      floodLoop_congr oob oob' b _ _ (by intro v hv; simp at hv; rw [hv]; exact hin)]
  · rw [attemptCapture_of_not_inRange oob b hin, attemptCapture_of_not_inRange oob' b hin]

theorem captureStep_congr (oob oob' : Pt → Color) (acc : Bool × Board) (adj : Pt) :
    captureStep oob acc adj = captureStep oob' acc adj := by
  unfold captureStep
  rw [attemptCapture_congr oob oob']

theorem foldl_captureStep_congr (oob oob' : Pt → Color) (adjs : List Pt) (acc : Bool × Board) :
    adjs.foldl (captureStep oob) acc = adjs.foldl (captureStep oob') acc := by
  induction adjs generalizing acc with
  | nil => rfl
  | cons a adjs ih => rw [List.foldl_cons, List.foldl_cons, captureStep_congr oob oob', ih]

/-! ### `place` -/

theorem place_of_not_inRange (oob : Pt → Color) (b : Board) {pt : Pt} (h : ¬ InRange pt) :
    place oob b pt = (false, b) := by
  unfold place
  simp [(outOfBounds_eq_true_iff pt).2 h]

theorem place_of_occupied (oob : Pt → Color) (b : Board) {pt : Pt}
    (h : getColor oob b pt ≠ Color.Empty) : place oob b pt = (false, b) := by
  unfold place isEmpty
  simp [h]

/-- The board an accepted placement produces, before the `return true`. -/
theorem place_of_empty (oob : Pt → Color) (b : Board) {pt : Pt} (hin : InRange pt)
    (he : getColor oob b pt = Color.Empty) :
    place oob b pt =
      (true,
        if ((adjacent pt).foldl (captureStep oob)
            (true, switchTurn (setColor b pt b.turnColor))).1 = true then
          (attemptCapture oob ((adjacent pt).foldl (captureStep oob)
            (true, switchTurn (setColor b pt b.turnColor))).2 pt).2
        else ((adjacent pt).foldl (captureStep oob)
            (true, switchTurn (setColor b pt b.turnColor))).2) := by
  unfold place isEmpty
  simp only [he, (outOfBounds_eq_false_iff pt).2 hin, decide_True, Bool.not_true,
    Bool.false_eq_true, or_self, if_false]
  split <;> rfl

theorem place_congr (oob oob' : Pt → Color) (b : Board) (pt : Pt) :
    place oob b pt = place oob' b pt := by
  by_cases hin : InRange pt
  · by_cases he : getColor oob b pt = Color.Empty
    · have he' : getColor oob' b pt = Color.Empty := by
        rw [← getColor_of_inRange oob oob' b hin]; exact he
      rw [place_of_empty oob b hin he, place_of_empty oob' b hin he',
        foldl_captureStep_congr oob oob', attemptCapture_congr oob oob']
    · have he' : getColor oob' b pt ≠ Color.Empty := by
        rw [← getColor_of_inRange oob oob' b hin]; exact he
      rw [place_of_occupied oob b he, place_of_occupied oob' b he']
  · rw [place_of_not_inRange oob b hin, place_of_not_inRange oob' b hin]

theorem playMoves_congr (oob oob' : Pt → Color) (b : Board) (pts : List Pt) :
    playMoves oob b pts = playMoves oob' b pts := by
  unfold playMoves
  induction pts generalizing b with
  | nil => rfl
  | cons p pts ih => rw [List.foldl_cons, List.foldl_cons, place_congr oob oob', ih]

theorem place_fst_eq_true_iff (oob : Pt → Color) (b : Board) (pt : Pt) :
    (place oob b pt).1 = true ↔ InRange pt ∧ getColor oob b pt = Color.Empty := by
  by_cases hin : InRange pt
  · by_cases he : getColor oob b pt = Color.Empty
    · rw [place_of_empty oob b hin he]; simp [hin, he]
    · rw [place_of_occupied oob b he]; simp [he]
  · rw [place_of_not_inRange oob b hin]; simp [hin]

theorem place_of_fst_eq_false (oob : Pt → Color) (b : Board) (pt : Pt)
    (h : (place oob b pt).1 = false) : (place oob b pt).2 = b := by
  by_cases hin : InRange pt
  · by_cases he : getColor oob b pt = Color.Empty
    · rw [place_of_empty oob b hin he] at h; simp at h
    · rw [place_of_occupied oob b he]
  · rw [place_of_not_inRange oob b hin]

theorem captureStep_turnColor (oob : Pt → Color) (acc : Bool × Board) (adj : Pt) :
    (captureStep oob acc adj).2.turnColor = acc.2.turnColor := by
  unfold captureStep
  simp only
  split <;> exact attemptCapture_turnColor oob acc.2 adj

theorem foldl_captureStep_turnColor (oob : Pt → Color) (adjs : List Pt) (acc : Bool × Board) :
    (adjs.foldl (captureStep oob) acc).2.turnColor = acc.2.turnColor := by
  induction adjs generalizing acc with
  | nil => rfl
  | cons a adjs ih => rw [List.foldl_cons, ih, captureStep_turnColor]

/-- Side-to-move after `place`: switched when the call is accepted, kept otherwise. -/
theorem place_turnColor (oob : Pt → Color) (b : Board) (pt : Pt) :
    (place oob b pt).2.turnColor =
      if (place oob b pt).1 = true then (switchTurn b).turnColor else b.turnColor := by
  by_cases hin : InRange pt
  · by_cases he : getColor oob b pt = Color.Empty
    · rw [place_of_empty oob b hin he]
      have hsw : (switchTurn (setColor b pt b.turnColor)).turnColor = (switchTurn b).turnColor := by
        unfold switchTurn
        rw [setColor_turnColor]
        split <;> rfl
      simp only [if_true]
      split
      · rw [attemptCapture_turnColor, foldl_captureStep_turnColor, hsw]
      · rw [foldl_captureStep_turnColor, hsw]
    · rw [place_of_occupied oob b he]; simp
  · rw [place_of_not_inRange oob b hin]; simp


/-! ### Turn alternation and rejected placements -/

theorem switchTurn_turnColor_ne_empty (b : Board) : (switchTurn b).turnColor ≠ Color.Empty := by
  unfold switchTurn
  split <;> simp

theorem placeTrace_alternates (oob : Pt → Color) (b : Board)
    (hturn : b.turnColor ≠ Color.Empty) (pts : List Pt) :
    Alternates b.turnColor (placeTrace oob b pts) := by
  induction pts generalizing b with
  | nil => trivial
  | cons pt pts ih =>
    unfold placeTrace Alternates
    have ht := place_turnColor oob b pt
    refine ⟨?_, ih _ ?_⟩
    · rw [ht]
      by_cases hf : (place oob b pt).1 = true
      · simp only [hf, if_true]; exact switchTurn_turnColor b hturn
      · simp only [hf, if_false]; simp
    · rw [ht]
      split
      · exact switchTurn_turnColor_ne_empty b
      · exact hturn

/-- C3 (turn alternation).  On a board whose side-to-move is Black or White and for an
in-range coordinate, `place` returns `true` exactly when the cell was Empty; side-to-move
afterwards is the opposite colour when it returned `true` and the same colour when it
returned `false`; and along every run of `place` calls side-to-move flips exactly on the
calls that return `true`. -/
theorem turn_alternation (oob : Pt → Color) (b : Board) (pt : Pt) (hin : InRange pt)
    (hturn : b.turnColor = Color.Black ∨ b.turnColor = Color.White) :
    ((place oob b pt).1 = true ↔ getColor oob b pt = Color.Empty) ∧
    ((place oob b pt).1 = true → (place oob b pt).2.turnColor = opposite b.turnColor) ∧
    ((place oob b pt).1 = false → (place oob b pt).2.turnColor = b.turnColor) ∧
    ∀ pts : List Pt, Alternates b.turnColor (placeTrace oob b pts) := by
  have hne : b.turnColor ≠ Color.Empty := by
    rcases hturn with h | h <;> rw [h] <;> simp
  refine ⟨?_, ?_, ?_, placeTrace_alternates oob b hne⟩
  · rw [place_fst_eq_true_iff]; simp [hin]
  · intro h
    rw [place_turnColor, if_pos h]
    exact switchTurn_turnColor b hne
  · intro h
    rw [place_turnColor]
    simp [h]

/-- Instance of `turn_alternation`: the first move of a game, at the centre point. -/
theorem turn_alternation_witness :
    InRange ⟨4, 4⟩ ∧ (Board.init.turnColor = Color.Black ∨ Board.init.turnColor = Color.White) ∧
    (place oobEmpty Board.init ⟨4, 4⟩).2.turnColor = Color.White ∧
    Alternates Color.Black (placeTrace oobEmpty Board.init [⟨4, 4⟩, ⟨4, 4⟩, ⟨9, 0⟩, ⟨0, 0⟩]) :=
  ⟨by decide, Or.inl rfl,
    (turn_alternation oobEmpty Board.init ⟨4, 4⟩ (by decide) (Or.inl rfl)).2.1 (by decide!),
    (turn_alternation oobEmpty Board.init ⟨4, 4⟩ (by decide) (Or.inl rfl)).2.2.2 _⟩

/-- C4 (legality, occupied cell).  `place` on an in-range coordinate that holds a Black or
White stone returns `false` and leaves the whole board (grid and side-to-move) as it was. -/
theorem occupied_rejected (oob : Pt → Color) (b : Board) (pt : Pt) (_hin : InRange pt)
    (hocc : getColor oob b pt = Color.Black ∨ getColor oob b pt = Color.White) :
    (place oob b pt).1 = false ∧ (place oob b pt).2 = b := by
  have hne : getColor oob b pt ≠ Color.Empty := by
    rcases hocc with h | h <;> rw [h] <;> simp
  rw [place_of_occupied oob b hne]
  exact ⟨rfl, rfl⟩

/-- Instance of `occupied_rejected`: a second stone on the centre point. -/
theorem occupied_rejected_witness :
    InRange ⟨4, 4⟩ ∧
    (getColor oobEmpty (playMoves oobEmpty Board.init [⟨4, 4⟩]) ⟨4, 4⟩ = Color.Black ∨
      getColor oobEmpty (playMoves oobEmpty Board.init [⟨4, 4⟩]) ⟨4, 4⟩ = Color.White) ∧
    (place oobEmpty (playMoves oobEmpty Board.init [⟨4, 4⟩]) ⟨4, 4⟩).1 = false ∧
    (place oobEmpty (playMoves oobEmpty Board.init [⟨4, 4⟩]) ⟨4, 4⟩).2 =
      playMoves oobEmpty Board.init [⟨4, 4⟩] :=
  ⟨by decide, Or.inl (by decide!),
    occupied_rejected oobEmpty (playMoves oobEmpty Board.init [⟨4, 4⟩]) ⟨4, 4⟩ (by decide)
      (Or.inl (by decide!))⟩

/-- C5 (legality, out of range) at the failing input `place(Pt{-1, 0})` on a fresh board:
whatever the read outside the grid finds, the call returns `false` and leaves the board as
it was, but it has indexed the grid at the out-of-range coordinate `(-1, 0)`, because
`isEmpty(pt)` is evaluated before `outOfBounds(pt)`. -/
theorem out_of_range_guard_reads_grid :
    ¬ InRange ⟨-1, 0⟩ ∧
    ∀ oob : Pt → Color,
      place oob Board.init ⟨-1, 0⟩ = (false, Board.init) ∧
      placeAccesses oob Board.init ⟨-1, 0⟩ = [⟨-1, 0⟩] := by
  refine ⟨by decide, fun oob => ⟨place_of_not_inRange oob _ (by decide), ?_⟩⟩
  unfold placeAccesses
  have : outOfBounds ⟨-1, 0⟩ = true := by decide
  simp [this]


/-! ### `validMoves` -/

theorem inRange_of_mem_allPts {pt : Pt} (h : pt ∈ allPts) : InRange pt := by
  simp only [allPts, SIZE, List.mem_flatMap, List.mem_map, List.mem_range] at h
  obtain ⟨i, hi, j, hj, rfl⟩ := h
  rw [inRange_iff]
  simp only
  omega

theorem mem_allPts_iff (pt : Pt) : pt ∈ allPts ↔ InRange pt :=
  ⟨inRange_of_mem_allPts, mem_allPts⟩

theorem validMoves_eq_filter (oob : Pt → Color) (b : Board) :
    validMoves oob b = allPts.filter (fun pt => isEmpty oob b pt) := by
  unfold validMoves allPts
  rw [List.filter_flatMap]

theorem allPts_pairwise : allPts.Pairwise rowMajorLt := by
  unfold allPts
  rw [List.pairwise_flatMap]
  constructor
  · intro i _
    rw [List.pairwise_map]
    refine (List.pairwise_lt_range SIZE).imp ?_
    intro j k hjk
    exact Or.inr ⟨rfl, by simp only; omega⟩
  · refine (List.pairwise_lt_range SIZE).imp ?_
    intro i k hik x hx y hy
    simp only [List.mem_map] at hx hy
    obtain ⟨_, _, rfl⟩ := hx
    obtain ⟨_, _, rfl⟩ := hy
    exact Or.inl (by simp only; omega)

theorem length_validMoves (oob : Pt → Color) (b : Board) :
    (validMoves oob b).length = countColor oob b Color.Empty := by
  rw [validMoves_eq_filter]
  rfl

theorem rowMajorLt_irrefl (p : Pt) : ¬ rowMajorLt p p := by
  unfold rowMajorLt
  omega

/-- C9 (`validMoves`).  The list returned holds exactly the in-range coordinates whose cell
is Empty, without repetition, in strictly ascending row-major order (ascending row, then
ascending column).  The function only reads the board: it returns the list and nothing
else, so the board the caller holds is the one it passed in. -/
theorem validMoves_spec (oob : Pt → Color) (b : Board) :
    (∀ pt, pt ∈ validMoves oob b ↔ InRange pt ∧ getColor oob b pt = Color.Empty) ∧
    (validMoves oob b).Nodup ∧
    (validMoves oob b).Pairwise rowMajorLt := by
  have hpw : (validMoves oob b).Pairwise rowMajorLt := by
    rw [validMoves_eq_filter]
    exact allPts_pairwise.sublist (List.filter_sublist _)
  refine ⟨?_, ?_, hpw⟩
  · intro pt
    rw [validMoves_eq_filter, List.mem_filter, mem_allPts_iff]
    simp [isEmpty]
  · refine hpw.imp ?_
    intro p q h heq
    rw [heq] at h
    exact rowMajorLt_irrefl q h


/-! ### Cells changed by a placement, and the number of Empty cells -/

/-- A capture attempt leaves a cell as it was or empties it. -/
theorem attemptCapture_cell (oob : Pt → Color) (b : Board) (p q : Pt) :
    getColor oob (attemptCapture oob b p).2 q = getColor oob b q ∨
    getColor oob (attemptCapture oob b p).2 q = Color.Empty := by
  cases h : (attemptCapture oob b p).1
  · rw [attemptCapture_false oob b p h]; exact Or.inl rfl
  · obtain ⟨_, _, _, hin, hout⟩ := attemptCapture_true oob b p h
    by_cases hq : Connected oob b p q
    · exact Or.inr (hin q hq)
    · exact Or.inl (hout q hq)

theorem captureStep_snd (oob : Pt → Color) (acc : Bool × Board) (adj : Pt) :
    (captureStep oob acc adj).2 = (attemptCapture oob acc.2 adj).2 := by
  unfold captureStep
  simp only
  split <;> rfl

theorem foldl_captureStep_cell (oob : Pt → Color) (adjs : List Pt) (acc : Bool × Board)
    (q : Pt) :
    getColor oob (adjs.foldl (captureStep oob) acc).2 q = getColor oob acc.2 q ∨
    getColor oob (adjs.foldl (captureStep oob) acc).2 q = Color.Empty := by
  induction adjs generalizing acc with
  | nil => exact Or.inl rfl
  | cons a adjs ih =>
    rw [List.foldl_cons]
    rcases ih (captureStep oob acc a) with h | h
    · rw [h, captureStep_snd]
      exact attemptCapture_cell oob acc.2 a q
    · exact Or.inr h

/-- After an accepted placement every cell holds what it held once the new stone was
written, or is Empty. -/
theorem place_cell (oob : Pt → Color) (b : Board) {pt : Pt} (hin : InRange pt)
    (he : getColor oob b pt = Color.Empty) (q : Pt) :
    getColor oob (place oob b pt).2 q = getColor oob (setColor b pt b.turnColor) q ∨
    getColor oob (place oob b pt).2 q = Color.Empty := by
  rw [place_of_empty oob b hin he]
  simp only
  have hfold := foldl_captureStep_cell oob (adjacent pt)
    (true, switchTurn (setColor b pt b.turnColor)) q
  simp only [getColor_switchTurn] at hfold
  split
  · rcases attemptCapture_cell oob ((adjacent pt).foldl (captureStep oob)
      (true, switchTurn (setColor b pt b.turnColor))).2 pt q with h | h
    · rw [h]; exact hfold
    · exact Or.inr h
  · exact hfold

theorem allPts_nodup : allPts.Nodup := by
  refine allPts_pairwise.imp ?_
  intro p q h heq
  rw [heq] at h
  exact rowMajorLt_irrefl q h

/-- Counting a predicate that splits into two exclusive cases. -/
theorem length_filter_split {α : Type} (l : List α) (p q r : α → Bool)
    (h : ∀ x ∈ l, (p x = true ↔ (q x = true ∨ r x = true)) ∧ ¬ (q x = true ∧ r x = true)) :
    (l.filter p).length = (l.filter q).length + (l.filter r).length := by
  induction l with
  | nil => rfl
  | cons a l ih =>
    have ih' := ih (fun x hx => h x (List.mem_cons_of_mem _ hx))
    have ha := h a (List.mem_cons_self _ _)
    simp only [List.filter_cons]
    cases hp : p a <;> cases hq : q a <;> cases hr : r a <;>
      simp_all <;> omega

theorem length_filter_eq_pt {pt : Pt} (hin : InRange pt) :
    (allPts.filter fun q => decide (q = pt)).length = 1 := by
  rw [← List.countP_eq_length_filter]
  have := List.count_eq_one_of_mem allPts_nodup (mem_allPts hin)
  rw [List.count] at this
  rw [← this]
  apply List.countP_congr
  intro x _
  simp

/-- Writing a stone on an Empty cell lowers the number of Empty cells by one. -/
theorem countColor_empty_setColor (oob : Pt → Color) (b : Board) {pt : Pt} (hin : InRange pt)
    (he : getColor oob b pt = Color.Empty) {c : Color} (hc : c ≠ Color.Empty) :
    countColor oob b Color.Empty = countColor oob (setColor b pt c) Color.Empty + 1 := by
  unfold countColor
  rw [← length_filter_eq_pt hin]
  apply length_filter_split
  intro x _
  rw [getColor_setColor oob b hin]
  by_cases hx : x = pt
  · subst hx
    simp [he, hc]
  · simp [hx]


theorem countColor_congr (oob oob' : Pt → Color) (b : Board) (c : Color) :
    countColor oob b c = countColor oob' b c := by
  unfold countColor
  have h : allPts.filter (fun pt => decide (getColor oob b pt = c)) =
      allPts.filter (fun pt => decide (getColor oob' b pt = c)) :=
    List.filter_congr (fun x hx => by
      rw [getColor_of_inRange oob oob' b (inRange_of_mem_allPts hx)])
  rw [h]

/-- C7, as amended.  On a board whose side-to-move is Black or White, `place` on an in-range
Empty coordinate succeeds and the number of Empty cells afterwards is the number before,
minus one, plus the number of stones the placement captured; so it drops by exactly one
when nothing is captured. -/
theorem empty_count_after_place (oob : Pt → Color) (b : Board) (pt : Pt) (hin : InRange pt)
    (he : getColor oob b pt = Color.Empty)
    (hturn : b.turnColor = Color.Black ∨ b.turnColor = Color.White) :
    (place oob b pt).1 = true ∧
    countColor oob (place oob b pt).2 Color.Empty + 1 =
      countColor oob b Color.Empty + capturedBy oob b pt ∧
    (capturedBy oob b pt = 0 →
      countColor oob (place oob b pt).2 Color.Empty + 1 = countColor oob b Color.Empty) := by
  have hne : b.turnColor ≠ Color.Empty := by
    rcases hturn with h | h <;> rw [h] <;> simp
  have hcount : countColor oob (place oob b pt).2 Color.Empty =
      countColor oob (setColor b pt b.turnColor) Color.Empty + capturedBy oob b pt := by
    unfold countColor capturedBy
    apply length_filter_split
    intro x _
    have hcell := place_cell oob b hin he x
    by_cases h1 : getColor oob (setColor b pt b.turnColor) x = Color.Empty
    · have h2 : getColor oob (place oob b pt).2 x = Color.Empty := by
        rcases hcell with h | h
        · rw [h]; exact h1
        · exact h
      simp [h1, h2]
    · simp [h1]
  have hset := countColor_empty_setColor oob b hin he hne
  refine ⟨(place_fst_eq_true_iff oob b pt).2 ⟨hin, he⟩, by omega, fun h0 => by omega⟩

/-- Instance of `empty_count_after_place`: Black plays the corner (0,0) of `cornersBoard`;
the stone is captured at once, so the count of Empty cells stays at 77. -/
theorem empty_count_after_place_witness :
    InRange ⟨0, 0⟩ ∧ getColor oobEmpty cornersBoard ⟨0, 0⟩ = Color.Empty ∧
    (cornersBoard.turnColor = Color.Black ∨ cornersBoard.turnColor = Color.White) ∧
    countColor oobEmpty (place oobEmpty cornersBoard ⟨0, 0⟩).2 Color.Empty + 1 =
      countColor oobEmpty cornersBoard Color.Empty + capturedBy oobEmpty cornersBoard ⟨0, 0⟩ :=
  ⟨by decide, by decide!, Or.inl (by decide!),
    (empty_count_after_place oobEmpty cornersBoard ⟨0, 0⟩ (by decide) (by decide!)
      (Or.inl (by decide!))).2.1⟩

/-- C7 fails as stated: on `cornersBoard` (reached by four moves from the empty board) Black
plays the Empty corner (0,0); `place` returns `true`, the new stone has no liberty and is
removed by the final `attemptCapture(pt)`, and the number of Empty cells is 77 before and
77 after. -/
theorem empty_count_not_reduced :
    InRange ⟨0, 0⟩ ∧ getColor oobEmpty cornersBoard ⟨0, 0⟩ = Color.Empty ∧
    (place oobEmpty cornersBoard ⟨0, 0⟩).1 = true ∧
    countColor oobEmpty cornersBoard Color.Empty = 77 ∧
    countColor oobEmpty (place oobEmpty cornersBoard ⟨0, 0⟩).2 Color.Empty = 77 ∧
    ¬ (countColor oobEmpty (place oobEmpty cornersBoard ⟨0, 0⟩).2 Color.Empty <
      countColor oobEmpty cornersBoard Color.Empty) := by
  decide!


/-! ### Scoring -/

theorem getColor_mk (oob : Pt → Color) (b : Board) (i j : Fin SIZE) :
    getColor oob b ⟨((i : Nat) : Int), ((j : Nat) : Int)⟩ = (b.grid.get i).get j := by
  have hin : InRange ⟨((i : Nat) : Int), ((j : Nat) : Int)⟩ := by
    rw [inRange_iff]
    have hi : (i : Nat) < 9 := i.isLt
    have hj : (j : Nat) < 9 := j.isLt
    simp only
    omega
  simp [getColor, hin]

/-- The cells of the grid in the order in which the loops of `blackWins` meet them are the
colours of the coordinates in row-major order. -/
theorem cells_eq (oob : Pt → Color) (b : Board) :
    b.grid.toList.flatMap (fun row => row.toList) = allPts.map (getColor oob b) := by
  have hrows : b.grid.toList = (List.finRange SIZE).map b.grid.get := by
    rw [← List.ofFn_eq_map, ← Mathlib.Vector.toList_ofFn, Mathlib.Vector.ofFn_get]
  have hrow : ∀ row : Mathlib.Vector Color SIZE,
      row.toList = (List.finRange SIZE).map row.get := by
    intro row
    rw [← List.ofFn_eq_map, ← Mathlib.Vector.toList_ofFn, Mathlib.Vector.ofFn_get]
  unfold allPts
  rw [hrows, List.map_flatMap, ← List.map_coe_finRange, List.flatMap_map, List.flatMap_map]
  congr 1
  funext i
  rw [hrow, List.map_map, List.map_map]
  congr 1
  funext j
  exact (getColor_mk oob b i j).symm

theorem foldl_advStep (l : List Color) (a : Int) :
    l.foldl advStep a = a + (l.count Color.Black : Int) - (l.count Color.White : Int) := by
  induction l generalizing a with
  | nil => simp
  | cons c l ih =>
    rw [List.foldl_cons, ih]
    cases c <;> simp [advStep, List.count_cons] <;> omega

theorem blackAdv_eq_foldl (b : Board) :
    blackAdv b = (b.grid.toList.flatMap (fun row => row.toList)).foldl advStep 0 := by
  unfold blackAdv
  generalize (0 : Int) = a
  generalize b.grid.toList = rows
  induction rows generalizing a with
  | nil => rfl
  | cons r rows ih =>
    rw [List.foldl_cons, List.flatMap_cons, List.foldl_append, ← ih]

theorem countColor_eq_count (oob : Pt → Color) (b : Board) (c : Color) :
    countColor oob b c = (allPts.map (getColor oob b)).count c := by
  unfold countColor
  rw [List.count, List.countP_map, List.countP_eq_length_filter]
  have h : allPts.filter (fun pt => decide (getColor oob b pt = c)) =
      allPts.filter ((fun x => x == c) ∘ getColor oob b) :=
    List.filter_congr (fun x _ => rfl)
  rw [h]

/-- The counter of `blackWins` is the number of Black cells minus the number of White
cells. -/
theorem blackAdv_eq (oob : Pt → Color) (b : Board) :
    blackAdv b = (countColor oob b Color.Black : Int) - (countColor oob b Color.White : Int) := by
  rw [blackAdv_eq_foldl, foldl_advStep, cells_eq oob, countColor_eq_count, countColor_eq_count]
  simp

theorem blackWins_eq (oob : Pt → Color) (b : Board) :
    blackWins b = decide (countColor oob b Color.White < countColor oob b Color.Black) := by
  unfold blackWins
  rw [blackAdv_eq oob]
  congr 1
  apply propext
  constructor <;> intro h <;> omega


/-! ### `playout` -/

theorem validMoves_congr (oob oob' : Pt → Color) (b : Board) :
    validMoves oob b = validMoves oob' b := by
  rw [validMoves_eq_filter, validMoves_eq_filter]
  apply List.filter_congr
  intro x hx
  unfold isEmpty
  rw [getColor_of_inRange oob oob' b (inRange_of_mem_allPts hx)]

/-- One turn of the loop when at least two moves are legal and `rand()` picks `move`. -/
theorem playoutLoop_succ (oob : Pt → Color) (rnd : Nat → Nat) (fuel i : Nat) (b : Board)
    (move : Pt) (hlen : 1 < (validMoves oob b).length)
    (hmove : (validMoves oob b).get? (rnd i % (validMoves oob b).length) = some move) :
    playoutLoop oob rnd (fuel + 1) i b = playoutLoop oob rnd fuel (i + 1) (place oob b move).2 := by
  rw [playoutLoop, dif_neg (by omega)]
  have hlt : rnd i % (validMoves oob b).length < (validMoves oob b).length :=
    Nat.mod_lt _ (by omega)
  rw [List.get?_eq_get hlt] at hmove
  simp only [Option.some.injEq] at hmove
  simp only [hmove]

theorem playoutLoop_stop (oob : Pt → Color) (rnd : Nat → Nat) (fuel i : Nat) (b : Board)
    (hlen : (validMoves oob b).length ≤ 1) :
    playoutLoop oob rnd (fuel + 1) i b = some b := by
  rw [playoutLoop, dif_pos hlen]

theorem playoutLoop_congr (oob oob' : Pt → Color) (rnd : Nat → Nat) (fuel i : Nat)
    (b : Board) : playoutLoop oob rnd fuel i b = playoutLoop oob' rnd fuel i b := by
  induction fuel generalizing i b with
  | zero => rfl
  | succ fuel ih =>
    have hv := validMoves_congr oob oob' b
    by_cases hlen : (validMoves oob b).length ≤ 1
    · rw [playoutLoop_stop oob rnd fuel i b hlen,
        playoutLoop_stop oob' rnd fuel i b (by rw [← hv]; exact hlen)]
    · have hlt : rnd i % (validMoves oob b).length < (validMoves oob b).length :=
        Nat.mod_lt _ (by omega)
      have hmove := List.get?_eq_get hlt
      rw [playoutLoop_succ oob rnd fuel i b _ (by omega) hmove,
        playoutLoop_succ oob' rnd fuel i b _ (by rw [← hv]; omega) (by rw [← hv]; exact hmove),
        place_congr oob oob', ih]

theorem playout_congr (oob oob' : Pt → Color) (rnd : Nat → Nat) (fuel : Nat) (b : Board) :
    playout oob rnd fuel b = playout oob' rnd fuel b := by
  unfold playout
  rw [playoutLoop_congr oob oob']

/-- Where the loop stops: on a board with at most one legal move, and on the board it was
given when that one already has at most one. -/
theorem playoutLoop_some (oob : Pt → Color) (rnd : Nat → Nat) (fuel i : Nat) (b final : Board)
    (h : playoutLoop oob rnd fuel i b = some final) :
    (validMoves oob final).length ≤ 1 ∧ ((validMoves oob b).length ≤ 1 → final = b) := by
  induction fuel generalizing i b with
  | zero => simp [playoutLoop] at h
  | succ fuel ih =>
    by_cases hlen : (validMoves oob b).length ≤ 1
    · rw [playoutLoop_stop oob rnd fuel i b hlen] at h
      simp only [Option.some.injEq] at h
      subst h
      exact ⟨hlen, fun _ => rfl⟩
    · rw [playoutLoop, dif_neg hlen] at h
      exact ⟨(ih _ _ h).1, fun h' => absurd h' hlen⟩


theorem lowersEmpty_terminates (oob : Pt → Color) (rnd : Nat → Nat) (n i : Nat) (b : Board)
    (hn : countColor oob b Color.Empty ≤ n) (h : lowersEmpty oob rnd n i b = true) :
    ∃ final : Board, ∀ fuel, n < fuel → playoutLoop oob rnd fuel i b = some final := by
  induction n generalizing i b with
  | zero =>
    refine ⟨b, fun fuel hf => ?_⟩
    obtain ⟨f, rfl⟩ : ∃ f, fuel = f + 1 := ⟨fuel - 1, by omega⟩
    exact playoutLoop_stop oob rnd f i b (by rw [length_validMoves]; omega)
  | succ n ih =>
    by_cases hlen : (validMoves oob b).length ≤ 1
    · refine ⟨b, fun fuel hf => ?_⟩
      obtain ⟨f, rfl⟩ : ∃ f, fuel = f + 1 := ⟨fuel - 1, by omega⟩
      exact playoutLoop_stop oob rnd f i b hlen
    · rw [lowersEmpty, dif_neg hlen] at h
      simp only [Bool.and_eq_true, decide_eq_true_eq] at h
      obtain ⟨final, hfinal⟩ := ih (i + 1) _ (by omega) h.2
      refine ⟨final, fun fuel hf => ?_⟩
      obtain ⟨f, rfl⟩ : ∃ f, fuel = f + 1 := ⟨fuel - 1, by omega⟩
      rw [playoutLoop, dif_neg hlen]
      exact hfinal f (by omega)

/-- C6, as amended.  Whenever `playout` terminates it returns exactly `+1` or `-1`; and it
does terminate, after at most as many turns of its loop as the board has Empty cells (plus
the turn that breaks), for every board and every sequence of random choices along which each
placement lowers the number of Empty cells. -/
theorem playout_terminates_when_lowering (oob : Pt → Color) (rnd : Nat → Nat) (b : Board) :
    (∀ fuel r, playout oob rnd fuel b = some r → r.1 = 1 ∨ r.1 = -1) ∧
    (lowersEmpty oob rnd (countColor oob b Color.Empty) 0 b = true →
      ∃ r : Int × Board,
        (∀ fuel, countColor oob b Color.Empty < fuel → playout oob rnd fuel b = some r) ∧
        (r.1 = 1 ∨ r.1 = -1)) := by
  constructor
  · intro fuel r h
    unfold playout at h
    cases hl : playoutLoop oob rnd fuel 0 b with
    | none => rw [hl] at h; simp at h
    | some final =>
      rw [hl] at h
      simp only [Option.map_some', Option.some.injEq] at h
      rw [← h]
      simp only
      split
      · exact Or.inl rfl
      · exact Or.inr rfl
  · intro h
    obtain ⟨final, hfinal⟩ := lowersEmpty_terminates oob rnd _ 0 b (Nat.le_refl _) h
    refine ⟨(if blackWins final then 1 else -1, final), fun fuel hf => ?_, ?_⟩
    · unfold playout
      rw [hfinal fuel hf]
      rfl
    · simp only
      split
      · exact Or.inl rfl
      · exact Or.inr rfl

/-- Instance of `playout_terminates_when_lowering`: from `stripedBoard` with `rand()`
always 0 the two placements capture nothing and the playout returns `+1`. -/
theorem playout_terminates_when_lowering_witness :
    lowersEmpty oobEmpty (fun _ => 0) (countColor oobEmpty stripedBoard Color.Empty) 0
      stripedBoard = true ∧
    ∃ r : Int × Board,
      (∀ fuel, countColor oobEmpty stripedBoard Color.Empty < fuel →
        playout oobEmpty (fun _ => 0) fuel stripedBoard = some r) ∧
      (r.1 = 1 ∨ r.1 = -1) :=
  ⟨by decide!,
    (playout_terminates_when_lowering oobEmpty (fun _ => 0) stripedBoard).2 (by decide!)⟩

theorem corners_loop (fuel : Nat) :
    ∀ i, (i % 2 = 0 → playoutLoop oobEmpty rndCorners fuel i cornersBoard = none) ∧
      (i % 2 = 1 → playoutLoop oobEmpty rndCorners fuel i cornersBoardWhite = none) := by
  induction fuel with
  | zero => intro i; exact ⟨fun _ => rfl, fun _ => rfl⟩
  | succ fuel ih =>
    intro i
    constructor
    · intro hi
      have hr : rndCorners i = 0 := by simp [rndCorners, hi]
      rw [playoutLoop_succ oobEmpty rndCorners fuel i cornersBoard ⟨0, 0⟩ (by decide!)
        (by rw [hr, Nat.zero_mod]; decide!)]
      exact (ih (i + 1)).2 (by omega)
    · intro hi
      have hr : rndCorners i = 76 := by simp [rndCorners, hi]
      have hlen : (validMoves oobEmpty cornersBoardWhite).length = 77 := by decide!
      have hback : (place oobEmpty cornersBoardWhite ⟨8, 8⟩).2 = cornersBoard := by decide!
      rw [playoutLoop_succ oobEmpty rndCorners fuel i cornersBoardWhite ⟨8, 8⟩ (by omega)
        (by rw [hr, hlen]; decide!), hback]
      exact (ih (i + 1)).1 (by omega)

/-- On `cornersBoard` with the choices `rndCorners` the loop of `playout` never reaches
`break`, whatever a read outside the grid finds and however much fuel is given. -/
theorem playout_corners_none (oob : Pt → Color) (fuel : Nat) :
    playout oob rndCorners fuel cornersBoard = none := by
  rw [playout_congr oob oobEmpty]
  unfold playout
  rw [(corners_loop fuel 0).1 rfl]
  rfl

/-- C6 fails as stated: from `cornersBoard` (reached by four moves from the empty board),
when `rand()` picks the corner (0,0) for Black and the corner (8,8) for White, each stone
placed is captured at once, the board comes back every two turns, and `playout` never
returns: there is no number of loop turns after which it has produced a result. -/
theorem playout_runs_forever :
    ¬ ∃ (fuel : Nat) (r : Int × Board),
      playout oobEmpty rndCorners fuel cornersBoard = some r := by
  rintro ⟨fuel, r, h⟩
  rw [playout_corners_none] at h
  exact Option.noConfusion h

/-- C8 (playout result).  When `playout` terminates, the board it stopped on has fewer than
two Empty cells; that board is the one it was given when this one already had fewer than
two; and the value returned is `+1` when the final board has more Black cells than White
cells and `-1` otherwise (equal counts included). -/
theorem playout_result (oob : Pt → Color) (rnd : Nat → Nat) (fuel : Nat) (b : Board)
    (r : Int × Board) (h : playout oob rnd fuel b = some r) :
    countColor oob r.2 Color.Empty < 2 ∧
    (countColor oob b Color.Empty < 2 → r.2 = b) ∧
    r.1 = (if countColor oob r.2 Color.White < countColor oob r.2 Color.Black then 1 else -1) := by
  unfold playout at h
  cases hl : playoutLoop oob rnd fuel 0 b with
  | none => rw [hl] at h; simp at h
  | some final =>
    rw [hl] at h
    simp only [Option.map_some', Option.some.injEq] at h
    obtain ⟨h1, h2⟩ := playoutLoop_some oob rnd fuel 0 b final hl
    rw [length_validMoves] at h1 h2
    rw [← h]
    refine ⟨by simp only; omega, fun hb => h2 (by omega), ?_⟩
    simp only [blackWins_eq oob final, decide_eq_true_eq]

/-- Instance of `playout_result`: the playout from `stripedBoard` with `rand()` always 0
places White on (0,0) and Black on (0,1), stops with one Empty cell and returns `+1`. -/
theorem playout_result_witness :
    playout oobEmpty (fun _ => 0) 3 stripedBoard =
      some (1, playMoves oobEmpty stripedBoard [⟨0, 0⟩, ⟨0, 1⟩]) ∧
    countColor oobEmpty (playMoves oobEmpty stripedBoard [⟨0, 0⟩, ⟨0, 1⟩]) Color.Empty < 2 ∧
    (1 : Int) =
      (if countColor oobEmpty (playMoves oobEmpty stripedBoard [⟨0, 0⟩, ⟨0, 1⟩]) Color.White <
          countColor oobEmpty (playMoves oobEmpty stripedBoard [⟨0, 0⟩, ⟨0, 1⟩]) Color.Black
        then 1 else -1) :=
  ⟨by decide!,
    (playout_result oobEmpty (fun _ => 0) 3 stripedBoard
      (1, playMoves oobEmpty stripedBoard [⟨0, 0⟩, ⟨0, 1⟩]) (by decide!)).1,
    (playout_result oobEmpty (fun _ => 0) 3 stripedBoard
      (1, playMoves oobEmpty stripedBoard [⟨0, 0⟩, ⟨0, 1⟩]) (by decide!)).2.2⟩


/-! ### Groups -/

theorem mem_adjacent_symm {u v : Pt} (h : v ∈ adjacent u) : u ∈ adjacent v := by
  cases u with
  | mk ur uc =>
    cases v with
    | mk vr vc =>
      simp only [adjacent, List.mem_cons, Pt.mk.injEq, List.mem_singleton, List.not_mem_nil,
        or_false] at h ⊢
      omega

theorem sameColorAdj_symm (oob : Pt → Color) (b : Board) {u v : Pt} (hu : InRange u)
    (h : SameColorAdj oob b u v) : SameColorAdj oob b v u :=
  ⟨mem_adjacent_symm h.1, hu, h.2.2.symm⟩

theorem connected_inRange (oob : Pt → Color) (b : Board) {u v : Pt} (hu : InRange u)
    (h : Connected oob b u v) : InRange v := by
  induction h with
  | refl => exact hu
  | tail _ hstep _ => exact hstep.2.1

theorem connected_color_eq (oob : Pt → Color) (b : Board) {u v : Pt}
    (h : Connected oob b u v) : getColor oob b v = getColor oob b u := by
  induction h with
  | refl => rfl
  | tail _ hstep ih => rw [hstep.2.2, ih]

theorem connected_symm (oob : Pt → Color) (b : Board) {u v : Pt} (hu : InRange u)
    (h : Connected oob b u v) : Connected oob b v u := by
  induction h with
  | refl => exact Relation.ReflTransGen.refl
  | @tail w x hw hstep ih =>
    exact Relation.ReflTransGen.head
      (sameColorAdj_symm oob b (connected_inRange oob b hu hw) hstep) ih

/-- A group keeps being connected on any board that agrees with `b` on the group. -/
theorem connected_transfer (oob : Pt → Color) (b bd : Board) {a : Pt}
    (hsame : ∀ g, Connected oob b a g → getColor oob bd g = getColor oob b g) {v : Pt}
    (h : Connected oob b a v) : Connected oob bd a v := by
  induction h with
  | refl => exact Relation.ReflTransGen.refl
  | @tail w x hw hstep ih =>
    refine Relation.ReflTransGen.tail ih ⟨hstep.1, hstep.2.1, ?_⟩
    rw [hsame x (Relation.ReflTransGen.tail hw hstep), hsame w hw]
    exact hstep.2.2

/-- A capture attempt does not touch a group that has a liberty: if the cells of the group
of `a` on board `b` hold the same colours on `bd`, and the cell `g0` of the group has an
Empty neighbour `lib` on `bd`, the same is true after `attemptCapture` on `bd`. -/
theorem attemptCapture_keeps_group (oob : Pt → Color) (b bd : Board) {a : Pt} (ha : InRange a)
    (hsame : ∀ g, Connected oob b a g → getColor oob bd g = getColor oob b g)
    {g0 lib : Pt} (hg0 : Connected oob b a g0) (hadj : lib ∈ adjacent g0) (hlr : InRange lib)
    (hlib : getColor oob bd lib = Color.Empty) (x : Pt) :
    (∀ g, Connected oob b a g → getColor oob (attemptCapture oob bd x).2 g = getColor oob b g) ∧
    getColor oob (attemptCapture oob bd x).2 lib = Color.Empty := by
  refine ⟨?_, ?_⟩
  · intro g hg
    cases hx : (attemptCapture oob bd x).1
    · rw [attemptCapture_false oob bd x hx]; exact hsame g hg
    · obtain ⟨hxr, _, hnolib, _, hout⟩ := attemptCapture_true oob bd x hx
      rw [hout g, hsame g hg]
      intro hxg
      -- the group of `x` on `bd` would contain `g`, hence `a`, hence `g0`
      have hga : Connected oob bd g a :=
        connected_symm oob bd ha (connected_transfer oob b bd hsame hg)
      have hxg0 : Connected oob bd x g0 :=
        (hxg.trans hga).trans (connected_transfer oob b bd hsame hg0)
      exact hnolib g0 hxg0 ⟨lib, hadj, hlr, hlib⟩
  · rcases attemptCapture_cell oob bd x lib with h | h
    · rw [h]; exact hlib
    · exact h


theorem foldl_captureStep_keeps_group (oob : Pt → Color) (b : Board) {a : Pt} (ha : InRange a)
    {g0 lib : Pt} (hg0 : Connected oob b a g0) (hadj : lib ∈ adjacent g0) (hlr : InRange lib)
    (adjs : List Pt) (acc : Bool × Board)
    (hsame : ∀ g, Connected oob b a g → getColor oob acc.2 g = getColor oob b g)
    (hlib : getColor oob acc.2 lib = Color.Empty) :
    (∀ g, Connected oob b a g →
      getColor oob (adjs.foldl (captureStep oob) acc).2 g = getColor oob b g) ∧
    getColor oob (adjs.foldl (captureStep oob) acc).2 lib = Color.Empty := by
  induction adjs generalizing acc with
  | nil => exact ⟨hsame, hlib⟩
  | cons x adjs ih =>
    rw [List.foldl_cons]
    have hstep := attemptCapture_keeps_group oob b acc.2 ha hsame hg0 hadj hlr hlib x
    rw [← captureStep_snd] at hstep
    exact ih _ hstep.1 hstep.2

/-- A group that has a liberty on the board `b1` is left alone by the capture attempts of a
placement at `pt` that start from `b1` with the turn switched. -/
theorem place_keeps_group (oob : Pt → Color) (b1 : Board) (pt : Pt) {a : Pt} (ha : InRange a)
    (hlib : ∃ g, Connected oob b1 a g ∧ HasLiberty oob b1 g) (g : Pt)
    (hg : Connected oob b1 a g) :
    getColor oob
      (if ((adjacent pt).foldl (captureStep oob) (true, switchTurn b1)).1 = true then
        (attemptCapture oob ((adjacent pt).foldl (captureStep oob) (true, switchTurn b1)).2 pt).2
      else ((adjacent pt).foldl (captureStep oob) (true, switchTurn b1)).2) g =
    getColor oob b1 g := by
  obtain ⟨g0, hg0, lib, hadj, hlr, hempty⟩ := hlib
  have hfold := foldl_captureStep_keeps_group oob b1 ha hg0 hadj hlr (adjacent pt)
    (true, switchTurn b1) (fun g _ => getColor_switchTurn oob b1 g)
    (by rw [getColor_switchTurn]; exact hempty)
  split
  · exact (attemptCapture_keeps_group oob b1 _ ha hfold.1 hg0 hadj hlr hfold.2 pt).1 g hg
  · exact hfold.1 g hg

/-- The group of a stone `a` before the placement lies inside its group on the board with
the new stone written to the Empty cell `pt`, with the same colours. -/
theorem connected_setColor (oob : Pt → Color) (b : Board) (pt : Pt)
    (he : getColor oob b pt = Color.Empty) (c : Color) {a : Pt}
    (hstone : getColor oob b a ≠ Color.Empty) {g : Pt} (hg : Connected oob b a g) :
    Connected oob (setColor b pt c) a g ∧ getColor oob (setColor b pt c) g = getColor oob b g := by
  have hsame : ∀ g, Connected oob b a g →
      getColor oob (setColor b pt c) g = getColor oob b g := by
    intro g hg
    rw [getColor_setColor_ne]
    intro hgp
    rw [hgp] at hg
    exact hstone (by rw [← connected_color_eq oob b hg]; exact he)
  exact ⟨connected_transfer oob b _ hsame hg, hsame g hg⟩

/-- C2 (no phantom captures).  Let `pt` be an in-range Empty coordinate and `a` an in-range
stone (in particular one orthogonally adjacent to `pt`), and write `b1` for the board on
which the new stone stands on `pt`.  If the group of `a` (the cells connected to `a`
through stones of its colour) has a cell with an Empty orthogonal neighbour on `b1`, then
every cell of the group holds after `place(pt)` the colour it held before.  This is so for
the group as it was before the placement and also for the group as it is on `b1`, where a
group of the mover's colour has grown by the new stone. -/
theorem no_phantom_capture (oob : Pt → Color) (b : Board) (pt : Pt) (hin : InRange pt)
    (he : getColor oob b pt = Color.Empty) (a : Pt) (ha : InRange a)
    (hstone : getColor oob b a ≠ Color.Empty) :
    ((∃ g, Connected oob b a g ∧ HasLiberty oob (setColor b pt b.turnColor) g) →
      ∀ g, Connected oob b a g → getColor oob (place oob b pt).2 g = getColor oob b g) ∧
    ((∃ g, Connected oob (setColor b pt b.turnColor) a g ∧
        HasLiberty oob (setColor b pt b.turnColor) g) →
      ∀ g, Connected oob (setColor b pt b.turnColor) a g →
        getColor oob (place oob b pt).2 g = getColor oob (setColor b pt b.turnColor) g) := by
  have hplace := place_of_empty oob b hin he
  constructor
  · rintro ⟨g0, hg0, hl0⟩ g hg
    have h0 := connected_setColor oob b pt he b.turnColor hstone hg0
    have h1 := connected_setColor oob b pt he b.turnColor hstone hg
    rw [hplace, ← h1.2]
    exact place_keeps_group oob (setColor b pt b.turnColor) pt ha ⟨g0, h0.1, hl0⟩ g h1.1
  · intro hlib g hg
    rw [hplace]
    exact place_keeps_group oob (setColor b pt b.turnColor) pt ha hlib g hg

/-- Instance of `no_phantom_capture`: Black plays the corner (0,0) of `cornersBoard`; the
White stone on (0,1) keeps its liberty (0,2) and stays. -/
theorem no_phantom_capture_witness :
    InRange ⟨0, 0⟩ ∧ getColor oobEmpty cornersBoard ⟨0, 0⟩ = Color.Empty ∧
    InRange ⟨0, 1⟩ ∧ getColor oobEmpty cornersBoard ⟨0, 1⟩ ≠ Color.Empty ∧
    (∃ g, Connected oobEmpty cornersBoard ⟨0, 1⟩ g ∧
      HasLiberty oobEmpty (setColor cornersBoard ⟨0, 0⟩ cornersBoard.turnColor) g) ∧
    getColor oobEmpty (place oobEmpty cornersBoard ⟨0, 0⟩).2 ⟨0, 1⟩ =
      getColor oobEmpty cornersBoard ⟨0, 1⟩ :=
  ⟨by decide, by decide!, by decide, by decide!,
    ⟨⟨0, 1⟩, Relation.ReflTransGen.refl, ⟨0, 2⟩, by decide, by decide, by decide!⟩,
    (no_phantom_capture oobEmpty cornersBoard ⟨0, 0⟩ (by decide) (by decide!) ⟨0, 1⟩
      (by decide) (by decide!)).1
      ⟨⟨0, 1⟩, Relation.ReflTransGen.refl, ⟨0, 2⟩, by decide, by decide, by decide!⟩
      ⟨0, 1⟩ Relation.ReflTransGen.refl⟩

/-! ### Self-capture and captures of the opponent exclude each other -/

/-- A stone with a liberty survives a capture attempt, and keeps a liberty. -/
theorem attemptCapture_keeps_safe (oob : Pt → Color) (bd : Board) (pt x : Pt)
    (hstone : getColor oob bd pt ≠ Color.Empty) (hlib : HasLiberty oob bd pt) :
    getColor oob (attemptCapture oob bd x).2 pt ≠ Color.Empty ∧
    HasLiberty oob (attemptCapture oob bd x).2 pt := by
  obtain ⟨lib, hadj, hlr, hempty⟩ := hlib
  have hpt : getColor oob (attemptCapture oob bd x).2 pt = getColor oob bd pt := by
    cases hx : (attemptCapture oob bd x).1
    · rw [attemptCapture_false oob bd x hx]
    · obtain ⟨_, _, hnolib, _, hout⟩ := attemptCapture_true oob bd x hx
      exact hout pt (fun hc => hnolib pt hc ⟨lib, hadj, hlr, hempty⟩)
  refine ⟨by rw [hpt]; exact hstone, lib, hadj, hlr, ?_⟩
  rcases attemptCapture_cell oob bd x lib with h | h
  · rw [h]; exact hempty
  · exact h

/-- One capture attempt of `place(pt)`, at a neighbour of `pt` or at `pt` itself, on a board
`bd` that arose from `b1` (the board with the new stone of colour `t` on `pt`) by emptying
cells: afterwards either every stone of another colour than `t` is still where it stood on
`b1`, or the stone on `pt` stands and has a liberty. -/
theorem attemptCapture_fallback_step (oob : Pt → Color) (b1 bd : Board) (pt : Pt) (t : Color)
    (hin : InRange pt) (hpt : getColor oob b1 pt = t)
    (hframe : ∀ q, getColor oob bd q = getColor oob b1 q ∨ getColor oob bd q = Color.Empty)
    (hinv : (∀ q, getColor oob b1 q ≠ Color.Empty → getColor oob b1 q ≠ t →
        getColor oob bd q = getColor oob b1 q) ∨
      (getColor oob bd pt ≠ Color.Empty ∧ HasLiberty oob bd pt))
    (x : Pt) (hx : x ∈ adjacent pt ∨ x = pt) :
    (∀ q, getColor oob (attemptCapture oob bd x).2 q = getColor oob b1 q ∨
      getColor oob (attemptCapture oob bd x).2 q = Color.Empty) ∧
    ((∀ q, getColor oob b1 q ≠ Color.Empty → getColor oob b1 q ≠ t →
        getColor oob (attemptCapture oob bd x).2 q = getColor oob b1 q) ∨
      (getColor oob (attemptCapture oob bd x).2 pt ≠ Color.Empty ∧
        HasLiberty oob (attemptCapture oob bd x).2 pt)) := by
  constructor
  · intro q
    rcases attemptCapture_cell oob bd x q with h | h
    · rw [h]; exact hframe q
    · exact Or.inr h
  · cases hcap : (attemptCapture oob bd x).1
    · rw [attemptCapture_false oob bd x hcap]; exact hinv
    · obtain ⟨hxr, hxstone, hnolib, hgone, hout⟩ := attemptCapture_true oob bd x hcap
      rcases hinv with hopp | hsafe
      · by_cases hc : getColor oob bd x = t
        · -- a group of the mover's colour goes: the other colour is untouched
          refine Or.inl (fun q hq1 hq2 => ?_)
          rw [hout q, hopp q hq1 hq2]
          intro hconn
          have := connected_color_eq oob bd hconn
          rw [hopp q hq1 hq2, hc] at this
          exact hq2 this
        · -- a group of the other colour goes: `x` is a neighbour of `pt` and is now Empty
          have hxadj : x ∈ adjacent pt := by
            rcases hx with h | h
            · exact h
            · exfalso
              rw [h] at hc hxstone
              rcases hframe pt with h' | h'
              · exact hc (by rw [h', hpt])
              · exact hxstone h'
          have hptstone : getColor oob bd pt ≠ Color.Empty := fun hpe =>
            hnolib x Relation.ReflTransGen.refl ⟨pt, mem_adjacent_symm hxadj, hin, hpe⟩
          have hptcol : getColor oob bd pt = t := by
            rcases hframe pt with h' | h'
            · rw [h', hpt]
            · exact absurd h' hptstone
          have hnot : ¬ Connected oob bd x pt := fun hconn =>
            hc (by rw [← connected_color_eq oob bd hconn, hptcol])
          refine Or.inr ⟨by rw [hout pt hnot]; exact hptstone, x, hxadj, hxr, ?_⟩
          exact hgone x Relation.ReflTransGen.refl
      · exact Or.inr (attemptCapture_keeps_safe oob bd pt x hsafe.1 hsafe.2)

theorem foldl_captureStep_fallback (oob : Pt → Color) (b1 : Board) (pt : Pt) (t : Color)
    (hin : InRange pt) (hpt : getColor oob b1 pt = t) (adjs : List Pt)
    (hadjs : ∀ x ∈ adjs, x ∈ adjacent pt) (acc : Bool × Board)
    (hframe : ∀ q, getColor oob acc.2 q = getColor oob b1 q ∨ getColor oob acc.2 q = Color.Empty)
    (hinv : (∀ q, getColor oob b1 q ≠ Color.Empty → getColor oob b1 q ≠ t →
        getColor oob acc.2 q = getColor oob b1 q) ∨
      (getColor oob acc.2 pt ≠ Color.Empty ∧ HasLiberty oob acc.2 pt)) :
    (∀ q, getColor oob (adjs.foldl (captureStep oob) acc).2 q = getColor oob b1 q ∨
      getColor oob (adjs.foldl (captureStep oob) acc).2 q = Color.Empty) ∧
    ((∀ q, getColor oob b1 q ≠ Color.Empty → getColor oob b1 q ≠ t →
        getColor oob (adjs.foldl (captureStep oob) acc).2 q = getColor oob b1 q) ∨
      (getColor oob (adjs.foldl (captureStep oob) acc).2 pt ≠ Color.Empty ∧
        HasLiberty oob (adjs.foldl (captureStep oob) acc).2 pt)) := by
  induction adjs generalizing acc with
  | nil => exact ⟨hframe, hinv⟩
  | cons x adjs ih =>
    rw [List.foldl_cons]
    have hstep := attemptCapture_fallback_step oob b1 acc.2 pt t hin hpt hframe hinv x
      (Or.inl (hadjs x (List.mem_cons_self _ _)))
    rw [← captureStep_snd] at hstep
    exact ih (fun y hy => hadjs y (List.mem_cons_of_mem _ hy)) _ hstep.1 hstep.2

/-- C10 (self-capture is a fallback only).  For an in-range Empty coordinate `pt`: when the
stone just placed is itself removed by `place` (the cell `pt` is Empty afterwards), that
`place` removed no opponent stone, i.e. every cell holding a stone of the colour that is not
to move holds it afterwards too. -/
theorem self_capture_removes_no_opponent (oob : Pt → Color) (b : Board) (pt : Pt)
    (hin : InRange pt) (he : getColor oob b pt = Color.Empty)
    (hgone : getColor oob (place oob b pt).2 pt = Color.Empty) :
    ∀ q, getColor oob b q ≠ Color.Empty → getColor oob b q ≠ b.turnColor →
      getColor oob (place oob b pt).2 q = getColor oob b q := by
  have hpt : getColor oob (switchTurn (setColor b pt b.turnColor)) pt = b.turnColor := by
    rw [getColor_switchTurn, getColor_setColor_same oob b hin]
  have hfold := foldl_captureStep_fallback oob (switchTurn (setColor b pt b.turnColor)) pt
    b.turnColor hin hpt (adjacent pt) (fun _ h => h)
    (true, switchTurn (setColor b pt b.turnColor)) (fun _ => Or.inl rfl)
    (Or.inl (fun _ _ _ => rfl))
  have hfinal : (∀ q, getColor oob (switchTurn (setColor b pt b.turnColor)) q ≠ Color.Empty →
        getColor oob (switchTurn (setColor b pt b.turnColor)) q ≠ b.turnColor →
        getColor oob (place oob b pt).2 q =
          getColor oob (switchTurn (setColor b pt b.turnColor)) q) ∨
      (getColor oob (place oob b pt).2 pt ≠ Color.Empty ∧
        HasLiberty oob (place oob b pt).2 pt) := by
    rw [place_of_empty oob b hin he]
    simp only
    split
    · exact (attemptCapture_fallback_step oob _ _ pt b.turnColor hin hpt hfold.1 hfold.2 pt
        (Or.inr rfl)).2
    · exact hfold.2
  intro q hq1 hq2
  have hqp : q ≠ pt := fun h => hq1 (by rw [h]; exact he)
  have hb1 : getColor oob (switchTurn (setColor b pt b.turnColor)) q = getColor oob b q := by
    rw [getColor_switchTurn, getColor_setColor_ne oob b pt _ hqp]
  rcases hfinal with h | h
  · rw [h q (by rw [hb1]; exact hq1) (by rw [hb1]; exact hq2), hb1]
  · exact absurd hgone h.1

/-- Instance of `self_capture_removes_no_opponent`: Black plays the corner (0,0) of
`cornersBoard` and loses the stone; the White stones on (0,1) and (1,0) stay. -/
theorem self_capture_removes_no_opponent_witness :
    InRange ⟨0, 0⟩ ∧ getColor oobEmpty cornersBoard ⟨0, 0⟩ = Color.Empty ∧
    getColor oobEmpty (place oobEmpty cornersBoard ⟨0, 0⟩).2 ⟨0, 0⟩ = Color.Empty ∧
    getColor oobEmpty cornersBoard ⟨1, 0⟩ ≠ Color.Empty ∧
    getColor oobEmpty cornersBoard ⟨1, 0⟩ ≠ cornersBoard.turnColor ∧
    getColor oobEmpty (place oobEmpty cornersBoard ⟨0, 0⟩).2 ⟨1, 0⟩ =
      getColor oobEmpty cornersBoard ⟨1, 0⟩ :=
  ⟨by decide, by decide!, by decide!, by decide!, by decide!,
    self_capture_removes_no_opponent oobEmpty cornersBoard ⟨0, 0⟩ (by decide) (by decide!)
      (by decide!) ⟨1, 0⟩ (by decide!) (by decide!)⟩


/-! ### Capture precedence -/

/-- C1 at the failing input: on `captureRaceBoard` Black plays the Empty corner (0,0).  The
White stone on (0,1) is a group of its own, is adjacent to (0,0) and has (0,0) as its only
liberty, so the move takes its last liberty.  Yet after `place` the stone on (0,1) is still
White, the new stone is gone from (0,0), and the Black stones on (1,0) and (1,1) have been
removed: the neighbour loop reaches the Black neighbour (1,0) first and captures the
mover's own group before it looks at the White one. -/
theorem capture_precedence_violated :
    ∀ oob : Pt → Color,
      InRange ⟨0, 0⟩ ∧ getColor oob captureRaceBoard ⟨0, 0⟩ = Color.Empty ∧
      captureRaceBoard.turnColor = Color.Black ∧
      (⟨0, 1⟩ : Pt) ∈ adjacent ⟨0, 0⟩ ∧
      getColor oob captureRaceBoard ⟨0, 1⟩ = Color.White ∧
      (∀ v, Connected oob captureRaceBoard ⟨0, 1⟩ v → v = ⟨0, 1⟩) ∧
      (∀ a ∈ adjacent ⟨0, 1⟩, InRange a → getColor oob captureRaceBoard a = Color.Empty →
        a = ⟨0, 0⟩) ∧
      (place oob captureRaceBoard ⟨0, 0⟩).1 = true ∧
      getColor oob (place oob captureRaceBoard ⟨0, 0⟩).2 ⟨0, 1⟩ = Color.White ∧
      getColor oob (place oob captureRaceBoard ⟨0, 0⟩).2 ⟨0, 0⟩ = Color.Empty ∧
      getColor oob captureRaceBoard ⟨1, 0⟩ = Color.Black ∧
      getColor oob (place oob captureRaceBoard ⟨0, 0⟩).2 ⟨1, 0⟩ = Color.Empty ∧
      getColor oob captureRaceBoard ⟨1, 1⟩ = Color.Black ∧
      getColor oob (place oob captureRaceBoard ⟨0, 0⟩).2 ⟨1, 1⟩ = Color.Empty := by
  intro oob
  have hnbr : ∀ a ∈ adjacent ⟨0, 1⟩, InRange a →
      (getColor oob captureRaceBoard a = Color.White → False) ∧
      (getColor oob captureRaceBoard a = Color.Empty → a = ⟨0, 0⟩) := by
    intro a ha hr
    rw [getColor_of_inRange oob oobEmpty _ hr]
    simp only [adjacent, List.mem_cons, List.mem_singleton, List.not_mem_nil, or_false] at ha
    rcases ha with h | h | h | h <;> subst h <;> revert hr <;> decide!
  have hw : getColor oob captureRaceBoard ⟨0, 1⟩ = Color.White := by
    rw [getColor_of_inRange oob oobEmpty _ (by decide : InRange ⟨0, 1⟩)]; decide!
  refine ⟨by decide, ?_, by decide!, by decide, hw, ?_, fun a ha hr => (hnbr a ha hr).2,
    ?_, ?_, ?_, ?_, ?_, ?_, ?_⟩
  · rw [getColor_of_inRange oob oobEmpty _ (by decide : InRange ⟨0, 0⟩)]; decide!
  · intro v hv
    induction hv with
    | refl => rfl
    | @tail u w _ hstep ih =>
      subst ih
      exact absurd (hstep.2.2.trans hw) (hnbr w hstep.1 hstep.2.1).1
  · rw [place_congr oob oobEmpty]; decide!
  · rw [place_congr oob oobEmpty,
      getColor_of_inRange oob oobEmpty _ (by decide : InRange ⟨0, 1⟩)]; decide!
  · rw [place_congr oob oobEmpty,
      getColor_of_inRange oob oobEmpty _ (by decide : InRange ⟨0, 0⟩)]; decide!
  · rw [getColor_of_inRange oob oobEmpty _ (by decide : InRange ⟨1, 0⟩)]; decide!
  · rw [place_congr oob oobEmpty,
      getColor_of_inRange oob oobEmpty _ (by decide : InRange ⟨1, 0⟩)]; decide!
  · rw [getColor_of_inRange oob oobEmpty _ (by decide : InRange ⟨1, 1⟩)]; decide!
  · rw [place_congr oob oobEmpty,
      getColor_of_inRange oob oobEmpty _ (by decide : InRange ⟨1, 1⟩)]; decide!


/-! ### The capture decision of the flood fill -/

/-- Once the loop has stopped on an empty stack, more fuel changes nothing. -/
theorem floodLoop_add_fuel (oob : Pt → Color) (b : Board) (fuel k : Nat) (st : Flood)
    (h : (floodLoop oob b fuel st).toVisit = []) :
    floodLoop oob b (fuel + k) st = floodLoop oob b fuel st := by
  induction fuel generalizing st with
  | zero =>
    have hst : st.toVisit = [] := h
    cases k with
    | zero => rfl
    | succ k =>
      rw [Nat.zero_add]
      unfold floodLoop
      rw [hst]
  | succ fuel ih =>
    rw [Nat.add_right_comm]
    unfold floodLoop at h ⊢
    split
    · rfl
    · next curr rest hst =>
      simp only [hst] at h
      exact ih _ h

/-- C19 (flood-fill capture decision).  For an in-range coordinate `pt` holding a stone,
`attemptCapture(pt)` terminates: its loop stops on an empty stack within `SIZE * SIZE`
turns, so that more fuel gives the same state.  It returns `true` exactly when no cell of
the group of `pt` (the cells connected to `pt` through orthogonal steps over stones of its
colour) has an Empty orthogonal neighbour.  When it returns `true` the cells of that group
are Empty afterwards and every other cell, and side-to-move, is as before; when it returns
`false` the board is as before. -/
theorem flood_fill_capture (oob : Pt → Color) (b : Board) (pt : Pt) (hin : InRange pt)
    (hstone : getColor oob b pt ≠ Color.Empty) :
    ((floodLoop oob b (SIZE * SIZE) ⟨[pt], [pt], true⟩).toVisit = [] ∧
      ∀ k, floodLoop oob b (SIZE * SIZE + k) ⟨[pt], [pt], true⟩ =
        floodLoop oob b (SIZE * SIZE) ⟨[pt], [pt], true⟩) ∧
    ((attemptCapture oob b pt).1 = true ↔
      ∀ v, Connected oob b pt v → ¬ HasLiberty oob b v) ∧
    ((attemptCapture oob b pt).1 = true →
      (∀ q, Connected oob b pt q → getColor oob (attemptCapture oob b pt).2 q = Color.Empty) ∧
      (∀ q, ¬ Connected oob b pt q →
        getColor oob (attemptCapture oob b pt).2 q = getColor oob b q) ∧
      (attemptCapture oob b pt).2.turnColor = b.turnColor) ∧
    ((attemptCapture oob b pt).1 = false → (attemptCapture oob b pt).2 = b) := by
  have hdone := (floodLoop_spec oob b hin hstone).2
  refine ⟨⟨hdone, fun k => floodLoop_add_fuel oob b _ k _ hdone⟩, ?_, ?_,
    attemptCapture_false oob b pt⟩
  · rw [attemptCapture_eq_true_iff]
    exact ⟨fun h => h.2.2, fun h => ⟨hin, hstone, h⟩⟩
  · intro h
    obtain ⟨_, _, _, h1, h2⟩ := attemptCapture_true oob b pt h
    exact ⟨h1, h2, attemptCapture_turnColor oob b pt⟩

/-- Instance of `flood_fill_capture`: the White stone on (0,1) of `cornersBoard` has the
liberty (0,2), so `attemptCapture` returns `false` and leaves the board alone. -/
theorem flood_fill_capture_witness :
    InRange ⟨0, 1⟩ ∧ getColor oobEmpty cornersBoard ⟨0, 1⟩ ≠ Color.Empty ∧
    (floodLoop oobEmpty cornersBoard (SIZE * SIZE) ⟨[⟨0, 1⟩], [⟨0, 1⟩], true⟩).toVisit = [] ∧
    (attemptCapture oobEmpty cornersBoard ⟨0, 1⟩).2 = cornersBoard :=
  ⟨by decide, by decide!,
    (flood_fill_capture oobEmpty cornersBoard ⟨0, 1⟩ (by decide) (by decide!)).1.1,
    (flood_fill_capture oobEmpty cornersBoard ⟨0, 1⟩ (by decide) (by decide!)).2.2.2
      (by decide!)⟩

/-! ### Grid accesses of `place` -/

theorem mem_captureAccesses (oob : Pt → Color) (adjs : List Pt) (acc : Bool × Board) (a : Pt)
    (ha : a ∈ adjs) : a ∈ captureAccesses oob acc adjs := by
  induction adjs generalizing acc with
  | nil => simp at ha
  | cons x adjs ih =>
    unfold captureAccesses
    rcases List.mem_cons.1 ha with h | h
    · subst h
      exact List.mem_append_left _ (by unfold attemptCaptureAccesses; simp)
    · exact List.mem_append_right _ (ih _ h)

/-- An accepted placement indexes the grid at each of the four neighbour coordinates of
`pt`, whether they lie on the board or not. -/
theorem mem_placeAccesses_of_adjacent (oob : Pt → Color) (b : Board) {pt : Pt}
    (hin : InRange pt) (he : getColor oob b pt = Color.Empty) (a : Pt)
    (ha : a ∈ adjacent pt) : a ∈ placeAccesses oob b pt := by
  unfold placeAccesses isEmpty
  simp only [he, (outOfBounds_eq_false_iff pt).2 hin, decide_True, Bool.not_true,
    Bool.false_eq_true, or_self, if_false]
  refine List.mem_cons_of_mem _ (List.mem_cons_of_mem _ (List.mem_append_left _ ?_))
  exact mem_captureAccesses oob _ _ a ha

/-- C11 (bounds safety) at the failing input `place(Pt{0, 0})` on a fresh board: the call
is accepted, and among the coordinates at which it indexes the grid are `(-1, 0)` and
`(0, -1)`, which lie outside `[0, SIZE) x [0, SIZE)`: `attemptCapture(adj)` evaluates
`getColor(adj)` before `outOfBounds(adj)`.  This holds whatever such a read finds. -/
theorem place_indexes_outside_grid :
    ∀ oob : Pt → Color,
      InRange ⟨0, 0⟩ ∧ (place oob Board.init ⟨0, 0⟩).1 = true ∧
      (⟨-1, 0⟩ : Pt) ∈ placeAccesses oob Board.init ⟨0, 0⟩ ∧ ¬ InRange ⟨-1, 0⟩ ∧
      (⟨0, -1⟩ : Pt) ∈ placeAccesses oob Board.init ⟨0, 0⟩ ∧ ¬ InRange ⟨0, -1⟩ := by
  intro oob
  have he : getColor oob Board.init ⟨0, 0⟩ = Color.Empty := by
    rw [getColor_of_inRange oob oobEmpty _ (by decide : InRange ⟨0, 0⟩)]; decide!
  exact ⟨by decide, (place_fst_eq_true_iff oob _ _).2 ⟨by decide, he⟩,
    mem_placeAccesses_of_adjacent oob _ (by decide) he _ (by decide), by decide,
    mem_placeAccesses_of_adjacent oob _ (by decide) he _ (by decide), by decide⟩


/-! ### The liberty invariant -/

/-- A stone that survives a capture attempt keeps a group with a liberty if it had one. -/
theorem attemptCapture_keeps_liberty (oob : Pt → Color) (bd : Board) (x v : Pt)
    (hv : InRange v) (hstone : getColor oob (attemptCapture oob bd x).2 v ≠ Color.Empty)
    (hgood : ∃ g, Connected oob bd v g ∧ HasLiberty oob bd g) :
    ∃ g, Connected oob (attemptCapture oob bd x).2 v g ∧
      HasLiberty oob (attemptCapture oob bd x).2 g := by
  cases hcap : (attemptCapture oob bd x).1
  · rw [attemptCapture_false oob bd x hcap]; exact hgood
  · obtain ⟨_, _, _, hgone, hout⟩ := attemptCapture_true oob bd x hcap
    have hxv : ¬ Connected oob bd x v := fun h => hstone (hgone v h)
    have hsame : ∀ w, Connected oob bd v w →
        getColor oob (attemptCapture oob bd x).2 w = getColor oob bd w := by
      intro w hw
      exact hout w (fun hxw => hxv (hxw.trans (connected_symm oob bd hv hw)))
    obtain ⟨g, hg, lib, hadj, hlr, hemp⟩ := hgood
    refine ⟨g, connected_transfer oob bd _ hsame hg, lib, hadj, hlr, ?_⟩
    rcases attemptCapture_cell oob bd x lib with h | h
    · rw [h]; exact hemp
    · exact h

/-- After `attemptCapture(x)` the cell `x`, if it still holds a stone, lies in a group with a
liberty. -/
theorem attemptCapture_gives_liberty (oob : Pt → Color) (bd : Board) (x : Pt) (hx : InRange x)
    (hstone : getColor oob (attemptCapture oob bd x).2 x ≠ Color.Empty) :
    ∃ g, Connected oob (attemptCapture oob bd x).2 x g ∧
      HasLiberty oob (attemptCapture oob bd x).2 g := by
  cases hcap : (attemptCapture oob bd x).1
  · rw [attemptCapture_false oob bd x hcap] at hstone ⊢
    by_contra hno
    have htrue := (attemptCapture_eq_true_iff oob bd x).2
      ⟨hx, hstone, fun v hv hl => hno ⟨v, hv, hl⟩⟩
    rw [hcap] at htrue
    exact Bool.noConfusion htrue
  · obtain ⟨_, _, _, hgone, _⟩ := attemptCapture_true oob bd x hcap
    exact absurd (hgone x Relation.ReflTransGen.refl) hstone

/-- A capture attempt empties the stone `v`, or leaves its whole group (as it stood on `b`)
with the colours of `b`. -/
theorem attemptCapture_group_all_or_nothing (oob : Pt → Color) (b bd : Board) (x v : Pt)
    (hv : InRange v)
    (hsame : ∀ w, Connected oob b v w → getColor oob bd w = getColor oob b w) :
    (∀ w, Connected oob b v w → getColor oob (attemptCapture oob bd x).2 w = getColor oob b w) ∨
    getColor oob (attemptCapture oob bd x).2 v = Color.Empty := by
  cases hcap : (attemptCapture oob bd x).1
  · rw [attemptCapture_false oob bd x hcap]; exact Or.inl hsame
  · obtain ⟨_, _, _, hgone, hout⟩ := attemptCapture_true oob bd x hcap
    by_cases hxv : Connected oob bd x v
    · exact Or.inr (hgone v hxv)
    · refine Or.inl (fun w hw => ?_)
      rw [hout w, hsame w hw]
      intro hxw
      exact hxv (hxw.trans (connected_symm oob bd hv (connected_transfer oob b bd hsame hw)))

theorem foldl_captureStep_empty_stays (oob : Pt → Color) (adjs : List Pt) (acc : Bool × Board)
    (q : Pt) (h : getColor oob acc.2 q = Color.Empty) :
    getColor oob (adjs.foldl (captureStep oob) acc).2 q = Color.Empty := by
  rcases foldl_captureStep_cell oob adjs acc q with h' | h'
  · rw [h']; exact h
  · exact h'

theorem foldl_captureStep_keeps_liberty (oob : Pt → Color) (adjs : List Pt)
    (acc : Bool × Board) (v : Pt) (hv : InRange v)
    (hstone : getColor oob (adjs.foldl (captureStep oob) acc).2 v ≠ Color.Empty)
    (hgood : ∃ g, Connected oob acc.2 v g ∧ HasLiberty oob acc.2 g) :
    ∃ g, Connected oob (adjs.foldl (captureStep oob) acc).2 v g ∧
      HasLiberty oob (adjs.foldl (captureStep oob) acc).2 g := by
  induction adjs generalizing acc with
  | nil => exact hgood
  | cons x adjs ih =>
    rw [List.foldl_cons] at hstone ⊢
    have hmid : getColor oob (captureStep oob acc x).2 v ≠ Color.Empty := fun h =>
      hstone (foldl_captureStep_empty_stays oob adjs _ v h)
    refine ih _ hstone ?_
    rw [captureStep_snd] at hmid ⊢
    exact attemptCapture_keeps_liberty oob acc.2 x v hv hmid hgood

theorem foldl_captureStep_gives_liberty (oob : Pt → Color) (adjs : List Pt)
    (acc : Bool × Board) (x : Pt) (hx : x ∈ adjs) (hxr : InRange x)
    (hstone : getColor oob (adjs.foldl (captureStep oob) acc).2 x ≠ Color.Empty) :
    ∃ g, Connected oob (adjs.foldl (captureStep oob) acc).2 x g ∧
      HasLiberty oob (adjs.foldl (captureStep oob) acc).2 g := by
  induction adjs generalizing acc with
  | nil => simp at hx
  | cons y adjs ih =>
    rw [List.foldl_cons] at hstone ⊢
    rcases List.mem_cons.1 hx with h | h
    · subst h
      have hmid : getColor oob (captureStep oob acc x).2 x ≠ Color.Empty := fun h =>
        hstone (foldl_captureStep_empty_stays oob adjs _ x h)
      refine foldl_captureStep_keeps_liberty oob adjs _ x hxr hstone ?_
      rw [captureStep_snd] at hmid ⊢
      exact attemptCapture_gives_liberty oob acc.2 x hxr hmid
    · exact ih _ h hstone

theorem foldl_captureStep_group_unchanged (oob : Pt → Color) (b : Board) (adjs : List Pt)
    (acc : Bool × Board) (v : Pt) (hv : InRange v)
    (hsame : ∀ w, Connected oob b v w → getColor oob acc.2 w = getColor oob b w)
    (hstone : getColor oob (adjs.foldl (captureStep oob) acc).2 v ≠ Color.Empty) :
    ∀ w, Connected oob b v w →
      getColor oob (adjs.foldl (captureStep oob) acc).2 w = getColor oob b w := by
  induction adjs generalizing acc with
  | nil => exact hsame
  | cons x adjs ih =>
    rw [List.foldl_cons] at hstone ⊢
    refine ih _ ?_ hstone
    rcases attemptCapture_group_all_or_nothing oob b acc.2 x v hv hsame with h | h
    · rw [captureStep_snd]; exact h
    · rw [← captureStep_snd] at h
      exact absurd (foldl_captureStep_empty_stays oob adjs _ v h) hstone

/-- When the neighbour loop ends with `noCapture == false`, one of the neighbours it went
through is an in-range cell that is now Empty. -/
theorem foldl_captureStep_flag (oob : Pt → Color) (adjs : List Pt) (acc : Bool × Board)
    (h : (adjs.foldl (captureStep oob) acc).1 = false) :
    acc.1 = false ∨
      ∃ x ∈ adjs, InRange x ∧ getColor oob (adjs.foldl (captureStep oob) acc).2 x = Color.Empty := by
  induction adjs generalizing acc with
  | nil => exact Or.inl h
  | cons y adjs ih =>
    rw [List.foldl_cons] at h ⊢
    rcases ih _ h with h' | ⟨x, hx, hxr, hxe⟩
    · cases hcap : (attemptCapture oob acc.2 y).1
      · left
        unfold captureStep at h'
        simpa [hcap] using h'
      · right
        obtain ⟨hyr, _, _, hgone, _⟩ := attemptCapture_true oob acc.2 y hcap
        refine ⟨y, List.mem_cons_self _ _, hyr, foldl_captureStep_empty_stays oob adjs _ y ?_⟩
        rw [captureStep_snd]
        exact hgone y Relation.ReflTransGen.refl
    · exact Or.inr ⟨x, List.mem_cons_of_mem _ hx, hxr, hxe⟩


theorem connected_switchTurn (oob : Pt → Color) (b : Board) {u v : Pt}
    (h : Connected oob b u v) : Connected oob (switchTurn b) u v :=
  connected_transfer oob b _ (fun g _ => getColor_switchTurn oob b g) h

/-- The liberty invariant is kept by `place`: if every stone lies in a group with a liberty
before the call, so it does after it, whatever the coordinate. -/
theorem place_keeps_liberties (oob : Pt → Color) (b : Board) (pt : Pt)
    (h : AllGroupsHaveLiberty oob b) : AllGroupsHaveLiberty oob (place oob b pt).2 := by
  by_cases hin : InRange pt
  swap
  · rw [place_of_not_inRange oob b hin]; exact h
  by_cases he : getColor oob b pt = Color.Empty
  swap
  · rw [place_of_occupied oob b he]; exact h
  rw [place_of_empty oob b hin he]
  simp only
  intro v hv hstone
  -- facts about the board on which the neighbour loop starts
  have hb1 : ∀ q, q ≠ pt →
      getColor oob (switchTurn (setColor b pt b.turnColor)) q = getColor oob b q := by
    intro q hq
    rw [getColor_switchTurn, getColor_setColor_ne oob b pt _ hq]
  by_cases hflag : ((adjacent pt).foldl (captureStep oob)
      (true, switchTurn (setColor b pt b.turnColor))).1 = true
  · -- nothing was captured around `pt`: the last attempt, on `pt`, is made
    simp only [hflag, if_true] at hstone ⊢
    have hstone4 : getColor oob ((adjacent pt).foldl (captureStep oob)
        (true, switchTurn (setColor b pt b.turnColor))).2 v ≠ Color.Empty := by
      intro h4
      rcases attemptCapture_cell oob ((adjacent pt).foldl (captureStep oob)
        (true, switchTurn (setColor b pt b.turnColor))).2 pt v with h' | h'
      · exact hstone (by rw [h']; exact h4)
      · exact hstone h'
    by_cases hvp : v = pt
    · subst hvp
      exact attemptCapture_gives_liberty oob _ v hv hstone
    · -- the group of `v` on `b` is untouched
      have hvb : getColor oob b v ≠ Color.Empty := by
        rcases foldl_captureStep_cell oob (adjacent pt)
          (true, switchTurn (setColor b pt b.turnColor)) v with h' | h'
        · rw [h', hb1 v hvp] at hstone4; exact hstone4
        · exact absurd h' hstone4
      have hsame1 : ∀ w, Connected oob b v w →
          getColor oob (switchTurn (setColor b pt b.turnColor)) w = getColor oob b w := by
        intro w hw
        refine hb1 w (fun hwp => hvb ?_)
        rw [← connected_color_eq oob b hw, hwp]; exact he
      have hsame4 := foldl_captureStep_group_unchanged oob b (adjacent pt)
        (true, switchTurn (setColor b pt b.turnColor)) v hv hsame1 hstone4
      have hsame5 : ∀ w, Connected oob b v w →
          getColor oob (attemptCapture oob ((adjacent pt).foldl (captureStep oob)
            (true, switchTurn (setColor b pt b.turnColor))).2 pt).2 w = getColor oob b w := by
        rcases attemptCapture_group_all_or_nothing oob b _ pt v hv hsame4 with h' | h'
        · exact h'
        · exact absurd h' hstone
      obtain ⟨g, hg, lib, hadj, hlr, hemp⟩ := h v hv hvb
      by_cases hlp : lib = pt
      · -- the liberty was `pt`: `g` is a neighbour of `pt`, dealt with by the loop
        subst hlp
        have hgadj : g ∈ adjacent lib := mem_adjacent_symm hadj
        have hgr : InRange g := connected_inRange oob b hv hg
        have hg5 : getColor oob (attemptCapture oob ((adjacent lib).foldl (captureStep oob)
            (true, switchTurn (setColor b lib b.turnColor))).2 lib).2 g ≠ Color.Empty := by
          rw [hsame5 g hg, connected_color_eq oob b hg]; exact hvb
        have hg4 : getColor oob ((adjacent lib).foldl (captureStep oob)
            (true, switchTurn (setColor b lib b.turnColor))).2 g ≠ Color.Empty := by
          rw [hsame4 g hg, connected_color_eq oob b hg]; exact hvb
        have hgood4 := foldl_captureStep_gives_liberty oob (adjacent lib)
          (true, switchTurn (setColor b lib b.turnColor)) g hgadj hgr hg4
        obtain ⟨g', hg', hl'⟩ := attemptCapture_keeps_liberty oob _ lib g hgr hg5 hgood4
        exact ⟨g', (connected_transfer oob b _ hsame5 hg).trans hg', hl'⟩
      · -- the liberty is another cell: it is still Empty
        refine ⟨g, connected_transfer oob b _ hsame5 hg, lib, hadj, hlr, ?_⟩
        have h1 : getColor oob (switchTurn (setColor b pt b.turnColor)) lib = Color.Empty := by
          rw [hb1 lib hlp]; exact hemp
        have h4 := foldl_captureStep_empty_stays oob (adjacent pt)
          (true, switchTurn (setColor b pt b.turnColor)) lib h1
        rcases attemptCapture_cell oob ((adjacent pt).foldl (captureStep oob)
          (true, switchTurn (setColor b pt b.turnColor))).2 pt lib with h' | h'
        · rw [h']; exact h4
        · exact h'
  · -- something was captured around `pt`
    have hflag' : ((adjacent pt).foldl (captureStep oob)
        (true, switchTurn (setColor b pt b.turnColor))).1 = false := by
      simpa using hflag
    simp only [hflag', Bool.false_eq_true, if_false] at hstone ⊢
    by_cases hvp : v = pt
    · subst hvp
      rcases foldl_captureStep_flag oob (adjacent v) _ hflag' with h' | ⟨x, hx, hxr, hxe⟩
      · exact absurd h' (by simp)
      · exact ⟨v, Relation.ReflTransGen.refl, x, hx, hxr, hxe⟩
    · have hvb : getColor oob b v ≠ Color.Empty := by
        rcases foldl_captureStep_cell oob (adjacent pt)
          (true, switchTurn (setColor b pt b.turnColor)) v with h' | h'
        · rw [h', hb1 v hvp] at hstone; exact hstone
        · exact absurd h' hstone
      have hsame1 : ∀ w, Connected oob b v w →
          getColor oob (switchTurn (setColor b pt b.turnColor)) w = getColor oob b w := by
        intro w hw
        refine hb1 w (fun hwp => hvb ?_)
        rw [← connected_color_eq oob b hw, hwp]; exact he
      have hsame4 := foldl_captureStep_group_unchanged oob b (adjacent pt)
        (true, switchTurn (setColor b pt b.turnColor)) v hv hsame1 hstone
      obtain ⟨g, hg, lib, hadj, hlr, hemp⟩ := h v hv hvb
      by_cases hlp : lib = pt
      · subst hlp
        have hgadj : g ∈ adjacent lib := mem_adjacent_symm hadj
        have hgr : InRange g := connected_inRange oob b hv hg
        have hg4 : getColor oob ((adjacent lib).foldl (captureStep oob)
            (true, switchTurn (setColor b lib b.turnColor))).2 g ≠ Color.Empty := by
          rw [hsame4 g hg, connected_color_eq oob b hg]; exact hvb
        obtain ⟨g', hg', hl'⟩ := foldl_captureStep_gives_liberty oob (adjacent lib)
          (true, switchTurn (setColor b lib b.turnColor)) g hgadj hgr hg4
        exact ⟨g', (connected_transfer oob b _ hsame4 hg).trans hg', hl'⟩
      · refine ⟨g, connected_transfer oob b _ hsame4 hg, lib, hadj, hlr, ?_⟩
        have h1 : getColor oob (switchTurn (setColor b pt b.turnColor)) lib = Color.Empty := by
          rw [hb1 lib hlp]; exact hemp
        exact foldl_captureStep_empty_stays oob (adjacent pt)
          (true, switchTurn (setColor b pt b.turnColor)) lib h1

theorem getColor_init (oob : Pt → Color) {q : Pt} (hq : InRange q) :
    getColor oob Board.init q = Color.Empty := by
  unfold getColor Board.init
  rw [dif_pos hq]
  simp only [Mathlib.Vector.get_replicate]

theorem init_liberties (oob : Pt → Color) : AllGroupsHaveLiberty oob Board.init :=
  fun _ hv hstone => absurd (getColor_init oob hv) hstone

theorem playMoves_liberties (oob : Pt → Color) (b : Board) (pts : List Pt)
    (h : AllGroupsHaveLiberty oob b) : AllGroupsHaveLiberty oob (playMoves oob b pts) := by
  unfold playMoves
  induction pts generalizing b with
  | nil => exact h
  | cons p pts ih =>
    rw [List.foldl_cons]
    exact ih _ (place_keeps_liberties oob b p h)

/-- A board on which every group has a liberty has an Empty cell. -/
theorem exists_empty_of_liberties (oob : Pt → Color) (b : Board)
    (h : AllGroupsHaveLiberty oob b) : ∃ p, InRange p ∧ getColor oob b p = Color.Empty := by
  by_cases h0 : getColor oob b ⟨0, 0⟩ = Color.Empty
  · exact ⟨⟨0, 0⟩, by decide, h0⟩
  · obtain ⟨_, _, lib, _, hlr, hemp⟩ := h ⟨0, 0⟩ (by decide) h0
    exact ⟨lib, hlr, hemp⟩


/-! ### The heap of search nodes -/

theorem nodeAt_eq_getElem (heap : List Node) {a : Nat} (h : a < heap.length) :
    nodeAt heap a = heap[a] := by
  unfold nodeAt
  rw [List.getD_eq_getElem _ _ h]

theorem nodeAt_of_length_le (heap : List Node) {a : Nat} (h : heap.length ≤ a) :
    nodeAt heap a = Node.create Board.init ⟨-1, -1⟩ := by
  unfold nodeAt
  rw [List.getD_eq_default _ _ h]

theorem nodeAt_set_same (heap : List Node) {a : Nat} (h : a < heap.length) (n : Node) :
    nodeAt (heap.set a n) a = n := by
  rw [nodeAt_eq_getElem _ (by rw [List.length_set]; exact h)]
  simp

theorem nodeAt_set_ne (heap : List Node) {a c : Nat} (h : a ≠ c) (n : Node) :
    nodeAt (heap.set a n) c = nodeAt heap c := by
  unfold nodeAt
  rw [List.getD_eq_getElem?_getD, List.getD_eq_getElem?_getD, List.getElem?_set_ne h]

theorem nodeAt_set_of_length_le (heap : List Node) {a : Nat} (h : heap.length ≤ a) (n : Node) :
    heap.set a n = heap := by
  apply List.ext_getElem?
  intro i
  by_cases hi : a = i
  · subst hi
    rw [List.getElem?_eq_none (by rw [List.length_set]; exact h), List.getElem?_eq_none h]
  · rw [List.getElem?_set_ne hi]

theorem nodeAt_append_left (heap ext : List Node) {a : Nat} (h : a < heap.length) :
    nodeAt (heap ++ ext) a = nodeAt heap a := by
  unfold nodeAt
  rw [List.getD_eq_getElem?_getD, List.getD_eq_getElem?_getD, List.getElem?_append_left h]

theorem nodeAt_append_length (heap : List Node) (n : Node) :
    nodeAt (heap ++ [n]) heap.length = n := by
  unfold nodeAt
  rw [List.getD_eq_getElem?_getD]
  simp


/-! ### `Node::expand` -/

/-- What the passes of the loop of `expand` over the moves `ms` do to the heap. -/
theorem foldl_expandStep (oob : Pt → Color) (node : Nat) (ms : List Pt) (heap : List Node)
    (hnode : node < heap.length) :
    (ms.foldl (expandStep oob node) heap).length = heap.length + ms.length ∧
    nodeAt (ms.foldl (expandStep oob node) heap) node =
      { nodeAt heap node with
        children := (nodeAt heap node).children ++ List.range' heap.length ms.length } ∧
    (∀ a, a < heap.length → a ≠ node →
      nodeAt (ms.foldl (expandStep oob node) heap) a = nodeAt heap a) ∧
    (∀ i (hi : i < ms.length), nodeAt (ms.foldl (expandStep oob node) heap) (heap.length + i) =
      Node.create (place oob (nodeAt heap node).board (ms.get ⟨i, hi⟩)).2 (ms.get ⟨i, hi⟩)) := by
  induction ms generalizing heap with
  | nil =>
    refine ⟨rfl, ?_, fun _ _ _ => rfl, fun i hi => absurd hi (Nat.not_lt_zero i)⟩
    simp
  | cons m ms ih =>
    have hlen1 : (expandStep oob node heap m).length = heap.length + 1 := by
      unfold expandStep; simp
    have hnode1 : nodeAt (expandStep oob node heap m) node =
        { nodeAt heap node with children := (nodeAt heap node).children ++ [heap.length] } := by
      unfold expandStep
      rw [nodeAt_set_same _ (by simp; omega)]
    have hother1 : ∀ a, a < heap.length → a ≠ node →
        nodeAt (expandStep oob node heap m) a = nodeAt heap a := by
      intro a ha hne
      unfold expandStep
      rw [nodeAt_set_ne _ (Ne.symm hne), nodeAt_append_left _ _ ha]
    have hnew1 : nodeAt (expandStep oob node heap m) heap.length =
        Node.create (place oob (nodeAt heap node).board m).2 m := by
      unfold expandStep
      rw [nodeAt_set_ne _ (by omega), nodeAt_append_length]
    obtain ⟨h1, h2, h3, h4⟩ := ih (expandStep oob node heap m) (by omega)
    rw [List.foldl_cons]
    refine ⟨by rw [h1, hlen1, List.length_cons]; omega, ?_, ?_, ?_⟩
    · rw [h2, hnode1, hlen1]
      simp [List.range'_succ]
    · intro a ha hne
      rw [h3 a (by omega) hne, hother1 a ha hne]
    · intro i hi
      cases i with
      | zero =>
        rw [Nat.add_zero, h3 heap.length (by omega) (by omega), hnew1]
        rfl
      | succ i =>
        have := h4 i (by simpa using hi)
        rw [hlen1, hnode1] at this
        rw [show heap.length + (i + 1) = heap.length + 1 + i by omega, this]
        rfl

/-- C17 (expansion).  `expand` on an allocated node without children allocates one new node
per element of `validMoves()` of the node's board, in the same (row-major) order, at the
next free addresses, and makes exactly these the children of the node, in that order.  The
child for the `i`-th move has that move, `visits = 0`, `wins = 0`, no children, and the
board the parent's board becomes by `place` of that move.  The parent keeps its board, move,
visits and wins, and every other node is as before. -/
theorem expand_spec (oob : Pt → Color) (heap : List Node) (node : Nat)
    (hnode : node < heap.length) (hleaf : (nodeAt heap node).children = []) :
    (expand oob heap node).length =
      heap.length + (validMoves oob (nodeAt heap node).board).length ∧
    (nodeAt (expand oob heap node) node).children =
      List.range' heap.length (validMoves oob (nodeAt heap node).board).length ∧
    (∀ i (hi : i < (validMoves oob (nodeAt heap node).board).length),
      nodeAt (expand oob heap node) (heap.length + i) =
        ⟨(place oob (nodeAt heap node).board
            ((validMoves oob (nodeAt heap node).board).get ⟨i, hi⟩)).2,
          (validMoves oob (nodeAt heap node).board).get ⟨i, hi⟩, [], 0, 0⟩) ∧
    (nodeAt (expand oob heap node) node).board = (nodeAt heap node).board ∧
    (nodeAt (expand oob heap node) node).move = (nodeAt heap node).move ∧
    (nodeAt (expand oob heap node) node).visits = (nodeAt heap node).visits ∧
    (nodeAt (expand oob heap node) node).wins = (nodeAt heap node).wins ∧
    (∀ a, a < heap.length → a ≠ node → nodeAt (expand oob heap node) a = nodeAt heap a) := by
  obtain ⟨h1, h2, h3, h4⟩ :=
    foldl_expandStep oob node (validMoves oob (nodeAt heap node).board) heap hnode
  unfold expand
  refine ⟨h1, by rw [h2, hleaf]; rfl, h4, by rw [h2], by rw [h2], by rw [h2], by rw [h2], h3⟩


/-- Instance of `expand_spec`: the root of the tree built for `stripedBoard` gets the three
children 1, 2, 3. -/
theorem expand_spec_witness :
    0 < (MCTS.create stripedBoard).heap.length ∧
    (nodeAt (MCTS.create stripedBoard).heap 0).children = [] ∧
    (nodeAt (expand oobEmpty (MCTS.create stripedBoard).heap 0) 0).children =
      List.range' (MCTS.create stripedBoard).heap.length
        (validMoves oobEmpty (nodeAt (MCTS.create stripedBoard).heap 0).board).length ∧
    (nodeAt (expand oobEmpty (MCTS.create stripedBoard).heap 0) 0).children = [1, 2, 3] :=
  ⟨by decide, by decide!,
    (expand_spec oobEmpty (MCTS.create stripedBoard).heap 0 (by decide) (by decide!)).2.1,
    by decide!⟩

/-- C20 (liberty invariant).  On the board reached from the empty board by any run of
`place` calls on in-range coordinates, every stone lies in a group that has a liberty;
hence the board has an Empty cell, `validMoves()` is not empty, and `expand` on a childless
node holding such a board gives it at least one child. -/
theorem liberty_invariant (oob : Pt → Color) (pts : List Pt) (_hpts : ∀ p ∈ pts, InRange p) :
    AllGroupsHaveLiberty oob (playMoves oob Board.init pts) ∧
    (∃ p, InRange p ∧ getColor oob (playMoves oob Board.init pts) p = Color.Empty) ∧
    validMoves oob (playMoves oob Board.init pts) ≠ [] ∧
    ∀ (heap : List Node) (node : Nat), node < heap.length →
      (nodeAt heap node).children = [] →
      (nodeAt heap node).board = playMoves oob Board.init pts →
      (nodeAt (expand oob heap node) node).children ≠ [] := by
  have hlib := playMoves_liberties oob Board.init pts (init_liberties oob)
  have hempty := exists_empty_of_liberties oob _ hlib
  have hmoves : validMoves oob (playMoves oob Board.init pts) ≠ [] := by
    obtain ⟨p, hp, he⟩ := hempty
    intro hnil
    have := ((validMoves_spec oob (playMoves oob Board.init pts)).1 p).2 ⟨hp, he⟩
    rw [hnil] at this
    exact List.not_mem_nil _ this
  refine ⟨hlib, hempty, hmoves, ?_⟩
  intro heap node hnode hleaf hboard
  rw [(expand_spec oob heap node hnode hleaf).2.1, hboard]
  intro hnil
  have hlen := congrArg List.length hnil
  rw [List.length_range'] at hlen
  exact hmoves (List.eq_nil_of_length_eq_zero hlen)

/-- Instance of `liberty_invariant`: the position after the eight moves of
`captureRaceBoard` and Black's move to the corner (0,0). -/
theorem liberty_invariant_witness :
    (∀ p ∈ ([⟨1, 0⟩, ⟨0, 1⟩, ⟨1, 1⟩, ⟨2, 0⟩, ⟨0, 2⟩, ⟨2, 1⟩, ⟨8, 8⟩, ⟨1, 2⟩, ⟨0, 0⟩] : List Pt),
      InRange p) ∧
    AllGroupsHaveLiberty oobEmpty (playMoves oobEmpty Board.init
      [⟨1, 0⟩, ⟨0, 1⟩, ⟨1, 1⟩, ⟨2, 0⟩, ⟨0, 2⟩, ⟨2, 1⟩, ⟨8, 8⟩, ⟨1, 2⟩, ⟨0, 0⟩]) ∧
    validMoves oobEmpty (playMoves oobEmpty Board.init
      [⟨1, 0⟩, ⟨0, 1⟩, ⟨1, 1⟩, ⟨2, 0⟩, ⟨0, 2⟩, ⟨2, 1⟩, ⟨8, 8⟩, ⟨1, 2⟩, ⟨0, 0⟩]) ≠ [] :=
  ⟨by decide,
    (liberty_invariant oobEmpty
      [⟨1, 0⟩, ⟨0, 1⟩, ⟨1, 1⟩, ⟨2, 0⟩, ⟨0, 2⟩, ⟨2, 1⟩, ⟨8, 8⟩, ⟨1, 2⟩, ⟨0, 0⟩] (by decide)).1,
    (liberty_invariant oobEmpty
      [⟨1, 0⟩, ⟨0, 1⟩, ⟨1, 1⟩, ⟨2, 0⟩, ⟨0, 2⟩, ⟨2, 1⟩, ⟨8, 8⟩, ⟨1, 2⟩, ⟨0, 0⟩]
      (by decide)).2.2.1⟩


/-! ### The move returned by `runMCTS` -/

/-- The loop over `root->children` keeps the first child of maximal visit count: if the
children seen so far are `p1 ++ best :: p2`, with smaller counts in `p1` and counts not
larger in `p2`, the same holds after the remaining children `l`. -/
theorem foldl_bestChildStep (heap : List Node) (l p1 p2 : List Nat) (best : Nat)
    (h1 : ∀ x ∈ p1, (nodeAt heap x).visits < (nodeAt heap best).visits)
    (h2 : ∀ x ∈ p2, (nodeAt heap x).visits ≤ (nodeAt heap best).visits) :
    ∃ q1 q2, p1 ++ best :: p2 ++ l = q1 ++ l.foldl (bestChildStep heap) best :: q2 ∧
      (∀ x ∈ q1, (nodeAt heap x).visits < (nodeAt heap (l.foldl (bestChildStep heap) best)).visits) ∧
      (∀ x ∈ q2, (nodeAt heap x).visits ≤ (nodeAt heap (l.foldl (bestChildStep heap) best)).visits) := by
  induction l generalizing p1 p2 best with
  | nil => exact ⟨p1, p2, by simp, h1, h2⟩
  | cons c l ih =>
    rw [List.foldl_cons]
    by_cases hc : (nodeAt heap c).visits > (nodeAt heap best).visits
    · have hstep : bestChildStep heap best c = c := by
        unfold bestChildStep; rw [if_pos hc]
      rw [hstep]
      obtain ⟨q1, q2, heq, hq1, hq2⟩ := ih (p1 ++ best :: p2) [] c
        (by
          intro x hx
          rcases List.mem_append.1 hx with h | h
          · exact Nat.lt_trans (h1 x h) hc
          · rcases List.mem_cons.1 h with h | h
            · rw [h]; exact hc
            · exact Nat.lt_of_le_of_lt (h2 x h) hc)
        (by simp)
      exact ⟨q1, q2, by rw [← heq]; simp, hq1, hq2⟩
    · have hstep : bestChildStep heap best c = best := by
        unfold bestChildStep; rw [if_neg hc]
      rw [hstep]
      obtain ⟨q1, q2, heq, hq1, hq2⟩ := ih p1 (p2 ++ [c]) best h1
        (by
          intro x hx
          rcases List.mem_append.1 hx with h | h
          · exact h2 x h
          · simp at h; rw [h]; omega)
      exact ⟨q1, q2, by rw [← heq]; simp, hq1, hq2⟩

theorem bestMove_of_no_children (heap : List Node) (h : (nodeAt heap 0).children = []) :
    bestMove heap = ⟨-1, -1⟩ := by
  unfold bestMove
  rw [h]

theorem bestMove_of_children (heap : List Node) (h : (nodeAt heap 0).children ≠ []) :
    ∃ pre c post, (nodeAt heap 0).children = pre ++ c :: post ∧
      bestMove heap = (nodeAt heap c).move ∧
      (∀ x ∈ pre, (nodeAt heap x).visits < (nodeAt heap c).visits) ∧
      (∀ x ∈ post, (nodeAt heap x).visits ≤ (nodeAt heap c).visits) := by
  unfold bestMove
  cases hch : (nodeAt heap 0).children with
  | nil => exact absurd hch h
  | cons first rest =>
    simp only
    have hfirst : (first :: rest).foldl (bestChildStep heap) first =
        rest.foldl (bestChildStep heap) first := by
      rw [List.foldl_cons]
      unfold bestChildStep
      simp
    rw [hfirst]
    obtain ⟨q1, q2, heq, hq1, hq2⟩ := foldl_bestChildStep heap rest [] [] first
      (by simp) (by simp)
    exact ⟨q1, _, q2, by simpa using heq, rfl, hq1, hq2⟩

/-- C12 (best-move query).  When the iteration loop of `runMCTS` has completed, leaving the
tree `s'`, `runMCTS` returns `bestMove` of that tree: the sentinel `(-1, -1)` when the root
has no children, and otherwise the move of the child `c` of the root that comes first among
the children of maximal visit count (every child before it has a smaller count, every child
after it a count that is not larger). -/
theorem best_move_query (oob : Pt → Color) (uct : Int → Nat → Nat → ℚ)
    (rnds : Nat → Nat → Nat) (fuel : Nat) (s s' : MCTS) (iterations : Nat)
    (hrun : runLoop oob uct rnds fuel iterations 0 s = Except.ok s') :
    runMCTS oob uct rnds fuel s iterations = Except.ok (bestMove s'.heap) ∧
    ((nodeAt s'.heap 0).children = [] → bestMove s'.heap = ⟨-1, -1⟩) ∧
    ((nodeAt s'.heap 0).children ≠ [] →
      ∃ pre c post, (nodeAt s'.heap 0).children = pre ++ c :: post ∧
        bestMove s'.heap = (nodeAt s'.heap c).move ∧
        (∀ x ∈ pre, (nodeAt s'.heap x).visits < (nodeAt s'.heap c).visits) ∧
        (∀ x ∈ post, (nodeAt s'.heap x).visits ≤ (nodeAt s'.heap c).visits)) := by
  refine ⟨?_, bestMove_of_no_children s'.heap, bestMove_of_children s'.heap⟩
  unfold runMCTS
  rw [hrun]

/-- Instance of `best_move_query`: two iterations on the tree built for `stripedBoard`;
only the first child has been visited, and its move (0,0) is returned. -/
theorem best_move_query_witness :
    runLoop oobEmpty uctZero rndStriped 3 2 0 (MCTS.create stripedBoard) =
      Except.ok (stateAfter oobEmpty uctZero rndStriped 3 (MCTS.create stripedBoard) 2) ∧
    runMCTS oobEmpty uctZero rndStriped 3 (MCTS.create stripedBoard) 2 =
      Except.ok (bestMove (stateAfter oobEmpty uctZero rndStriped 3
        (MCTS.create stripedBoard) 2).heap) ∧
    bestMove (stateAfter oobEmpty uctZero rndStriped 3 (MCTS.create stripedBoard) 2).heap =
      ⟨0, 0⟩ :=
  ⟨by decide!,
    (best_move_query oobEmpty uctZero rndStriped 3 (MCTS.create stripedBoard)
      (stateAfter oobEmpty uctZero rndStriped 3 (MCTS.create stripedBoard) 2) 2 (by decide!)).1,
    by decide!⟩


/-! ### The choice among the children in `select` -/

theorem selectStep_of_posInf (uct : Int → Nat → Nat → ℚ) (heap : List Node) (total : Nat)
    (best : Option Nat) (l : List Nat) :
    l.foldl (selectStep uct heap total) (Score.posInf, best) = (Score.posInf, best) := by
  induction l with
  | nil => rfl
  | cons x l ih =>
    rw [List.foldl_cons]
    have : selectStep uct heap total (Score.posInf, best) x = (Score.posInf, best) := by
      unfold selectStep
      simp [Score.lt]
    rw [this, ih]

theorem score_lt_nan (s : Score) : Score.lt s Score.nan = false := by
  cases s <;> rfl

theorem score_lt_posInf (s : Score) (h : s = Score.negInf ∨ ∃ q, s = Score.finite q) :
    Score.lt s Score.posInf = true := by
  rcases h with h | ⟨q, h⟩ <;> rw [h] <;> rfl

/-- While only visited children have been scored, `bestValue` is `-inf` or finite. -/
theorem selectStep_of_visited (uct : Int → Nat → Nat → ℚ) (heap : List Node) (total : Nat)
    (l : List Nat) (acc : Score × Option Nat)
    (hacc : acc.1 = Score.negInf ∨ ∃ q, acc.1 = Score.finite q)
    (hl : ∀ x ∈ l, (nodeAt heap x).visits ≠ 0) :
    (l.foldl (selectStep uct heap total) acc).1 = Score.negInf ∨
      ∃ q, (l.foldl (selectStep uct heap total) acc).1 = Score.finite q := by
  induction l generalizing acc with
  | nil => exact hacc
  | cons x l ih =>
    rw [List.foldl_cons]
    refine ih _ ?_ (fun y hy => hl y (List.mem_cons_of_mem _ hy))
    have hx := hl x (List.mem_cons_self _ _)
    unfold selectStep UCT
    simp only [hx, if_false]
    by_cases ht : total = 0
    · simp only [ht, if_true, score_lt_nan, Bool.false_eq_true, if_false]
      exact hacc
    · simp only [ht, if_false]
      split
      · exact Or.inr ⟨_, rfl⟩
      · exact hacc

theorem selectStep_of_unvisited (uct : Int → Nat → Nat → ℚ) (heap : List Node) (total : Nat)
    (acc : Score × Option Nat) (c : Nat)
    (hacc : acc.1 = Score.negInf ∨ ∃ q, acc.1 = Score.finite q)
    (hc : (nodeAt heap c).visits = 0) :
    selectStep uct heap total acc c = (Score.posInf, some c) := by
  unfold selectStep UCT
  simp only [hc, if_true, score_lt_posInf _ hacc]

/-- C14 (UCT monotonicity).  Let the children of `node` be `pre ++ c :: post`, where `c` has
`visits = 0` and every child in `pre` has been visited.  Whatever the visits and wins of
the other children, whatever finite values the UCT expression takes, and for every visit
total passed to `UCT` (in particular every total `>= 1`), the loop over the children ends
with `bestNode == c`; so `select` descends from `node` to `c`, the first unvisited child,
and records it in the path. -/
theorem unvisited_child_selected (uct : Int → Nat → Nat → ℚ) (heap : List Node)
    (node : Nat) (pre post : List Nat) (c : Nat)
    (hchildren : (nodeAt heap node).children = pre ++ c :: post)
    (hc : (nodeAt heap c).visits = 0)
    (hpre : ∀ x ∈ pre, (nodeAt heap x).visits ≠ 0) :
    (∀ total : Nat, 1 ≤ total →
      (pre ++ c :: post).foldl (selectStep uct heap total) (Score.negInf, none) =
        (Score.posInf, some c)) ∧
    bestNode uct heap node = some c ∧
    ∀ fuel path, selectLoop uct heap (fuel + 1) node path =
      selectLoop uct heap fuel c (path ++ [c]) := by
  have hfold : ∀ total : Nat,
      (pre ++ c :: post).foldl (selectStep uct heap total) (Score.negInf, none) =
        (Score.posInf, some c) := by
    intro total
    rw [List.foldl_append, List.foldl_cons]
    have hacc := selectStep_of_visited uct heap total pre (Score.negInf, none)
      (Or.inl rfl) hpre
    rw [selectStep_of_unvisited uct heap total _ c hacc hc, selectStep_of_posInf]
  have hbest : bestNode uct heap node = some c := by
    unfold bestNode
    rw [hchildren, hfold]
  refine ⟨fun total _ => hfold total, hbest, fun fuel path => ?_⟩
  rw [selectLoop]
  have hne : (nodeAt heap node).children ≠ [] := by
    rw [hchildren]; simp
  simp only [hne, if_false, hbest]

/-- Instance of `unvisited_child_selected`: in the tree for `stripedBoard` after two
iterations the root's children are 1 (visited), 2 and 3 (not visited); child 2 is chosen. -/
theorem unvisited_child_selected_witness :
    (nodeAt (stateAfter oobEmpty uctZero rndStriped 3 (MCTS.create stripedBoard) 2).heap
      0).children = [1] ++ 2 :: [3] ∧
    (nodeAt (stateAfter oobEmpty uctZero rndStriped 3 (MCTS.create stripedBoard) 2).heap
      2).visits = 0 ∧
    (∀ x ∈ [1], (nodeAt (stateAfter oobEmpty uctZero rndStriped 3
      (MCTS.create stripedBoard) 2).heap x).visits ≠ 0) ∧
    bestNode uctZero (stateAfter oobEmpty uctZero rndStriped 3
      (MCTS.create stripedBoard) 2).heap 0 = some 2 :=
  ⟨by decide!, by decide!, by decide!,
    (unvisited_child_selected uctZero
      (stateAfter oobEmpty uctZero rndStriped 3 (MCTS.create stripedBoard) 2).heap
      0 [1] [3] 2 (by decide!) (by decide!) (by decide!)).2.1⟩

/-! ### A board without legal move -/

theorem foldl_selectStep_snd (uct : Int → Nat → Nat → ℚ) (heap : List Node) (total : Nat)
    (l : List Nat) (acc : Score × Option Nat) :
    (l.foldl (selectStep uct heap total) acc).2 = acc.2 ∨
      ∃ c ∈ l, (l.foldl (selectStep uct heap total) acc).2 = some c := by
  induction l generalizing acc with
  | nil => exact Or.inl rfl
  | cons x l ih =>
    rw [List.foldl_cons]
    rcases ih (selectStep uct heap total acc x) with h | ⟨c, hc, h⟩
    · rw [h]
      unfold selectStep
      split
      · exact Or.inr ⟨x, List.mem_cons_self _ _, rfl⟩
      · exact Or.inl rfl
    · exact Or.inr ⟨c, List.mem_cons_of_mem _ hc, h⟩

/-- The node `select` moves to is one of the children. -/
theorem bestNode_mem (uct : Int → Nat → Nat → ℚ) (heap : List Node) (node c : Nat)
    (h : bestNode uct heap node = some c) : c ∈ (nodeAt heap node).children := by
  unfold bestNode at h
  rcases foldl_selectStep_snd uct heap ((nodeAt heap node).visits + 1)
    (nodeAt heap node).children (Score.negInf, none) with h' | ⟨x, hx, h'⟩
  · rw [h] at h'; exact Option.noConfusion h'
  · rw [h] at h'
    simp only [Option.some.injEq] at h'
    rw [h']; exact hx

/-- What a completed `select` loop returns: the path it was given, extended by a descent
from the start node to the node returned, which has no children. -/
theorem selectLoop_ok (uct : Int → Nat → Nat → ℚ) (heap : List Node) (fuel node : Nat)
    (p0 : List Nat) (leaf : Nat) (path : List Nat)
    (h : selectLoop uct heap fuel node p0 = Except.ok (leaf, path)) :
    ∃ ext, path = p0 ++ ext ∧ IsDescent heap node ext ∧
      (node :: ext).getLast? = some leaf ∧ (nodeAt heap leaf).children = [] := by
  induction fuel generalizing node p0 with
  | zero => simp [selectLoop] at h
  | succ fuel ih =>
    rw [selectLoop] at h
    by_cases hch : (nodeAt heap node).children = []
    · rw [if_pos hch] at h
      simp only [Except.ok.injEq, Prod.mk.injEq] at h
      obtain ⟨h1, h2⟩ := h
      subst h1 h2
      exact ⟨[], by simp, trivial, rfl, hch⟩
    · rw [if_neg hch] at h
      cases hb : bestNode uct heap node with
      | none => rw [hb] at h; simp at h
      | some best =>
        rw [hb] at h
        simp only at h
        obtain ⟨ext, hpath, hdesc, hlast, hleaf⟩ := ih best (p0 ++ [best]) h
        refine ⟨best :: ext, by rw [hpath]; simp, ⟨bestNode_mem uct heap node best hb, hdesc⟩,
          ?_, hleaf⟩
        rw [List.getLast?_cons_cons]
        exact hlast

/-- In a well-formed heap a descent climbs through ever larger addresses of allocated
nodes. -/
theorem isDescent_lt (heap : List Node) (hwf : HeapWF heap) (node : Nat)
    (hnode : node < heap.length) (ext : List Nat) (h : IsDescent heap node ext) :
    (∀ x ∈ ext, node < x ∧ x < heap.length) ∧ ext.Nodup := by
  induction ext generalizing node with
  | nil => exact ⟨by simp, List.nodup_nil⟩
  | cons c rest ih =>
    obtain ⟨hc, hrest⟩ := h
    obtain ⟨hlt, hclen⟩ := hwf.children_lt node hnode c hc
    obtain ⟨h1, h2⟩ := ih c hclen hrest
    refine ⟨?_, List.nodup_cons.2 ⟨fun hmem => ?_, h2⟩⟩
    · intro x hx
      rcases List.mem_cons.1 hx with h | h
      · rw [h]; exact ⟨hlt, hclen⟩
      · exact ⟨Nat.lt_trans hlt (h1 x h).1, (h1 x h).2⟩
    · exact Nat.lt_irrefl _ (h1 c hmem).1

/-- The result of `select(root)` on a well-formed heap. -/
theorem select_ok (uct : Int → Nat → Nat → ℚ) (heap : List Node) (hwf : HeapWF heap)
    (leaf : Nat) (path : List Nat) (h : select uct heap 0 = Except.ok (leaf, path)) :
    IsDescent heap 0 path ∧ (0 :: path).getLast? = some leaf ∧
    (nodeAt heap leaf).children = [] ∧ leaf < heap.length ∧
    (∀ x ∈ path, 0 < x ∧ x < heap.length) ∧ 0 ∉ path ∧ path.Nodup := by
  obtain ⟨ext, hpath, hdesc, hlast, hleaf⟩ := selectLoop_ok uct heap _ 0 [] leaf path h
  rw [List.nil_append] at hpath
  subst hpath
  obtain ⟨hlt, hnd⟩ := isDescent_lt heap hwf 0 hwf.root path hdesc
  refine ⟨hdesc, hlast, hleaf, ?_, hlt, fun h0 => Nat.lt_irrefl _ (hlt 0 h0).1, hnd⟩
  have hmem : leaf ∈ (0 :: path) := List.mem_of_getLast?_eq_some hlast
  rcases List.mem_cons.1 hmem with h | h
  · rw [h]; exact hwf.root
  · exact (hlt leaf h).2


/-! ### `backpropagate` -/

theorem length_backpropagate (result p : Int) (path : List Nat) (heap : List Node) :
    (backpropagate result p path heap).length = heap.length := by
  unfold backpropagate
  induction path generalizing heap with
  | nil => rfl
  | cons x xs ih =>
    rw [List.foldl_cons, ih]
    unfold backpropagateStep
    rw [List.length_set]

/-- The effect of `backpropagate` on a heap, for a path of distinct allocated nodes: the
nodes on the path get one visit more and `result * playForBlack` added to `wins`; nothing
else changes. -/
theorem nodeAt_backpropagate (result p : Int) (path : List Nat) (heap : List Node)
    (hnd : path.Nodup) (hlen : ∀ x ∈ path, x < heap.length) (a : Nat) :
    nodeAt (backpropagate result p path heap) a =
      if a ∈ path then
        { nodeAt heap a with
          visits := (nodeAt heap a).visits + 1
          wins := (nodeAt heap a).wins + result * p }
      else nodeAt heap a := by
  unfold backpropagate
  induction path generalizing heap with
  | nil => simp
  | cons x xs ih =>
    rw [List.foldl_cons]
    have hx : x < heap.length := hlen x (List.mem_cons_self _ _)
    have hxs : x ∉ xs := (List.nodup_cons.1 hnd).1
    have hlen1 : ∀ y ∈ xs, y < (backpropagateStep result p heap x).length := by
      intro y hy
      unfold backpropagateStep
      rw [List.length_set]
      exact hlen y (List.mem_cons_of_mem _ hy)
    rw [ih _ (List.nodup_cons.1 hnd).2 hlen1]
    by_cases ha : a ∈ xs
    · have hax : x ≠ a := fun h => hxs (h ▸ ha)
      have h1 : nodeAt (backpropagateStep result p heap x) a = nodeAt heap a := by
        unfold backpropagateStep
        rw [nodeAt_set_ne _ hax]
      simp only [ha, List.mem_cons, or_true, if_true, h1]
    · by_cases hax : a = x
      · subst hax
        have h1 : nodeAt (backpropagateStep result p heap a) a =
            { nodeAt heap a with
              visits := (nodeAt heap a).visits + 1
              wins := (nodeAt heap a).wins + result * p } := by
          unfold backpropagateStep
          rw [nodeAt_set_same _ hx]
        simp only [ha, if_false, List.mem_cons, true_or, if_true, h1]
      · have h1 : nodeAt (backpropagateStep result p heap x) a = nodeAt heap a := by
          unfold backpropagateStep
          rw [nodeAt_set_ne _ (Ne.symm hax)]
        simp only [ha, if_false, List.mem_cons, hax, or_self, h1]

/-! ### One iteration of `runMCTS` -/

/-- The steps of a completed iteration. -/
theorem iteration_ok (oob : Pt → Color) (uct : Int → Nat → Nat → ℚ) (rnd : Nat → Nat)
    (fuel : Nat) (s s' : MCTS) (hwf : HeapWF s.heap)
    (h : iteration oob uct rnd fuel s = Except.ok s') :
    ∃ leaf path result final,
      select uct s.heap 0 = Except.ok (leaf, path) ∧
      (nodeAt (expand oob s.heap leaf) leaf).children ≠ [] ∧
      playout oob (fun k => rnd (k + 1)) fuel
        (nodeAt (expand oob s.heap leaf)
          ((nodeAt (expand oob s.heap leaf) leaf).children.getD
            (rnd 0 % (nodeAt (expand oob s.heap leaf) leaf).children.length) 0)).board =
        some (result, final) ∧
      s'.heap = backpropagate result s.playForBlack path
        ((expand oob s.heap leaf).set
          ((nodeAt (expand oob s.heap leaf) leaf).children.getD
            (rnd 0 % (nodeAt (expand oob s.heap leaf) leaf).children.length) 0)
          { nodeAt (expand oob s.heap leaf)
              ((nodeAt (expand oob s.heap leaf) leaf).children.getD
                (rnd 0 % (nodeAt (expand oob s.heap leaf) leaf).children.length) 0) with
            board := final }) ∧
      s'.path = path ∧ s'.playForBlack = s.playForBlack := by
  unfold iteration at h
  cases hsel : select uct s.heap 0 with
  | error f => rw [hsel] at h; simp at h
  | ok r =>
    obtain ⟨leaf, path⟩ := r
    rw [hsel] at h
    have hleaf := (select_ok uct s.heap hwf leaf path hsel).2.2.1
    simp only [hleaf, if_true, true_and] at h
    by_cases hzero : (nodeAt (expand oob s.heap leaf) leaf).children.length = 0
    · simp [hzero] at h
    · simp only [hzero, if_false] at h
      cases hplay : playout oob (fun k => rnd (k + 1)) fuel
          (nodeAt (expand oob s.heap leaf)
            ((nodeAt (expand oob s.heap leaf) leaf).children.getD
              (rnd 0 % (nodeAt (expand oob s.heap leaf) leaf).children.length) 0)).board with
      | none => rw [hplay] at h; simp at h
      | some r =>
        obtain ⟨result, final⟩ := r
        rw [hplay] at h
        simp only [Except.ok.injEq] at h
        refine ⟨leaf, path, result, final, rfl, ?_, hplay, ?_, ?_, ?_⟩
        · intro hnil
          exact hzero (by rw [hnil]; rfl)
        · rw [← h]
        · rw [← h]
        · rw [← h]


/-! ### The shape of the tree during a session -/

theorem heapWF_create (b : Board) : HeapWF (MCTS.create b).heap where
  root := by simp [MCTS.create]
  children_lt := by
    intro a ha c hc
    have ha0 : a = 0 := by
      simp [MCTS.create] at ha
      exact ha
    subst ha0
    have : (nodeAt (MCTS.create b).heap 0).children = [] := rfl
    rw [this] at hc
    exact absurd hc (List.not_mem_nil c)

/-- Heaps of the same length whose nodes have the same children are well-formed
together. -/
theorem heapWF_of_same_shape (h1 h2 : List Node) (hwf : HeapWF h1)
    (hlen : h2.length = h1.length)
    (hch : ∀ a, (nodeAt h2 a).children = (nodeAt h1 a).children) : HeapWF h2 where
  root := by rw [hlen]; exact hwf.root
  children_lt := by
    intro a ha c hc
    rw [hch a] at hc
    rw [hlen] at ha ⊢
    exact hwf.children_lt a ha c hc

/-- Overwriting the board of a node changes no other member of any node. -/
theorem nodeAt_set_board (heap : List Node) (node : Nat) (final : Board) (a : Nat) :
    (nodeAt (heap.set node { nodeAt heap node with board := final }) a).children =
      (nodeAt heap a).children ∧
    (nodeAt (heap.set node { nodeAt heap node with board := final }) a).visits =
      (nodeAt heap a).visits ∧
    (nodeAt (heap.set node { nodeAt heap node with board := final }) a).wins =
      (nodeAt heap a).wins ∧
    (nodeAt (heap.set node { nodeAt heap node with board := final }) a).move =
      (nodeAt heap a).move := by
  by_cases hna : node = a
  · subst hna
    by_cases hlt : node < heap.length
    · rw [nodeAt_set_same _ hlt]
      exact ⟨rfl, rfl, rfl, rfl⟩
    · rw [nodeAt_set_of_length_le _ (Nat.le_of_not_lt hlt)]
      exact ⟨rfl, rfl, rfl, rfl⟩
  · rw [nodeAt_set_ne _ hna]
    exact ⟨rfl, rfl, rfl, rfl⟩

/-- The children of the nodes after `expand` on a childless allocated node. -/
theorem expand_children (oob : Pt → Color) (heap : List Node) (leaf : Nat)
    (hleaf : leaf < heap.length) (hch : (nodeAt heap leaf).children = []) (a : Nat) :
    (nodeAt (expand oob heap leaf) a).children =
      if a = leaf then
        List.range' heap.length (validMoves oob (nodeAt heap leaf).board).length
      else (nodeAt heap a).children := by
  obtain ⟨h1, h2, h3, _, _, _, _, h8⟩ := expand_spec oob heap leaf hleaf hch
  by_cases hal : a = leaf
  · rw [if_pos hal, hal, h2]
  · rw [if_neg hal]
    by_cases halt : a < heap.length
    · rw [h8 a halt hal]
    · by_cases hnew : a < heap.length + (validMoves oob (nodeAt heap leaf).board).length
      · have hi : a - heap.length < (validMoves oob (nodeAt heap leaf).board).length := by omega
        have hnode := h3 (a - heap.length) hi
        rw [show heap.length + (a - heap.length) = a by omega] at hnode
        have hblank := nodeAt_of_length_le heap (Nat.le_of_not_lt halt)
        rw [hnode, hblank]
        rfl
      · have hblank := nodeAt_of_length_le heap (Nat.le_of_not_lt halt)
        have hblank' : nodeAt (expand oob heap leaf) a = Node.create Board.init ⟨-1, -1⟩ :=
          nodeAt_of_length_le _ (by rw [h1]; omega)
        rw [hblank, hblank']

/-- The function `expand` changes no visit count: old nodes keep theirs and new nodes start
at 0. -/
theorem expand_visits (oob : Pt → Color) (heap : List Node) (leaf : Nat)
    (hleaf : leaf < heap.length) (hch : (nodeAt heap leaf).children = []) (a : Nat) :
    (nodeAt (expand oob heap leaf) a).visits = (nodeAt heap a).visits := by
  obtain ⟨h1, _, h3, _, _, h6, _, h8⟩ := expand_spec oob heap leaf hleaf hch
  by_cases hal : a = leaf
  · rw [hal, h6]
  · by_cases halt : a < heap.length
    · rw [h8 a halt hal]
    · by_cases hnew : a < heap.length + (validMoves oob (nodeAt heap leaf).board).length
      · have hi : a - heap.length < (validMoves oob (nodeAt heap leaf).board).length := by omega
        have hnode := h3 (a - heap.length) hi
        rw [show heap.length + (a - heap.length) = a by omega] at hnode
        have hblank := nodeAt_of_length_le heap (Nat.le_of_not_lt halt)
        rw [hnode, hblank]
        rfl
      · have hblank := nodeAt_of_length_le heap (Nat.le_of_not_lt halt)
        have hblank' : nodeAt (expand oob heap leaf) a = Node.create Board.init ⟨-1, -1⟩ :=
          nodeAt_of_length_le _ (by rw [h1]; omega)
        rw [hblank, hblank']

theorem heapWF_expand (oob : Pt → Color) (heap : List Node) (hwf : HeapWF heap) (leaf : Nat)
    (hleaf : leaf < heap.length) (hch : (nodeAt heap leaf).children = []) :
    HeapWF (expand oob heap leaf) where
  root := by
    rw [(expand_spec oob heap leaf hleaf hch).1]
    exact Nat.lt_of_lt_of_le hwf.root (Nat.le_add_right _ _)
  children_lt := by
    intro a ha c hc
    have hlen := (expand_spec oob heap leaf hleaf hch).1
    rw [expand_children oob heap leaf hleaf hch] at hc
    rw [hlen] at ha ⊢
    by_cases hal : a = leaf
    · rw [if_pos hal] at hc
      have := List.mem_range'_1.1 hc
      omega
    · rw [if_neg hal] at hc
      by_cases halt : a < heap.length
      · have := hwf.children_lt a halt c hc
        omega
      · rw [nodeAt_of_length_le heap (Nat.le_of_not_lt halt)] at hc
        exact absurd hc (List.not_mem_nil c)

/-- A completed iteration keeps the heap well-formed and adds one visit exactly to the
nodes on the recorded path. -/
theorem iteration_effect (oob : Pt → Color) (uct : Int → Nat → Nat → ℚ) (rnd : Nat → Nat)
    (fuel : Nat) (s s' : MCTS) (hwf : HeapWF s.heap)
    (h : iteration oob uct rnd fuel s = Except.ok s') :
    HeapWF s'.heap ∧ s'.playForBlack = s.playForBlack ∧ s.heap.length ≤ s'.heap.length ∧
    ∃ leaf, select uct s.heap 0 = Except.ok (leaf, s'.path) ∧
      ∀ a, (nodeAt s'.heap a).visits =
        (nodeAt s.heap a).visits + (if a ∈ s'.path then 1 else 0) := by
  obtain ⟨leaf, path, result, final, hsel, _, _, hheap, hpath, hpfb⟩ :=
    iteration_ok oob uct rnd fuel s s' hwf h
  obtain ⟨_, _, hch, hleaf, hlt, _, hnd⟩ := select_ok uct s.heap hwf leaf path hsel
  have hexp := heapWF_expand oob s.heap hwf leaf hleaf hch
  have hlenexp := (expand_spec oob s.heap leaf hleaf hch).1
  have hvalid : ∀ x ∈ path, x < ((expand oob s.heap leaf).set
      ((nodeAt (expand oob s.heap leaf) leaf).children.getD
        (rnd 0 % (nodeAt (expand oob s.heap leaf) leaf).children.length) 0)
      { nodeAt (expand oob s.heap leaf)
          ((nodeAt (expand oob s.heap leaf) leaf).children.getD
            (rnd 0 % (nodeAt (expand oob s.heap leaf) leaf).children.length) 0) with
        board := final }).length := by
    intro x hx
    rw [List.length_set, hlenexp]
    exact Nat.lt_of_lt_of_le (hlt x hx).2 (Nat.le_add_right _ _)
  have hnode := fun a => nodeAt_backpropagate result s.playForBlack path _ hnd hvalid a
  rw [← hheap] at hnode
  have hlen : s'.heap.length = (expand oob s.heap leaf).length := by
    rw [hheap, length_backpropagate, List.length_set]
  refine ⟨?_, hpfb, by rw [hlen, hlenexp]; exact Nat.le_add_right _ _, leaf,
    by rw [hpath]; exact hsel, ?_⟩
  · refine heapWF_of_same_shape _ _ hexp hlen (fun a => ?_)
    rw [hnode a]
    split
    · exact (nodeAt_set_board _ _ final a).1
    · exact (nodeAt_set_board _ _ final a).1
  · intro a
    rw [hnode a, hpath]
    by_cases ha : a ∈ path
    · simp only [ha, if_true]
      rw [(nodeAt_set_board _ _ final a).2.1, expand_visits oob s.heap leaf hleaf hch]
    · simp only [ha, if_false]
      rw [(nodeAt_set_board _ _ final a).2.1, expand_visits oob s.heap leaf hleaf hch]
      rfl

/-- Invariants of a session: at every turn of the loop of `runMCTS` the heap is well-formed,
the root has visit count 0, and `playForBlack` is what the constructor set. -/
theorem runLoop_invariant (oob : Pt → Color) (uct : Int → Nat → Nat → ℚ)
    (rnds : Nat → Nat → Nat) (fuel n i : Nat) (s s' : MCTS) (hwf : HeapWF s.heap)
    (hroot : (nodeAt s.heap 0).visits = 0)
    (h : runLoop oob uct rnds fuel n i s = Except.ok s') :
    HeapWF s'.heap ∧ (nodeAt s'.heap 0).visits = 0 ∧ s'.playForBlack = s.playForBlack := by
  induction n generalizing i s with
  | zero =>
    simp only [runLoop, Except.ok.injEq] at h
    subst h
    exact ⟨hwf, hroot, rfl⟩
  | succ n ih =>
    rw [runLoop] at h
    cases hit : iteration oob uct (rnds i) fuel s with
    | error f => rw [hit] at h; simp at h
    | ok s1 =>
      rw [hit] at h
      simp only at h
      obtain ⟨hwf1, hpfb1, _, leaf, hsel, hvis⟩ :=
        iteration_effect oob uct (rnds i) fuel s s1 hwf hit
      have h0 : (0 : Nat) ∉ s1.path := (select_ok uct s.heap hwf leaf s1.path hsel).2.2.2.2.2.1
      have hroot1 : (nodeAt s1.heap 0).visits = 0 := by
        rw [hvis 0, hroot, if_neg h0]
      obtain ⟨hw, hr, hp⟩ := ih (i + 1) s1 hwf1 hroot1 h
      exact ⟨hw, hr, by rw [hp, hpfb1]⟩


/-! ### Backpropagation, visit counts and the totals passed to `UCT` -/

theorem playout_value (oob : Pt → Color) (rnd : Nat → Nat) (fuel : Nat) (b : Board)
    (r : Int × Board) (h : playout oob rnd fuel b = some r) : r.1 = 1 ∨ r.1 = -1 := by
  unfold playout at h
  cases hl : playoutLoop oob rnd fuel 0 b with
  | none => rw [hl] at h; simp at h
  | some final =>
    rw [hl] at h
    simp only [Option.map_some', Option.some.injEq] at h
    rw [← h]
    simp only
    split
    · exact Or.inl rfl
    · exact Or.inr rfl

/-- The totals logged by `selectTotals` are those of the nodes `select` goes through: the
start node and nodes of the path. -/
theorem selectTotals_mem (uct : Int → Nat → Nat → ℚ) (heap : List Node) (fuel node : Nat)
    (p0 : List Nat) (leaf : Nat) (path : List Nat)
    (h : selectLoop uct heap fuel node p0 = Except.ok (leaf, path)) (x t : Nat)
    (hx : (x, t) ∈ selectTotals uct heap fuel node) :
    t = (nodeAt heap x).visits + 1 ∧ (nodeAt heap x).children ≠ [] ∧
      (x = node ∨ x ∈ path) := by
  induction fuel generalizing node p0 with
  | zero => simp [selectLoop] at h
  | succ fuel ih =>
    rw [selectLoop] at h
    rw [selectTotals] at hx
    by_cases hch : (nodeAt heap node).children = []
    · rw [if_pos hch] at hx
      exact absurd hx (List.not_mem_nil _)
    · rw [if_neg hch] at h hx
      cases hb : bestNode uct heap node with
      | none => rw [hb] at h; simp at h
      | some best =>
        rw [hb] at h hx
        simp only at h hx
        rcases List.mem_cons.1 hx with hhead | htail
        · simp only [Prod.mk.injEq] at hhead
          obtain ⟨h1, h2⟩ := hhead
          subst h1 h2
          exact ⟨rfl, hch, Or.inl rfl⟩
        · obtain ⟨ht, hc, hmem⟩ := ih best (p0 ++ [best]) h htail
          refine ⟨ht, hc, Or.inr ?_⟩
          obtain ⟨ext, hpath, _⟩ := selectLoop_ok uct heap fuel best (p0 ++ [best]) leaf path h
          rcases hmem with hm | hm
          · rw [hm, hpath]; simp
          · exact hm

/-- C16 (backpropagation).  In an iteration of a session started by `MCTS(b)`:
`playForBlack` is `+1` if `b` had Black to move and `-1` otherwise, and is not changed;
the path recorded by `select(root)` is a descent from the root (first a child of the root,
then each time a child of the node before, down to the node `select` returns) that does not
contain the root; and `backpropagate(result)`, which the iteration applies to the heap `mid`
as expansion and playout left it, adds 1 to `visits` and `result * playForBlack` to `wins`
of the nodes on that path and leaves every other node as it was. -/
theorem backpropagation (oob : Pt → Color) (uct : Int → Nat → Nat → ℚ)
    (rnds : Nat → Nat → Nat) (fuel : Nat) (b : Board) (n : Nat) (s s' : MCTS)
    (hs : runLoop oob uct rnds fuel n 0 (MCTS.create b) = Except.ok s)
    (hit : iteration oob uct (rnds n) fuel s = Except.ok s') :
    (s.playForBlack = (if b.turnColor = Color.Black then 1 else -1) ∧
      s'.playForBlack = s.playForBlack) ∧
    (∃ leaf, select uct s.heap 0 = Except.ok (leaf, s'.path) ∧
      IsDescent s.heap 0 s'.path ∧ (0 :: s'.path).getLast? = some leaf ∧ 0 ∉ s'.path) ∧
    (∃ result mid, (result = 1 ∨ result = -1) ∧ s.heap.length ≤ mid.length ∧
      s'.heap = backpropagate result s.playForBlack s'.path mid) ∧
    ∀ (result : Int) (mid : List Node), s.heap.length ≤ mid.length →
      (∀ a ∈ s'.path, nodeAt (backpropagate result s.playForBlack s'.path mid) a =
        { nodeAt mid a with
          visits := (nodeAt mid a).visits + 1
          wins := (nodeAt mid a).wins + result * s.playForBlack }) ∧
      (∀ a, a ∉ s'.path →
        nodeAt (backpropagate result s.playForBlack s'.path mid) a = nodeAt mid a) := by
  obtain ⟨hwf, _, hpfb⟩ := runLoop_invariant oob uct rnds fuel n 0 (MCTS.create b) s
    (heapWF_create b) rfl hs
  obtain ⟨leaf, path, result, final, hsel, _, hplay, hheap, hpath, hpfb'⟩ :=
    iteration_ok oob uct (rnds n) fuel s s' hwf hit
  rw [← hpath] at hsel hheap
  obtain ⟨hdesc, hlast, hch, hleaf, hlt, h0, hnd⟩ := select_ok uct s.heap hwf leaf s'.path hsel
  refine ⟨⟨hpfb, hpfb'⟩, ⟨leaf, hsel, hdesc, hlast, h0⟩,
    ⟨result, _, playout_value oob _ fuel _ (result, final) hplay, ?_, hheap⟩, ?_⟩
  · rw [List.length_set, (expand_spec oob s.heap leaf hleaf hch).1]
    exact Nat.le_add_right _ _
  · intro r mid hmid
    have hvalid : ∀ x ∈ s'.path, x < mid.length := fun x hx =>
      Nat.lt_of_lt_of_le (hlt x hx).2 hmid
    refine ⟨fun a ha => ?_, fun a ha => ?_⟩
    · rw [nodeAt_backpropagate r s.playForBlack s'.path mid hnd hvalid a, if_pos ha]
    · rw [nodeAt_backpropagate r s.playForBlack s'.path mid hnd hvalid a, if_neg ha]

/-- Instance of `backpropagation`: the second iteration on the tree built for
`stripedBoard`, whose root has White to move. -/
theorem backpropagation_witness :
    runLoop oobEmpty uctZero rndStriped 3 1 0 (MCTS.create stripedBoard) =
      Except.ok (stateAfter oobEmpty uctZero rndStriped 3 (MCTS.create stripedBoard) 1) ∧
    iteration oobEmpty uctZero (rndStriped 1) 3
      (stateAfter oobEmpty uctZero rndStriped 3 (MCTS.create stripedBoard) 1) =
      Except.ok (stateAfter oobEmpty uctZero rndStriped 3 (MCTS.create stripedBoard) 2) ∧
    ((stateAfter oobEmpty uctZero rndStriped 3 (MCTS.create stripedBoard) 1).playForBlack =
        (if stripedBoard.turnColor = Color.Black then 1 else -1) ∧
      (stateAfter oobEmpty uctZero rndStriped 3 (MCTS.create stripedBoard) 2).playForBlack =
        (stateAfter oobEmpty uctZero rndStriped 3 (MCTS.create stripedBoard) 1).playForBlack) ∧
    (stateAfter oobEmpty uctZero rndStriped 3 (MCTS.create stripedBoard) 2).path = [1] ∧
    (nodeAt (stateAfter oobEmpty uctZero rndStriped 3 (MCTS.create stripedBoard) 2).heap
      1).wins = -1 :=
  ⟨by decide!, by decide!,
    (backpropagation oobEmpty uctZero rndStriped 3 stripedBoard 1
      (stateAfter oobEmpty uctZero rndStriped 3 (MCTS.create stripedBoard) 1)
      (stateAfter oobEmpty uctZero rndStriped 3 (MCTS.create stripedBoard) 2)
      (by decide!) (by decide!)).1,
    by decide!, by decide!⟩

/-- C15, as amended.  In an iteration of a session, the visit count of a node increases by
exactly 1 if the node is on the path recorded by `select` (the nodes `select` descended
to, from the first child of the root down to the node it returns) and is unchanged
otherwise.  The root is not on the path, and neither is any node created in this iteration,
among them the child from which the simulation is run: their counts do not change. -/
theorem visit_accounting (oob : Pt → Color) (uct : Int → Nat → Nat → ℚ)
    (rnds : Nat → Nat → Nat) (fuel : Nat) (b : Board) (n : Nat) (s s' : MCTS)
    (hs : runLoop oob uct rnds fuel n 0 (MCTS.create b) = Except.ok s)
    (hit : iteration oob uct (rnds n) fuel s = Except.ok s') :
    (∀ a, (nodeAt s'.heap a).visits =
      (nodeAt s.heap a).visits + (if a ∈ s'.path then 1 else 0)) ∧
    (∃ leaf, select uct s.heap 0 = Except.ok (leaf, s'.path) ∧
      IsDescent s.heap 0 s'.path ∧ (0 :: s'.path).getLast? = some leaf) ∧
    (0 ∉ s'.path ∧ (nodeAt s'.heap 0).visits = (nodeAt s.heap 0).visits) ∧
    (∀ a, s.heap.length ≤ a → a ∉ s'.path ∧ (nodeAt s'.heap a).visits = 0) := by
  obtain ⟨hwf, _, _⟩ := runLoop_invariant oob uct rnds fuel n 0 (MCTS.create b) s
    (heapWF_create b) rfl hs
  obtain ⟨_, _, _, leaf, hsel, hvis⟩ := iteration_effect oob uct (rnds n) fuel s s' hwf hit
  obtain ⟨hdesc, hlast, _, _, hlt, h0, _⟩ := select_ok uct s.heap hwf leaf s'.path hsel
  refine ⟨hvis, ⟨leaf, hsel, hdesc, hlast⟩, ⟨h0, by rw [hvis 0, if_neg h0]; rfl⟩, ?_⟩
  intro a ha
  have hnot : a ∉ s'.path := fun hmem => by
    have := (hlt a hmem).2
    omega
  refine ⟨hnot, ?_⟩
  rw [hvis a, if_neg hnot, nodeAt_of_length_le s.heap ha]
  rfl

/-- Instance of `visit_accounting`: in the second iteration on the tree built for
`stripedBoard` the path is `[1]` and node 1 goes from 0 visits to 1. -/
theorem visit_accounting_witness :
    runLoop oobEmpty uctZero rndStriped 3 1 0 (MCTS.create stripedBoard) =
      Except.ok (stateAfter oobEmpty uctZero rndStriped 3 (MCTS.create stripedBoard) 1) ∧
    iteration oobEmpty uctZero (rndStriped 1) 3
      (stateAfter oobEmpty uctZero rndStriped 3 (MCTS.create stripedBoard) 1) =
      Except.ok (stateAfter oobEmpty uctZero rndStriped 3 (MCTS.create stripedBoard) 2) ∧
    (stateAfter oobEmpty uctZero rndStriped 3 (MCTS.create stripedBoard) 2).path = [1] ∧
    (nodeAt (stateAfter oobEmpty uctZero rndStriped 3 (MCTS.create stripedBoard) 2).heap
      1).visits =
      (nodeAt (stateAfter oobEmpty uctZero rndStriped 3 (MCTS.create stripedBoard) 1).heap
        1).visits +
      (if 1 ∈ (stateAfter oobEmpty uctZero rndStriped 3 (MCTS.create stripedBoard) 2).path
        then 1 else 0) :=
  ⟨by decide!, by decide!, by decide!,
    (visit_accounting oobEmpty uctZero rndStriped 3 stripedBoard 1
      (stateAfter oobEmpty uctZero rndStriped 3 (MCTS.create stripedBoard) 1)
      (stateAfter oobEmpty uctZero rndStriped 3 (MCTS.create stripedBoard) 2)
      (by decide!) (by decide!)).1 1⟩

/-- C15 fails as stated: in the first iteration on the tree built for `stripedBoard`,
`select` starts at the root and returns it (the path is empty), the root is expanded, and
the simulation is run from its child at address 2, whose board the playout overwrites.  The
selection has passed through the root and the simulation was run from node 2, yet both have
visit count 0 before and after the iteration. -/
theorem visits_not_counted :
    iteration oobEmpty uctZero (rndStriped 0) 3 (MCTS.create stripedBoard) =
      Except.ok (stateAfter oobEmpty uctZero rndStriped 3 (MCTS.create stripedBoard) 1) ∧
    select uctZero (MCTS.create stripedBoard).heap 0 = Except.ok (0, []) ∧
    (nodeAt (expand oobEmpty (MCTS.create stripedBoard).heap 0) 0).children.getD
      (rndStriped 0 0 %
        (nodeAt (expand oobEmpty (MCTS.create stripedBoard).heap 0) 0).children.length) 0 = 2 ∧
    (nodeAt (stateAfter oobEmpty uctZero rndStriped 3 (MCTS.create stripedBoard) 1).heap
      2).board ≠ (nodeAt (expand oobEmpty (MCTS.create stripedBoard).heap 0) 2).board ∧
    (nodeAt (MCTS.create stripedBoard).heap 0).visits = 0 ∧
    (nodeAt (stateAfter oobEmpty uctZero rndStriped 3 (MCTS.create stripedBoard) 1).heap
      0).visits = 0 ∧
    (nodeAt (expand oobEmpty (MCTS.create stripedBoard).heap 0) 2).visits = 0 ∧
    (nodeAt (stateAfter oobEmpty uctZero rndStriped 3 (MCTS.create stripedBoard) 1).heap
      2).visits = 0 := by
  decide!

/-- C18, as amended.  In an iteration of a session, at every node other than the root where
`select` chooses among children, the visit total passed to the children's `UCT` (the node's
count plus 1) equals the node's visit count as it stands after this iteration's
backpropagation.  At the root the total passed is always 1, while the root's own visit
count is 0 before and after every iteration: the root is never on the path. -/
theorem uct_parent_total (oob : Pt → Color) (uct : Int → Nat → Nat → ℚ)
    (rnds : Nat → Nat → Nat) (fuel : Nat) (b : Board) (n : Nat) (s s' : MCTS)
    (hs : runLoop oob uct rnds fuel n 0 (MCTS.create b) = Except.ok s)
    (hit : iteration oob uct (rnds n) fuel s = Except.ok s') :
    ((nodeAt s.heap 0).visits = 0 ∧ (nodeAt s'.heap 0).visits = 0) ∧
    ∀ x t, (x, t) ∈ selectTotals uct s.heap s.heap.length 0 →
      t = (nodeAt s.heap x).visits + 1 ∧
      (x ≠ 0 → (nodeAt s'.heap x).visits = t) ∧
      (x = 0 → t = 1) := by
  obtain ⟨hwf, hroot, _⟩ := runLoop_invariant oob uct rnds fuel n 0 (MCTS.create b) s
    (heapWF_create b) rfl hs
  obtain ⟨_, _, _, leaf, hsel, hvis⟩ := iteration_effect oob uct (rnds n) fuel s s' hwf hit
  have h0 := (select_ok uct s.heap hwf leaf s'.path hsel).2.2.2.2.2.1
  refine ⟨⟨hroot, by rw [hvis 0, if_neg h0, hroot]⟩, ?_⟩
  intro x t hx
  obtain ⟨ht, _, hmem⟩ := selectTotals_mem uct s.heap s.heap.length 0 [] leaf s'.path hsel x t hx
  refine ⟨ht, fun hne => ?_, fun heq => by rw [ht, heq, hroot]⟩
  rcases hmem with h | h
  · exact absurd h hne
  · rw [hvis x, if_pos h, ht]

/-- Instance of `uct_parent_total`: the second iteration on the tree built for
`stripedBoard`; the root's visit count is 0 before and after it. -/
theorem uct_parent_total_witness :
    runLoop oobEmpty uctZero rndStriped 3 1 0 (MCTS.create stripedBoard) =
      Except.ok (stateAfter oobEmpty uctZero rndStriped 3 (MCTS.create stripedBoard) 1) ∧
    iteration oobEmpty uctZero (rndStriped 1) 3
      (stateAfter oobEmpty uctZero rndStriped 3 (MCTS.create stripedBoard) 1) =
      Except.ok (stateAfter oobEmpty uctZero rndStriped 3 (MCTS.create stripedBoard) 2) ∧
    ((nodeAt (stateAfter oobEmpty uctZero rndStriped 3 (MCTS.create stripedBoard) 1).heap
        0).visits = 0 ∧
      (nodeAt (stateAfter oobEmpty uctZero rndStriped 3 (MCTS.create stripedBoard) 2).heap
        0).visits = 0) :=
  ⟨by decide!, by decide!,
    (uct_parent_total oobEmpty uctZero rndStriped 3 stripedBoard 1
      (stateAfter oobEmpty uctZero rndStriped 3 (MCTS.create stripedBoard) 1)
      (stateAfter oobEmpty uctZero rndStriped 3 (MCTS.create stripedBoard) 2)
      (by decide!) (by decide!)).1⟩

/-- C18 fails as stated, at the root: in the second iteration on the tree built for
`stripedBoard` the root has children, `select` scores them with the visit total 1 (this is
its only choice among children in that iteration), and the root's visit count after the
iteration's backpropagation is 0, not 1. -/
theorem root_total_differs :
    iteration oobEmpty uctZero (rndStriped 1) 3
      (stateAfter oobEmpty uctZero rndStriped 3 (MCTS.create stripedBoard) 1) =
      Except.ok (stateAfter oobEmpty uctZero rndStriped 3 (MCTS.create stripedBoard) 2) ∧
    (nodeAt (stateAfter oobEmpty uctZero rndStriped 3 (MCTS.create stripedBoard) 1).heap
      0).children = [1, 2, 3] ∧
    selectTotals uctZero
      (stateAfter oobEmpty uctZero rndStriped 3 (MCTS.create stripedBoard) 1).heap
      (stateAfter oobEmpty uctZero rndStriped 3 (MCTS.create stripedBoard) 1).heap.length 0 =
      [(0, 1)] ∧
    (nodeAt (stateAfter oobEmpty uctZero rndStriped 3 (MCTS.create stripedBoard) 2).heap
      0).visits = 0 := by
  decide!

/-! ### Search on a board reached by play -/

end GoEngine
